import Mathlib

/-!
# Lightpack — `Software/grab/calculations.cpp`

A shallow embedding of the colour averaging code of Lightpack's grabber and the
properties proved about it.

Conventions of the embedding:

* a C `int` is a Lean `Int` in `[-2^31, 2^31)`; every `int` addition and multiplication is
  followed by `toInt32` (two's complement wrap-around), and `/` is the truncating `Int.tdiv`;
* a C `unsigned int` (also `QRgb`) is a Lean `Nat` below `2^32`; every operation is taken
  modulo `2^32`;
* a `const unsigned char *` is a `Buffer`: a block of `size` bytes together with the position
  of the pointer inside the block; a read outside the block is the fault `outOfBounds`;
* the two `for` loops of `accumulateBuffer` carry a bound `fuel` on the number of iterations
  of each loop; a loop that needs more iterations ends in the fault `outOfFuel`.
-/

namespace Grab

/-- Ways in which a run of the embedded code fails to deliver a value. -/
inductive Fault where
  /-- A loop did not finish within the allowed number of iterations. -/
  | outOfFuel
  /-- A byte was read outside the block the buffer pointer points into. -/
  | outOfBounds
  /-- The `Q_ASSERT_X` on the rectangle width failed. -/
  | assertFailed
  /-- An integer division by zero. -/
  | divByZero
  deriving DecidableEq

/-- The C `int` obtained from the integer `n` by two's complement wrap-around. -/
def toInt32 (n : Int) : Int := (n + 2147483648) % 4294967296 - 2147483648

/-- The C `unsigned int` obtained from the integer `n` (conversion modulo `2^32`). -/
def toUInt32 (n : Int) : Nat := (n % 4294967296).toNat

/-- Bitwise `a & b` on two C `int` values. -/
def andInt (a b : Int) : Int := toInt32 ((toUInt32 a &&& toUInt32 b : Nat) : Int)

/-- The geometry of a `QRect` as read through `x()`, `y()`, `width()`, `height()`. -/
structure QRect where
  x : Int
  y : Int
  width : Int
  height : Int
  deriving DecidableEq

/-- A `const unsigned char *`: a block of `size` bytes with contents `byte`, and the position
`off` of the pointer inside the block. -/
structure Buffer where
  size : Nat
  byte : Nat → Fin 256
  off : Nat

/-- The read `buffer[index]`. -/
def Buffer.read (buffer : Buffer) (index : Int) : Except Fault Nat :=
  if 0 ≤ (buffer.off : Int) + index ∧ (buffer.off : Int) + index < buffer.size then
    .ok (buffer.byte ((buffer.off : Int) + index).toNat).val
  else
    .error .outOfBounds

/-- The pointer step `buffer += n`. -/
def Buffer.advance (buffer : Buffer) (n : Nat) : Buffer :=
  { buffer with off := buffer.off + n }

/-- The constant `bytesPerPixel` (a `const char`, promoted to `int` where used). -/
def bytesPerPixel : Int := 4

/-- The local struct `ColorValue`. -/
structure ColorValue where
  r : Int
  g : Int
  b : Int
  deriving DecidableEq

/-- The function `baseIndexOfLine`: `pitch * (rect.y()+currentY) + rect.x()*bytesPerPixel`,
computed in `unsigned int` (because of `pitch`) and returned as `int`. -/
def baseIndexOfLine (currentY : Int) (pitch : Nat) (rect : QRect) : Int :=
  toInt32 (((pitch * toUInt32 (toInt32 (rect.y + currentY)) % 4294967296
    + toUInt32 (toInt32 (rect.x * bytesPerPixel))) % 4294967296 : Nat) : Int)

/-- The constant `rowsRequired` of the sparse walk. -/
def rowsRequired : Int := 16

/-- The constant `columnsRequired` of the sparse walk. -/
def columnsRequired : Int := 16

/-- The running state of `accumulateBuffer`: the three `unsigned int` channel sums and the
`int` sample count. -/
structure Acc where
  ch0 : Nat
  ch1 : Nat
  ch2 : Nat
  count : Int
  deriving DecidableEq

/-- The inner loop of the sparse walk, from the loop test on:
`for (...; currentX < rect.width(); currentX += rect.width() / columnsRequired)`. -/
def sparseColumns (buffer : Buffer) (rect : QRect) : Nat → Int → Int → Acc → Except Fault Acc
  | 0, _, _, _ => .error .outOfFuel
  | fuel + 1, currentX, index, a =>
    if currentX < rect.width then do
      let b0 ← buffer.read index
      let b1 ← buffer.read (toInt32 (index + 1))
      let b2 ← buffer.read (toInt32 (index + 2))
      sparseColumns buffer rect fuel
        (toInt32 (currentX + rect.width.tdiv columnsRequired))
        (toInt32 (index + toInt32 (rect.width.tdiv columnsRequired * bytesPerPixel)))
        { ch0 := (a.ch0 + b0) % 4294967296
          ch1 := (a.ch1 + b1) % 4294967296
          ch2 := (a.ch2 + b2) % 4294967296
          count := toInt32 (a.count + 1) }
    else
      .ok a

/-- The outer loop of the sparse walk, from the loop test on:
`for (...; currentY < rect.height(); currentY += rect.height() / rowsRequired)`.
The inner loop gets the iteration bound `inner`. -/
def sparseRows (buffer : Buffer) (pitch : Nat) (rect : QRect) (inner : Nat) :
    Nat → Int → Acc → Except Fault Acc
  | 0, _, _ => .error .outOfFuel
  | fuel + 1, currentY, a =>
    if currentY < rect.height then do
      let a1 ← sparseColumns buffer rect inner 0 (baseIndexOfLine currentY pitch rect) a
      sparseRows buffer pitch rect inner fuel
        (toInt32 (currentY + rect.height.tdiv rowsRequired)) a1
    else
      .ok a

/-- The inner loop of the exhaustive walk, from the loop test on:
`for (...; currentX < rect.width(); currentX += 4)`, four pixels per step. -/
def denseColumns (buffer : Buffer) (rect : QRect) : Nat → Int → Int → Acc → Except Fault Acc
  | 0, _, _, _ => .error .outOfFuel
  | fuel + 1, currentX, index, a =>
    if currentX < rect.width then do
      let p0 ← buffer.read index
      let p4 ← buffer.read (toInt32 (index + 4))
      let p8 ← buffer.read (toInt32 (index + 8))
      let p12 ← buffer.read (toInt32 (index + 12))
      let p1 ← buffer.read (toInt32 (index + 1))
      let p5 ← buffer.read (toInt32 (index + 5))
      let p9 ← buffer.read (toInt32 (index + 9))
      let p13 ← buffer.read (toInt32 (index + 13))
      let p2 ← buffer.read (toInt32 (index + 2))
      let p6 ← buffer.read (toInt32 (index + 6))
      let p10 ← buffer.read (toInt32 (index + 10))
      let p14 ← buffer.read (toInt32 (index + 14))
      denseColumns buffer rect fuel
        (toInt32 (currentX + 4))
        (toInt32 (index + toInt32 (bytesPerPixel * 4)))
        { ch0 := (a.ch0 + (p0 + p4 + p8 + p12)) % 4294967296
          ch1 := (a.ch1 + (p1 + p5 + p9 + p13)) % 4294967296
          ch2 := (a.ch2 + (p2 + p6 + p10 + p14)) % 4294967296
          count := toInt32 (a.count + 4) }
    else
      .ok a

/-- The outer loop of the exhaustive walk, from the loop test on:
`for (...; currentY < rect.height(); currentY++)`. -/
def denseRows (buffer : Buffer) (pitch : Nat) (rect : QRect) (inner : Nat) :
    Nat → Int → Acc → Except Fault Acc
  | 0, _, _ => .error .outOfFuel
  | fuel + 1, currentY, a =>
    if currentY < rect.height then do
      let a1 ← denseColumns buffer rect inner 0 (baseIndexOfLine currentY pitch rect) a
      denseRows buffer pitch rect inner fuel (toInt32 (currentY + 1)) a1
    else
      .ok a

/-- The function `accumulateBuffer`. It returns the sample count together with the three
`int` cells `dest[0]`, `dest[1]`, `dest[2]` it has written. Each of its loops may take at
most `fuel` iterations. -/
def accumulateBuffer (fuel : Nat) (buffer : Buffer) (pitch : Nat) (rect : QRect)
    (optimized : Bool) : Except Fault (Int × Int × Int × Int) := do
  let start : Acc := { ch0 := 0, ch1 := 0, ch2 := 0, count := 0 }
  let a ← if optimized then sparseRows buffer pitch rect fuel fuel 0 start
          else denseRows buffer pitch rect fuel fuel 0 start
  return (a.count, toInt32 a.ch0, toInt32 a.ch1, toInt32 a.ch2)

/-- The function `accumulateBufferFormatArgb` (it calls `accumulateBuffer` with the default
`optimized = true`); the result is the count and the filled `ColorValue`. -/
def accumulateBufferFormatArgb (fuel : Nat) (buffer : Buffer) (pitch : Nat) (rect : QRect) :
    Except Fault (Int × ColorValue) := do
  let (count, c0, c1, c2) ← accumulateBuffer fuel buffer pitch rect true
  return (count, { r := c2, g := c1, b := c0 })

/-- The function `accumulateBufferFormatAbgr`. -/
def accumulateBufferFormatAbgr (fuel : Nat) (buffer : Buffer) (pitch : Nat) (rect : QRect) :
    Except Fault (Int × ColorValue) := do
  let (count, c0, c1, c2) ← accumulateBuffer fuel buffer pitch rect true
  return (count, { r := c0, g := c1, b := c2 })

/-- The function `accumulateBufferFormatRgba`. -/
def accumulateBufferFormatRgba (fuel : Nat) (buffer : Buffer) (pitch : Nat) (rect : QRect) :
    Except Fault (Int × ColorValue) :=
  accumulateBufferFormatArgb fuel (buffer.advance 1) pitch rect

/-- The function `accumulateBufferFormatBgra`. -/
def accumulateBufferFormatBgra (fuel : Nat) (buffer : Buffer) (pitch : Nat) (rect : QRect) :
    Except Fault (Int × ColorValue) :=
  accumulateBufferFormatAbgr fuel (buffer.advance 1) pitch rect

/-- The enumeration `BufferFormat` of `calculations.hpp`: the four tags the `switch` of
`calculateAvgColor` names, and `BufferFormatUnknown` for any other tag value (the `default`
branch). -/
inductive BufferFormat where
  | BufferFormatArgb
  | BufferFormatAbgr
  | BufferFormatRgba
  | BufferFormatBgra
  | BufferFormatUnknown
  deriving DecidableEq

/-- Modelled from the spec: the packing function `qRgb` of Qt (`QtGui/qrgb.h`), which is not
part of this repository. The spec's "packed color" is a single integer that encodes R, G, B
in a fixed bit layout; the layout is Qt's `0xffRRGGBB`:
`(0xffu << 24) | ((r & 0xffu) << 16) | ((g & 0xffu) << 8) | (b & 0xffu)`. -/
def qRgb (r g b : Int) : Nat :=
  (0xff <<< 24) ||| ((toUInt32 r &&& 0xff) <<< 16) ||| ((toUInt32 g &&& 0xff) <<< 8)
    ||| (toUInt32 b &&& 0xff)

/-- Modelled from the spec: the unpacking function `qRed` of Qt (`QtGui/qrgb.h`),
`(rgb >> 16) & 0xff`. -/
def qRed (rgb : Nat) : Int := (((rgb >>> 16) &&& 0xff : Nat) : Int)

/-- Modelled from the spec: the unpacking function `qGreen` of Qt (`QtGui/qrgb.h`),
`(rgb >> 8) & 0xff`. -/
def qGreen (rgb : Nat) : Int := (((rgb >>> 8) &&& 0xff : Nat) : Int)

/-- Modelled from the spec: the unpacking function `qBlue` of Qt (`QtGui/qrgb.h`),
`rgb & 0xff`. -/
def qBlue (rgb : Nat) : Int := ((rgb &&& 0xff : Nat) : Int)

/-- The last part of `calculateAvgColor` on a raw buffer, from `if ( count > 1 )` to the
packing by `qRgb`: the value that is stored in `*result` and returned. -/
def averageAndPack (count : Int) (color : ColorValue) : Nat :=
  let color : ColorValue :=
    if count > 1 then
      { r := andInt (color.r.tdiv count) 0xff
        g := andInt (color.g.tdiv count) 0xff
        b := andInt (color.b.tdiv count) 0xff }
    else color
  qRgb color.r color.g color.b

/-- The function `calculateAvgColor(QRgb *result, const unsigned char *buffer, BufferFormat,
unsigned int pitch, const QRect &rect)`. The argument `result` is the value of `*result`
before the call; the value is the pair of the returned `QRgb` and of `*result` after the
call. A failing `Q_ASSERT_X` on the width is the fault `assertFailed`. The `default` branch returns `-1` converted to `QRgb` and leaves `*result` alone; the
other branches go on to `averageAndPack`, store its value in `*result` and return it. -/
def calculateAvgColor (fuel : Nat) (result : Nat) (buffer : Buffer)
    (bufferFormat : BufferFormat) (pitch : Nat) (rect : QRect) : Except Fault (Nat × Nat) :=
  if rect.width.tmod 4 ≠ 0 then .error .assertFailed
  else
    let finish (acc : Except Fault (Int × ColorValue)) : Except Fault (Nat × Nat) := do
      let (count, color) ← acc
      let stored := averageAndPack count color
      return (stored, stored)
    match bufferFormat with
    | .BufferFormatArgb => finish (accumulateBufferFormatArgb fuel buffer pitch rect)
    | .BufferFormatAbgr => finish (accumulateBufferFormatAbgr fuel buffer pitch rect)
    | .BufferFormatRgba => finish (accumulateBufferFormatRgba fuel buffer pitch rect)
    | .BufferFormatBgra => finish (accumulateBufferFormatBgra fuel buffer pitch rect)
    | .BufferFormatUnknown => .ok (toUInt32 (-1), result)

/-- The function `calculateAvgColor(QRgb *result, const unsigned char *buffer, BufferFormat,
unsigned int pitch, const QRect &rect)` in a build with `QT_NO_DEBUG`, where Qt's
`Q_ASSERT_X` expands to nothing: the body of `calculateAvgColor` without the check of the
width. -/
def calculateAvgColorNoDebug (fuel : Nat) (result : Nat) (buffer : Buffer)
    (bufferFormat : BufferFormat) (pitch : Nat) (rect : QRect) : Except Fault (Nat × Nat) :=
  let finish (acc : Except Fault (Int × ColorValue)) : Except Fault (Nat × Nat) := do
    let (count, color) ← acc
    let stored := averageAndPack count color
    return (stored, stored)
  match bufferFormat with
  | .BufferFormatArgb => finish (accumulateBufferFormatArgb fuel buffer pitch rect)
  | .BufferFormatAbgr => finish (accumulateBufferFormatAbgr fuel buffer pitch rect)
  | .BufferFormatRgba => finish (accumulateBufferFormatRgba fuel buffer pitch rect)
  | .BufferFormatBgra => finish (accumulateBufferFormatBgra fuel buffer pitch rect)
  | .BufferFormatUnknown => .ok (toUInt32 (-1), result)

/-- The loop of `calculateAvgColor(QList<QRgb> *colors)`: the three `int` sums. -/
def sumColors : List Nat → ColorValue → ColorValue
  | [], sums => sums
  | rgb :: rest, sums =>
    sumColors rest
      { r := toInt32 (sums.r + qRed rgb)
        g := toInt32 (sums.g + qGreen rgb)
        b := toInt32 (sums.b + qBlue rgb) }

/-- The function `calculateAvgColor(QList<QRgb> *colors)`. The `int size` is the length of
the list (a `QList` has fewer than `2^31` elements); `r / size` is the truncating division of
C++, and a division by `size = 0` is the fault `divByZero`. -/
def calculateAvgColorList (colors : List Nat) : Except Fault Nat :=
  let sums := sumColors colors { r := 0, g := 0, b := 0 }
  let size : Int := colors.length
  if size = 0 then .error .divByZero
  else .ok (qRgb (sums.r.tdiv size) (sums.g.tdiv size) (sums.b.tdiv size))

/-! ## Definitions used in the statements -/

/-- The truncated mean of one channel over a list of packed colours: the sum of the channel
over the list, divided by the length of the list with C++ integer division. -/
def truncatedMean (channel : Nat → Int) (colors : List Nat) : Int :=
  ((colors.map channel).sum).tdiv colors.length

/-- The number of iterations of a sparse loop over a dimension `n ≥ 16`: the number of
multiples of the step `n / 16` below `n`. -/
def sparseSteps (n : Int) : Nat := ((n + n / 16 - 1) / (n / 16)).toNat

/-- The byte of a pixel that holds red, for each layout: `ARGB` has R at byte 2, `ABGR` at
byte 0, and `RGBA`, `BGRA` are the same two layouts one byte later. -/
def redByte : BufferFormat → Nat
  | .BufferFormatArgb => 2
  | .BufferFormatAbgr => 0
  | .BufferFormatRgba => 3
  | .BufferFormatBgra => 1
  | .BufferFormatUnknown => 0

/-- The byte of a pixel that holds green, for each layout. -/
def greenByte : BufferFormat → Nat
  | .BufferFormatArgb => 1
  | .BufferFormatAbgr => 1
  | .BufferFormatRgba => 2
  | .BufferFormatBgra => 2
  | .BufferFormatUnknown => 0

/-- The byte of a pixel that holds blue, for each layout. -/
def blueByte : BufferFormat → Nat
  | .BufferFormatArgb => 0
  | .BufferFormatAbgr => 2
  | .BufferFormatRgba => 1
  | .BufferFormatBgra => 3
  | .BufferFormatUnknown => 0

/-- Every pixel of the buffer holds the colour `(r, g, b)` in the layout `format`: pixel `px`
of scanline `py` starts `pitch * py + 4 * px` bytes after the buffer pointer. -/
def uniformPixels (buffer : Buffer) (format : BufferFormat) (pitch : Nat) (r g b : Nat) : Prop :=
  ∀ px py : Nat, 4 * px + 4 ≤ pitch → buffer.off + pitch * py + 4 * px + 4 ≤ buffer.size →
    (buffer.byte (buffer.off + pitch * py + 4 * px + redByte format)).val = r
      ∧ (buffer.byte (buffer.off + pitch * py + 4 * px + greenByte format)).val = g
      ∧ (buffer.byte (buffer.off + pitch * py + 4 * px + blueByte format)).val = b

/-- The rectangle lies inside the buffer: its columns lie inside a scanline of `pitch` bytes
and its scanlines inside the bytes that follow the buffer pointer. -/
def rectInside (buffer : Buffer) (pitch : Nat) (rect : QRect) : Prop :=
  0 ≤ rect.x ∧ 0 ≤ rect.y ∧ 4 * (rect.x + rect.width) ≤ pitch
    ∧ buffer.off + pitch * (rect.y + rect.height) ≤ buffer.size

/-- A buffer of `size` bytes, read from its first byte, in which every group of four bytes
is `b0, b1, b2, b3`. -/
def patternBuffer (size : Nat) (b0 b1 b2 b3 : Fin 256) : Buffer :=
  { size := size
    byte := fun i => if i % 4 = 0 then b0 else if i % 4 = 1 then b1
      else if i % 4 = 2 then b2 else b3
    off := 0 }

/-- The byte `index` positions after the buffer pointer (meaningful where that position lies
inside the block). -/
def Buffer.get (buffer : Buffer) (index : Int) : Nat :=
  (buffer.byte ((buffer.off : Int) + index).toNat).val

/-- The sum of the bytes `k` of the pixels on the sparse grid of the rectangle: the grid points
are `(j * (width / 16), i * (height / 16))` for `j < sparseSteps width`,
`i < sparseSteps height`, and the pixel at `(cx, cy)` of the rectangle starts
`pitch * (rect.y + cy) + 4 * (rect.x + cx)` bytes after the buffer pointer. -/
def sparseGridSum (buffer : Buffer) (pitch : Nat) (rect : QRect) (k : Int) : Nat :=
  ∑ i in Finset.range (sparseSteps rect.height),
    ∑ j in Finset.range (sparseSteps rect.width),
      buffer.get (pitch * (rect.y + i * (rect.height / 16))
        + 4 * (rect.x + j * (rect.width / 16)) + k)

/-- The sum of the bytes `k` of the pixels of the first `cols` columns of all scanlines of the
rectangle. -/
def denseSum (buffer : Buffer) (pitch : Nat) (rect : QRect) (cols : Nat) (k : Int) : Nat :=
  ∑ i in Finset.range rect.height.toNat, ∑ p in Finset.range cols,
    buffer.get (pitch * (rect.y + i) + 4 * (rect.x + p) + k)

/-- Every pixel of the buffer holds the same three channel bytes `c0`, `c1`, `c2` in its
bytes 0, 1, 2: pixel `px` of scanline `py` starts `pitch * py + 4 * px` bytes after the
buffer pointer. -/
def uniformBytes (buffer : Buffer) (pitch : Nat) (c0 c1 c2 : Nat) : Prop :=
  ∀ px py : Nat, 4 * px + 4 ≤ pitch → buffer.off + pitch * py + 4 * px + 4 ≤ buffer.size →
    (buffer.byte (buffer.off + pitch * py + 4 * px)).val = c0
      ∧ (buffer.byte (buffer.off + pitch * py + 4 * px + 1)).val = c1
      ∧ (buffer.byte (buffer.off + pitch * py + 4 * px + 2)).val = c2

/-- The `switch` of `calculateAvgColor`: the accumulation function that the format selects,
and `none` for the `default` branch, which accumulates nothing. -/
def accumulateBufferByFormat (fuel : Nat) (buffer : Buffer) (bufferFormat : BufferFormat)
    (pitch : Nat) (rect : QRect) : Option (Except Fault (Int × ColorValue)) :=
  match bufferFormat with
  | .BufferFormatArgb => some (accumulateBufferFormatArgb fuel buffer pitch rect)
  | .BufferFormatAbgr => some (accumulateBufferFormatAbgr fuel buffer pitch rect)
  | .BufferFormatRgba => some (accumulateBufferFormatRgba fuel buffer pitch rect)
  | .BufferFormatBgra => some (accumulateBufferFormatBgra fuel buffer pitch rect)
  | .BufferFormatUnknown => none

/-- A run that keeps a record of its buffer reads: `reads` lists, in order, the pairs
`(currentY, index)` of every read `buffer[index]` the run performs while it processes the row
`currentY` (a read that faults included), and `value` is what the run delivers. -/
structure Logged (α : Type) where
  reads : List (Int × Int)
  value : Except Fault α

/-- The run that reads nothing and delivers `a`. -/
def Logged.unit {α : Type} (a : α) : Logged α :=
  { reads := [], value := .ok a }

/-- Sequencing of two recorded runs: the second one runs only if the first one delivers a
value, and its reads come after those of the first. -/
def Logged.andThen {α β : Type} (x : Logged α) (f : α → Logged β) : Logged β :=
  match x.value with
  | .error e => { reads := x.reads, value := .error e }
  | .ok a => { reads := x.reads ++ (f a).reads, value := (f a).value }

instance Logged.instMonad : Monad Logged where
  pure := Logged.unit
  bind := Logged.andThen

/-- The read `buffer[index]` performed while the row `currentY` is processed, recorded. -/
def Buffer.readLog (buffer : Buffer) (currentY index : Int) : Logged Nat :=
  { reads := [(currentY, index)], value := buffer.read index }

/-- The inner loop of the sparse walk (`sparseColumns`) on the row `currentY`, with every
read recorded. -/
def sparseColumnsLog (buffer : Buffer) (rect : QRect) (currentY : Int) :
    Nat → Int → Int → Acc → Logged Acc
  | 0, _, _, _ => { reads := [], value := .error .outOfFuel }
  | fuel + 1, currentX, index, a =>
    if currentX < rect.width then do
      let b0 ← buffer.readLog currentY index
      let b1 ← buffer.readLog currentY (toInt32 (index + 1))
      let b2 ← buffer.readLog currentY (toInt32 (index + 2))
      sparseColumnsLog buffer rect currentY fuel
        (toInt32 (currentX + rect.width.tdiv columnsRequired))
        (toInt32 (index + toInt32 (rect.width.tdiv columnsRequired * bytesPerPixel)))
        { ch0 := (a.ch0 + b0) % 4294967296
          ch1 := (a.ch1 + b1) % 4294967296
          ch2 := (a.ch2 + b2) % 4294967296
          count := toInt32 (a.count + 1) }
    else
      pure a

/-- The outer loop of the sparse walk (`sparseRows`), with every read recorded. -/
def sparseRowsLog (buffer : Buffer) (pitch : Nat) (rect : QRect) (inner : Nat) :
    Nat → Int → Acc → Logged Acc
  | 0, _, _ => { reads := [], value := .error .outOfFuel }
  | fuel + 1, currentY, a =>
    if currentY < rect.height then do
      let a1 ← sparseColumnsLog buffer rect currentY inner 0
        (baseIndexOfLine currentY pitch rect) a
      sparseRowsLog buffer pitch rect inner fuel
        (toInt32 (currentY + rect.height.tdiv rowsRequired)) a1
    else
      pure a

/-- The inner loop of the exhaustive walk (`denseColumns`) on the row `currentY`, with every
read recorded. -/
def denseColumnsLog (buffer : Buffer) (rect : QRect) (currentY : Int) :
    Nat → Int → Int → Acc → Logged Acc
  | 0, _, _, _ => { reads := [], value := .error .outOfFuel }
  | fuel + 1, currentX, index, a =>
    if currentX < rect.width then do
      let p0 ← buffer.readLog currentY index
      let p4 ← buffer.readLog currentY (toInt32 (index + 4))
      let p8 ← buffer.readLog currentY (toInt32 (index + 8))
      let p12 ← buffer.readLog currentY (toInt32 (index + 12))
      let p1 ← buffer.readLog currentY (toInt32 (index + 1))
      let p5 ← buffer.readLog currentY (toInt32 (index + 5))
      let p9 ← buffer.readLog currentY (toInt32 (index + 9))
      let p13 ← buffer.readLog currentY (toInt32 (index + 13))
      let p2 ← buffer.readLog currentY (toInt32 (index + 2))
      let p6 ← buffer.readLog currentY (toInt32 (index + 6))
      let p10 ← buffer.readLog currentY (toInt32 (index + 10))
      let p14 ← buffer.readLog currentY (toInt32 (index + 14))
      denseColumnsLog buffer rect currentY fuel
        (toInt32 (currentX + 4))
        (toInt32 (index + toInt32 (bytesPerPixel * 4)))
        { ch0 := (a.ch0 + (p0 + p4 + p8 + p12)) % 4294967296
          ch1 := (a.ch1 + (p1 + p5 + p9 + p13)) % 4294967296
          ch2 := (a.ch2 + (p2 + p6 + p10 + p14)) % 4294967296
          count := toInt32 (a.count + 4) }
    else
      pure a

/-- The outer loop of the exhaustive walk (`denseRows`), with every read recorded. -/
def denseRowsLog (buffer : Buffer) (pitch : Nat) (rect : QRect) (inner : Nat) :
    Nat → Int → Acc → Logged Acc
  | 0, _, _ => { reads := [], value := .error .outOfFuel }
  | fuel + 1, currentY, a =>
    if currentY < rect.height then do
      let a1 ← denseColumnsLog buffer rect currentY inner 0
        (baseIndexOfLine currentY pitch rect) a
      denseRowsLog buffer pitch rect inner fuel (toInt32 (currentY + 1)) a1
    else
      pure a

/-- The function `accumulateBuffer` with every read recorded. -/
def accumulateBufferLog (fuel : Nat) (buffer : Buffer) (pitch : Nat) (rect : QRect)
    (optimized : Bool) : Logged (Int × Int × Int × Int) := do
  let start : Acc := { ch0 := 0, ch1 := 0, ch2 := 0, count := 0 }
  let a ← if optimized then sparseRowsLog buffer pitch rect fuel fuel 0 start
          else denseRowsLog buffer pitch rect fuel fuel 0 start
  return (a.count, toInt32 a.ch0, toInt32 a.ch1, toInt32 a.ch2)

/-- The index `index` is that of a channel byte of a row whose first byte has the index
`base`: it is an `int`, and its distance from `base` is congruent modulo 4 to one of the
channel offsets 0, 1, 2. -/
def channelRead (base : Int) (index : Int) : Prop :=
  (-2147483648 ≤ index ∧ index < 2147483648)
    ∧ ((index - base) % 4 = 0 ∨ (index - base) % 4 = 1 ∨ (index - base) % 4 = 2)

/-! ## Arithmetic of the machine integers and of the packed colour -/

theorem toInt32_of_range {n : Int} (h1 : -2147483648 ≤ n) (h2 : n < 2147483648) :
    toInt32 n = n := by
  unfold toInt32; omega

theorem toInt32_range (n : Int) : -2147483648 ≤ toInt32 n ∧ toInt32 n < 2147483648 := by
  unfold toInt32; omega

theorem toUInt32_lt (n : Int) : toUInt32 n < 4294967296 := by
  unfold toUInt32; omega

theorem toUInt32_of_range {n : Int} (h1 : 0 ≤ n) (h2 : n < 4294967296) :
    (toUInt32 n : Int) = n := by
  unfold toUInt32; omega

theorem and_255 (x : Nat) : x &&& 255 = x % 256 :=
  Nat.and_pow_two_sub_one_eq_mod x 8

theorem qRgb_eq (r g b : Int) :
    qRgb r g b = 4278190080 + (toUInt32 r % 256) * 65536 + (toUInt32 g % 256) * 256
      + toUInt32 b % 256 := by
  unfold qRgb
  simp only [and_255, Nat.shiftLeft_eq]
  have hr : toUInt32 r % 256 < 256 := Nat.mod_lt _ (by decide)
  have hg : toUInt32 g % 256 < 256 := Nat.mod_lt _ (by decide)
  have hb : toUInt32 b % 256 < 256 := Nat.mod_lt _ (by decide)
  generalize toUInt32 r % 256 = R at *
  generalize toUInt32 g % 256 = G at *
  generalize toUInt32 b % 256 = B at *
  have e1 : 255 * 2 ^ 24 ||| R * 2 ^ 16 = 2 ^ 16 * (255 * 256 + R) := by
    have := Nat.mul_add_lt_is_or (i := 24) (b := R * 2 ^ 16) (by omega) 255
    rw [Nat.mul_comm 255, ← this]; omega
  have e2 : 2 ^ 16 * (255 * 256 + R) ||| G * 2 ^ 8 = 2 ^ 8 * ((255 * 256 + R) * 256 + G) := by
    have := Nat.mul_add_lt_is_or (i := 16) (b := G * 2 ^ 8) (by omega) (255 * 256 + R)
    rw [← this]; omega
  have e3 : 2 ^ 8 * ((255 * 256 + R) * 256 + G) ||| B
      = 2 ^ 8 * ((255 * 256 + R) * 256 + G) + B := by
    have := Nat.mul_add_lt_is_or (i := 8) (b := B) (by omega) ((255 * 256 + R) * 256 + G)
    rw [← this]
  rw [e1, e2, e3]; omega

theorem qRed_qRgb (r g b : Int) : qRed (qRgb r g b) = (toUInt32 r % 256 : Nat) := by
  unfold qRed
  rw [qRgb_eq, and_255, Nat.shiftRight_eq_div_pow]
  congr 1
  omega

theorem qGreen_qRgb (r g b : Int) : qGreen (qRgb r g b) = (toUInt32 g % 256 : Nat) := by
  unfold qGreen
  rw [qRgb_eq, and_255, Nat.shiftRight_eq_div_pow]
  congr 1
  omega

theorem qBlue_qRgb (r g b : Int) : qBlue (qRgb r g b) = (toUInt32 b % 256 : Nat) := by
  unfold qBlue
  rw [qRgb_eq, and_255]
  congr 1
  omega

/-! ## The packed colour and the mean of a list of colours -/

/-- C9: packing and unpacking are inverse on channel values: for all `r`, `g`, `b` in
`[0,255]`, `qRed (qRgb r g b) = r`, `qGreen (qRgb r g b) = g` and `qBlue (qRgb r g b) = b`. -/
theorem qRgb_roundtrip (r g b : Int) (hr : 0 ≤ r ∧ r ≤ 255) (hg : 0 ≤ g ∧ g ≤ 255)
    (hb : 0 ≤ b ∧ b ≤ 255) :
    qRed (qRgb r g b) = r ∧ qGreen (qRgb r g b) = g ∧ qBlue (qRgb r g b) = b := by
  rw [qRed_qRgb, qGreen_qRgb, qBlue_qRgb]
  unfold toUInt32
  omega

theorem qRgb_roundtrip_witness :
    qRed (qRgb 10 20 30) = 10 ∧ qGreen (qRgb 10 20 30) = 20 ∧ qBlue (qRgb 10 20 30) = 30 :=
  qRgb_roundtrip 10 20 30 (by decide) (by decide) (by decide)

/-- C3: the mean of black and white is `(127,127,127)`. -/
theorem calculateAvgColorList_black_white :
    calculateAvgColorList [qRgb 0 0 0, qRgb 255 255 255] = .ok (qRgb 127 127 127) := by
  rfl

theorem qRed_range (c : Nat) : 0 ≤ qRed c ∧ qRed c ≤ 255 := by
  unfold qRed; rw [and_255]; omega

theorem qGreen_range (c : Nat) : 0 ≤ qGreen c ∧ qGreen c ≤ 255 := by
  unfold qGreen; rw [and_255]; omega

theorem qBlue_range (c : Nat) : 0 ≤ qBlue c ∧ qBlue c ≤ 255 := by
  unfold qBlue; rw [and_255]; omega

/-- The value of `calculateAvgColorList` on a one-element list, as arithmetic on `c`. -/
theorem calculateAvgColorList_single_eq (c : Nat) :
    calculateAvgColorList [c] = .ok (4278190080 + c % 16777216) := by
  have hr := qRed_range c
  have hg := qGreen_range c
  have hb := qBlue_range c
  have e : ∀ v : Int, 0 ≤ v ∧ v ≤ 255 → (toInt32 (0 + v)).tdiv ((1 : Nat) : Int) = v := by
    intro v hv
    rw [toInt32_of_range (by omega) (by omega)]
    simp
  simp only [calculateAvgColorList, sumColors, List.length_singleton]
  rw [e _ hr, e _ hg, e _ hb, if_neg (by decide), qRgb_eq]
  congr 1
  unfold qRed qGreen qBlue toUInt32
  simp only [and_255, Nat.shiftRight_eq_div_pow]
  omega

/-- C4 fails as stated: a colour whose alpha byte is not `0xff` does not come back unchanged;
`0x00102030` comes back as `0xff102030`. -/
theorem calculateAvgColorList_single_changes :
    calculateAvgColorList [1056816] = .ok 4279246896
      ∧ calculateAvgColorList [1056816] ≠ .ok 1056816 := by
  constructor
  · rfl
  · intro h
    have h2 := calculateAvgColorList_single_eq 1056816
    rw [h] at h2
    injection h2 with h3
    omega

/-- C4, amended: for every packed colour `c` the mean of the list `[c]` is the colour with
the red, green and blue of `c` and the alpha byte `0xff`, that is `0xff000000 + c mod 2^24`;
it is `c` itself exactly when the alpha byte of `c` is `0xff`, as it is for every `c` made
by `qRgb`. -/
theorem calculateAvgColorList_single (c : Nat) :
    calculateAvgColorList [c] = .ok (qRgb (qRed c) (qGreen c) (qBlue c))
      ∧ qRgb (qRed c) (qGreen c) (qBlue c) = 4278190080 + c % 16777216
      ∧ (qRgb (qRed c) (qGreen c) (qBlue c) = c ↔ c / 16777216 = 255)
      ∧ ∀ r g b : Int, calculateAvgColorList [qRgb r g b] = .ok (qRgb r g b) := by
  have key : qRgb (qRed c) (qGreen c) (qBlue c) = 4278190080 + c % 16777216 := by
    have h := calculateAvgColorList_single_eq c
    have hr := qRed_range c
    have hg := qGreen_range c
    have hb := qBlue_range c
    rw [qRgb_eq]
    unfold qRed qGreen qBlue toUInt32
    simp only [and_255, Nat.shiftRight_eq_div_pow]
    omega
  refine ⟨?_, key, ?_, ?_⟩
  · rw [key]; exact calculateAvgColorList_single_eq c
  · rw [key]; omega
  · intro r g b
    rw [calculateAvgColorList_single_eq, qRgb_eq]
    congr 1
    omega

theorem andInt_255 (a : Int) : andInt a 0xff = a % 256 := by
  unfold andInt
  have h : toUInt32 0xff = 255 := by rfl
  rw [h, and_255]
  unfold toUInt32 toInt32
  omega

theorem qRgb_roundtrip_aux (r g b : Int) (hr : 0 ≤ r ∧ r ≤ 255) (hg : 0 ≤ g ∧ g ≤ 255)
    (hb : 0 ≤ b ∧ b ≤ 255) :
    qRed (qRgb r g b) = r ∧ qGreen (qRgb r g b) = g ∧ qBlue (qRgb r g b) = b := by
  rw [qRed_qRgb, qGreen_qRgb, qBlue_qRgb]
  unfold toUInt32
  omega

/-- C8: whatever the three channel sums and the sample count are, the colour that the
averaging and packing step of `calculateAvgColor` produces has its red, green and blue in
`[0,255]`: for `count > 1` they are the quotients `sum / count` masked to eight bits, for
`count ≤ 1` the sums masked to eight bits by `qRgb`. -/
theorem averageAndPack_channels (count : Int) (color : ColorValue) :
    (0 ≤ qRed (averageAndPack count color) ∧ qRed (averageAndPack count color) ≤ 255)
      ∧ (0 ≤ qGreen (averageAndPack count color) ∧ qGreen (averageAndPack count color) ≤ 255)
      ∧ (0 ≤ qBlue (averageAndPack count color) ∧ qBlue (averageAndPack count color) ≤ 255)
      ∧ (count > 1 →
          qRed (averageAndPack count color) = color.r.tdiv count % 256
          ∧ qGreen (averageAndPack count color) = color.g.tdiv count % 256
          ∧ qBlue (averageAndPack count color) = color.b.tdiv count % 256)
      ∧ (count ≤ 1 →
          qRed (averageAndPack count color) = color.r % 256
          ∧ qGreen (averageAndPack count color) = color.g % 256
          ∧ qBlue (averageAndPack count color) = color.b % 256) := by
  refine ⟨qRed_range _, qGreen_range _, qBlue_range _, ?_, ?_⟩
  · intro h
    unfold averageAndPack
    simp only [if_pos h, qRed_qRgb, qGreen_qRgb, qBlue_qRgb, andInt_255]
    unfold toUInt32
    omega
  · intro h
    unfold averageAndPack
    have h2 : ¬ count > 1 := by omega
    simp only [if_neg h2, qRed_qRgb, qGreen_qRgb, qBlue_qRgb]
    unfold toUInt32
    omega

theorem sum_channel_bounds (channel : Nat → Int) (lo hi : Int) (colors : List Nat)
    (h : ∀ c ∈ colors, lo ≤ channel c ∧ channel c ≤ hi) :
    lo * colors.length ≤ (colors.map channel).sum
      ∧ (colors.map channel).sum ≤ hi * colors.length := by
  induction colors with
  | nil => simp
  | cons c rest ih =>
    have hc := h c (List.mem_cons_self _ _)
    have hrest := ih (fun d hd => h d (List.mem_cons_of_mem _ hd))
    simp only [List.map_cons, List.sum_cons, List.length_cons, Nat.cast_add, Nat.cast_one]
    constructor <;> nlinarith [hc.1, hc.2, hrest.1, hrest.2]

theorem sum_channel_nonneg (channel : Nat → Int) (colors : List Nat)
    (h : ∀ c, 0 ≤ channel c) : 0 ≤ (colors.map channel).sum := by
  have := (sum_channel_bounds channel 0 (colors.map channel).sum colors ?_).1
  · simpa using this
  · intro c hc
    refine ⟨h c, ?_⟩
    induction colors with
    | nil => cases hc
    | cons d rest ih =>
      simp only [List.map_cons, List.sum_cons]
      have hrest : 0 ≤ (rest.map channel).sum :=
        List.sum_nonneg (by intro x hx; obtain ⟨y, _, rfl⟩ := List.mem_map.1 hx; exact h y)
      rcases List.mem_cons.1 hc with rfl | hm
      · omega
      · have := ih hm; have := h d; omega

theorem sumColors_eq (colors : List Nat) : ∀ sums : ColorValue,
    0 ≤ sums.r → 0 ≤ sums.g → 0 ≤ sums.b →
    sums.r + (colors.map qRed).sum < 2147483648 →
    sums.g + (colors.map qGreen).sum < 2147483648 →
    sums.b + (colors.map qBlue).sum < 2147483648 →
    sumColors colors sums =
      { r := sums.r + (colors.map qRed).sum
        g := sums.g + (colors.map qGreen).sum
        b := sums.b + (colors.map qBlue).sum } := by
  induction colors with
  | nil => intro sums _ _ _ _ _ _; simp [sumColors]
  | cons c rest ih =>
    intro sums h1 h2 h3 h4 h5 h6
    have hr := qRed_range c
    have hg := qGreen_range c
    have hb := qBlue_range c
    have nr := sum_channel_nonneg qRed rest (fun c => (qRed_range c).1)
    have ng := sum_channel_nonneg qGreen rest (fun c => (qGreen_range c).1)
    have nb := sum_channel_nonneg qBlue rest (fun c => (qBlue_range c).1)
    simp only [List.map_cons, List.sum_cons] at h4 h5 h6
    simp only [sumColors]
    rw [toInt32_of_range (by omega) (by omega), toInt32_of_range (by omega) (by omega),
      toInt32_of_range (by omega) (by omega)]
    rw [ih _ (by simp only; omega) (by simp only; omega) (by simp only; omega)
      (by simp only; omega) (by simp only; omega) (by simp only; omega)]
    simp only [List.map_cons, List.sum_cons, add_assoc]

theorem truncatedMean_bounds (channel : Nat → Int) (lo hi : Int) (colors : List Nat)
    (hne : colors ≠ []) (hch : ∀ c, 0 ≤ channel c)
    (h : ∀ c ∈ colors, lo ≤ channel c ∧ channel c ≤ hi) :
    lo ≤ truncatedMean channel colors ∧ truncatedMean channel colors ≤ hi := by
  have hb := sum_channel_bounds channel lo hi colors h
  have hlen : (0 : Int) < colors.length := by
    cases colors with
    | nil => exact absurd rfl hne
    | cons c rest => simp only [List.length_cons, Nat.cast_add, Nat.cast_one]; omega
  have hs : 0 ≤ (colors.map channel).sum := sum_channel_nonneg channel colors hch
  unfold truncatedMean
  rw [Int.tdiv_eq_ediv hs (le_of_lt hlen)]
  constructor
  · exact Int.le_ediv_of_mul_le hlen hb.1
  · exact Int.ediv_le_of_le_mul hlen hb.2

/-- C2: for a non-empty list of packed colours whose three channel sums fit an `int`, the
result packs, for each of red, green and blue, the truncated quotient of the channel sum by
the length of the list; each quotient lies in `[0,255]`, comes back unchanged from the packed
value (the masks of `qRgb` change nothing), and lies between any lower and upper bound of
that channel on the list, so between its smallest and its largest value. -/
theorem calculateAvgColorList_mean (colors : List Nat) (hne : colors ≠ [])
    (hr : (colors.map qRed).sum < 2147483648)
    (hg : (colors.map qGreen).sum < 2147483648)
    (hb : (colors.map qBlue).sum < 2147483648) :
    calculateAvgColorList colors = .ok (qRgb (truncatedMean qRed colors)
        (truncatedMean qGreen colors) (truncatedMean qBlue colors))
      ∧ (0 ≤ truncatedMean qRed colors ∧ truncatedMean qRed colors ≤ 255)
      ∧ (0 ≤ truncatedMean qGreen colors ∧ truncatedMean qGreen colors ≤ 255)
      ∧ (0 ≤ truncatedMean qBlue colors ∧ truncatedMean qBlue colors ≤ 255)
      ∧ qRed (qRgb (truncatedMean qRed colors) (truncatedMean qGreen colors)
          (truncatedMean qBlue colors)) = truncatedMean qRed colors
      ∧ qGreen (qRgb (truncatedMean qRed colors) (truncatedMean qGreen colors)
          (truncatedMean qBlue colors)) = truncatedMean qGreen colors
      ∧ qBlue (qRgb (truncatedMean qRed colors) (truncatedMean qGreen colors)
          (truncatedMean qBlue colors)) = truncatedMean qBlue colors
      ∧ (∀ lo hi : Int, (∀ c ∈ colors, lo ≤ qRed c ∧ qRed c ≤ hi) →
          lo ≤ truncatedMean qRed colors ∧ truncatedMean qRed colors ≤ hi)
      ∧ (∀ lo hi : Int, (∀ c ∈ colors, lo ≤ qGreen c ∧ qGreen c ≤ hi) →
          lo ≤ truncatedMean qGreen colors ∧ truncatedMean qGreen colors ≤ hi)
      ∧ (∀ lo hi : Int, (∀ c ∈ colors, lo ≤ qBlue c ∧ qBlue c ≤ hi) →
          lo ≤ truncatedMean qBlue colors ∧ truncatedMean qBlue colors ≤ hi) := by
  have br := truncatedMean_bounds qRed 0 255 colors hne (fun c => (qRed_range c).1)
    (fun c _ => qRed_range c)
  have bg := truncatedMean_bounds qGreen 0 255 colors hne (fun c => (qGreen_range c).1)
    (fun c _ => qGreen_range c)
  have bb := truncatedMean_bounds qBlue 0 255 colors hne (fun c => (qBlue_range c).1)
    (fun c _ => qBlue_range c)
  have hlen : ((colors.length : Nat) : Int) ≠ 0 := by
    cases colors with
    | nil => exact absurd rfl hne
    | cons c rest => simp only [List.length_cons, Nat.cast_add, Nat.cast_one]; omega
  refine ⟨?_, br, bg, bb, ?_, ?_, ?_, ?_, ?_, ?_⟩
  · unfold calculateAvgColorList
    rw [sumColors_eq colors _ (le_refl _) (le_refl _) (le_refl _) (by simpa using hr)
      (by simpa using hg) (by simpa using hb)]
    simp only [zero_add, if_neg hlen]
    rfl
  · exact (qRgb_roundtrip_aux _ _ _ br bg bb).1
  · exact (qRgb_roundtrip_aux _ _ _ br bg bb).2.1
  · exact (qRgb_roundtrip_aux _ _ _ br bg bb).2.2
  · intro lo hi h
    exact truncatedMean_bounds qRed lo hi colors hne (fun c => (qRed_range c).1) h
  · intro lo hi h
    exact truncatedMean_bounds qGreen lo hi colors hne (fun c => (qGreen_range c).1) h
  · intro lo hi h
    exact truncatedMean_bounds qBlue lo hi colors hne (fun c => (qBlue_range c).1) h

theorem calculateAvgColorList_mean_witness :
    calculateAvgColorList [qRgb 1 2 3, qRgb 4 4 4] = .ok (qRgb 2 3 3) :=
  (calculateAvgColorList_mean [qRgb 1 2 3, qRgb 4 4 4] (by decide) (by decide) (by decide)
    (by decide)).1

/-! ## The sparse walk on a rectangle below 16 in one dimension -/

theorem tdiv_sixteen {n : Int} (h : 0 ≤ n) : n.tdiv 16 = n / 16 :=
  Int.tdiv_eq_ediv h (by decide)

theorem sparseColumns_stuck (buffer : Buffer) (rect : QRect) (currentX : Int)
    (hstep : rect.width.tdiv columnsRequired = 0) (hlt : currentX < rect.width)
    (hx : toInt32 currentX = currentX) :
    ∀ (fuel : Nat) (index : Int) (a : Acc) (v : Acc),
      sparseColumns buffer rect fuel currentX index a ≠ .ok v := by
  intro fuel
  induction fuel with
  | zero => intro index a v h; simp [sparseColumns] at h
  | succ n ih =>
    intro index a v h
    simp only [sparseColumns, if_pos hlt, hstep, add_zero, hx] at h
    cases h0 : buffer.read index with
    | error e => simp [h0, bind, Except.bind] at h
    | ok b0 =>
      cases h1 : buffer.read (toInt32 (index + 1)) with
      | error e => simp [h0, h1, bind, Except.bind] at h
      | ok b1 =>
        cases h2 : buffer.read (toInt32 (index + 2)) with
        | error e => simp [h0, h1, h2, bind, Except.bind] at h
        | ok b2 =>
          simp only [h0, h1, h2, bind, Except.bind] at h
          exact ih _ _ _ h

theorem sparseRows_stuck (buffer : Buffer) (pitch : Nat) (rect : QRect) (inner : Nat)
    (hstep : rect.height.tdiv rowsRequired = 0) (hlt : 0 < rect.height) :
    ∀ (fuel : Nat) (a : Acc) (v : Acc),
      sparseRows buffer pitch rect inner fuel 0 a ≠ .ok v := by
  intro fuel
  induction fuel with
  | zero => intro a v h; simp [sparseRows] at h
  | succ n ih =>
    intro a v h
    have h0 : toInt32 0 = 0 := by decide
    simp only [sparseRows, if_pos hlt, hstep, add_zero, h0] at h
    cases hc : sparseColumns buffer rect inner 0 (baseIndexOfLine 0 pitch rect) a with
    | error e => simp [hc, bind, Except.bind] at h
    | ok a1 =>
      simp only [hc, bind, Except.bind] at h
      exact ih _ _ h

theorem sparseRows_columns_stuck (buffer : Buffer) (pitch : Nat) (rect : QRect) (inner : Nat)
    (hstep : rect.width.tdiv columnsRequired = 0) (hw : 0 < rect.width)
    (hlt : 0 < rect.height) (fuel : Nat) (a : Acc) (v : Acc) :
    sparseRows buffer pitch rect inner fuel 0 a ≠ .ok v := by
  intro h
  cases fuel with
  | zero => simp [sparseRows] at h
  | succ n =>
    simp only [sparseRows, if_pos hlt] at h
    cases hc : sparseColumns buffer rect inner 0 (baseIndexOfLine 0 pitch rect) a with
    | error e => simp [hc, bind, Except.bind] at h
    | ok a1 => exact sparseColumns_stuck buffer rect 0 hstep hw (by decide) _ _ _ _ hc

/-- C6 (the code does not do this): on every rectangle with positive width and height of
which one is below 16, the sparse walk of `accumulateBuffer` never returns, whatever number
of loop iterations it is allowed: a step computed as `0` is used as it is, and the loop
variable stays at `0`. -/
theorem accumulateBuffer_sparse_small_never_returns (fuel : Nat) (buffer : Buffer)
    (pitch : Nat) (rect : QRect) (hw : 1 ≤ rect.width) (hh : 1 ≤ rect.height)
    (hsmall : rect.width < 16 ∨ rect.height < 16) (v : Int × Int × Int × Int) :
    accumulateBuffer fuel buffer pitch rect true ≠ .ok v := by
  intro h
  have key : ∀ a w, sparseRows buffer pitch rect fuel fuel 0 a ≠ .ok w := by
    intro a w
    rcases hsmall with h16 | h16
    · refine sparseRows_columns_stuck buffer pitch rect fuel ?_ (by omega) (by omega) fuel a w
      unfold columnsRequired
      rw [tdiv_sixteen (by omega)]; omega
    · refine sparseRows_stuck buffer pitch rect fuel ?_ (by omega) fuel a w
      unfold rowsRequired
      rw [tdiv_sixteen (by omega)]; omega
  unfold accumulateBuffer at h
  simp only [if_true] at h
  cases hr : sparseRows buffer pitch rect fuel fuel 0 { ch0 := 0, ch1 := 0, ch2 := 0, count := 0 } with
  | error e => simp [hr, bind, Except.bind] at h
  | ok a1 => exact key _ _ hr

/-! ## The sparse walk on a rectangle of at least 16 by 16 -/

theorem Buffer.read_lt {buffer : Buffer} {index : Int} {v : Nat}
    (h : buffer.read index = .ok v) : v < 256 := by
  unfold Buffer.read at h
  split at h
  · injection h with h; rw [← h]; exact Fin.isLt _
  · cases h

theorem sparseColumns_run (buffer : Buffer) (rect : QRect) (sx : Int)
    (hsx : rect.width.tdiv columnsRequired = sx) (hpos : 1 ≤ sx)
    (hsmall : sx < 268435456) (hw : rect.width < 1073741824) :
    ∀ (m fuel : Nat) (currentX index : Int) (a : Acc) (s0 s1 s2 : Nat → Nat),
      m < fuel → 0 ≤ currentX →
      rect.width ≤ currentX + m * sx →
      (∀ j : Nat, j < m → currentX + j * sx < rect.width) →
      (∀ j : Nat, j < m → 0 ≤ index + 4 * sx * j ∧ index + 4 * sx * j + 2 < 2147483648
        ∧ buffer.read (index + 4 * sx * j) = .ok (s0 j)
        ∧ buffer.read (index + 4 * sx * j + 1) = .ok (s1 j)
        ∧ buffer.read (index + 4 * sx * j + 2) = .ok (s2 j)) →
      a.ch0 + 255 * m < 4294967296 → a.ch1 + 255 * m < 4294967296 →
      a.ch2 + 255 * m < 4294967296 → 0 ≤ a.count → a.count + m < 2147483648 →
      sparseColumns buffer rect fuel currentX index a =
        .ok { ch0 := a.ch0 + ∑ j in Finset.range m, s0 j
              ch1 := a.ch1 + ∑ j in Finset.range m, s1 j
              ch2 := a.ch2 + ∑ j in Finset.range m, s2 j
              count := a.count + m } := by
  intro m
  induction m with
  | zero =>
    intro fuel currentX index a s0 s1 s2 hf _ hge _ _ _ _ _ _ _
    obtain ⟨n, rfl⟩ : ∃ n, fuel = n + 1 := ⟨fuel - 1, by omega⟩
    have hnot : ¬ currentX < rect.width := by simp at hge; omega
    simp [sparseColumns, hnot]
  | succ m ih =>
    intro fuel currentX index a s0 s1 s2 hf hx hge hlt hrd h0 h1 h2 hc hc2
    obtain ⟨n, rfl⟩ : ∃ n, fuel = n + 1 := ⟨fuel - 1, by omega⟩
    have hcur : currentX < rect.width := by simpa using hlt 0 (by omega)
    obtain ⟨i0, i1, r0, r1, r2⟩ := hrd 0 (by omega)
    simp only [Nat.cast_zero, mul_zero, add_zero] at i0 i1 r0 r1 r2
    have b0 := Buffer.read_lt r0
    have b1 := Buffer.read_lt r1
    have b2 := Buffer.read_lt r2
    have e1 : toInt32 (index + 1) = index + 1 := toInt32_of_range (by omega) (by omega)
    have e2 : toInt32 (index + 2) = index + 2 := toInt32_of_range (by omega) (by omega)
    have e3 : toInt32 (currentX + sx) = currentX + sx :=
      toInt32_of_range (by omega) (by omega)
    have e4 : toInt32 (sx * bytesPerPixel) = 4 * sx := by
      unfold bytesPerPixel
      rw [toInt32_of_range (by omega) (by omega)]; ring
    simp only [sparseColumns, if_pos hcur, hsx, e1, e2, e3, e4, r0, r1, r2, bind, Except.bind]
    simp only [Nat.cast_add, Nat.cast_one] at hge hc2
    have hstep := ih n (currentX + sx) (toInt32 (index + 4 * sx))
      { ch0 := (a.ch0 + s0 0) % 4294967296
        ch1 := (a.ch1 + s1 0) % 4294967296
        ch2 := (a.ch2 + s2 0) % 4294967296
        count := toInt32 (a.count + 1) }
      (fun j => s0 (j + 1)) (fun j => s1 (j + 1)) (fun j => s2 (j + 1))
      (by omega) (by omega) (by nlinarith)
      (by
        intro j hj
        have := hlt (j + 1) (by omega)
        simp only [Nat.cast_add, Nat.cast_one] at this
        nlinarith)
      (by
        intro j hj
        have hnext := hrd 1 (by omega)
        simp only [Nat.cast_one, mul_one] at hnext
        rw [toInt32_of_range (by omega) (by omega)]
        have := hrd (j + 1) (by omega)
        simp only [Nat.cast_add, Nat.cast_one] at this
        have e : index + 4 * sx * (↑j + 1) = index + 4 * sx + 4 * sx * ↑j := by ring
        rw [e] at this
        exact this)
      (by simp only; omega) (by simp only; omega) (by simp only; omega)
      (by simp only; rw [toInt32_of_range (by omega) (by omega)]; omega)
      (by simp only; rw [toInt32_of_range (by omega) (by omega)]; omega)
    rw [hstep]
    simp only [Finset.sum_range_succ', Nat.cast_add, Nat.cast_one]
    rw [toInt32_of_range (by omega) (by omega)]
    congr 1
    have m0 : (a.ch0 + s0 0) % 4294967296 = a.ch0 + s0 0 := Nat.mod_eq_of_lt (by omega)
    have m1 : (a.ch1 + s1 0) % 4294967296 = a.ch1 + s1 0 := Nat.mod_eq_of_lt (by omega)
    have m2 : (a.ch2 + s2 0) % 4294967296 = a.ch2 + s2 0 := Nat.mod_eq_of_lt (by omega)
    rw [m0, m1, m2]
    congr 1 <;> omega

theorem baseIndexOfLine_eq (currentY : Int) (pitch : Nat) (rect : QRect)
    (hy : 0 ≤ rect.y + currentY) (hx : 0 ≤ rect.x)
    (hlt : pitch * (rect.y + currentY) + 4 * rect.x < 2147483648)
    (hy2 : rect.y + currentY < 2147483648) :
    baseIndexOfLine currentY pitch rect = pitch * (rect.y + currentY) + 4 * rect.x := by
  have hp : (0 : Int) ≤ pitch * (rect.y + currentY) := mul_nonneg (by omega) hy
  have t1 : toInt32 (rect.y + currentY) = rect.y + currentY :=
    toInt32_of_range (by omega) (by omega)
  have t2 : toInt32 (rect.x * 4) = rect.x * 4 := toInt32_of_range (by omega) (by omega)
  have e1 : toUInt32 (rect.y + currentY) = (rect.y + currentY).toNat := by
    unfold toUInt32; congr 1; omega
  have e2 : toUInt32 (rect.x * 4) = (rect.x * 4).toNat := by
    unfold toUInt32; congr 1; omega
  have e3 : ((pitch * (rect.y + currentY).toNat : Nat) : Int) = pitch * (rect.y + currentY) := by
    rw [Nat.cast_mul, Int.toNat_of_nonneg hy]
  have e4 : ((rect.x * 4).toNat : Int) = rect.x * 4 := Int.toNat_of_nonneg (by omega)
  have e5 : pitch * (rect.y + currentY).toNat < 2147483648 := by
    have : ((pitch * (rect.y + currentY).toNat : Nat) : Int) < 2147483648 := by rw [e3]; omega
    exact_mod_cast this
  have e6 : pitch * (rect.y + currentY).toNat + (rect.x * 4).toNat < 2147483648 := by
    have : ((pitch * (rect.y + currentY).toNat + (rect.x * 4).toNat : Nat) : Int)
        < 2147483648 := by rw [Nat.cast_add, e3, e4]; omega
    exact_mod_cast this
  unfold baseIndexOfLine bytesPerPixel
  rw [t1, t2, e1, e2, Nat.mod_eq_of_lt (by omega), Nat.mod_eq_of_lt (by omega), Nat.cast_add,
    e3, e4, toInt32_of_range (by omega) (by omega)]
  ring

theorem sparseRows_run (buffer : Buffer) (pitch : Nat) (rect : QRect) (inner : Nat) (sy : Int)
    (hsy : rect.height.tdiv rowsRequired = sy) (hpos : 1 ≤ sy)
    (hsmall : sy < 268435456) (hh : rect.height < 1073741824) (mc : Nat) :
    ∀ (mr fuel : Nat) (currentY : Int) (a : Acc) (t0 t1 t2 : Nat → Nat),
      mr < fuel → 0 ≤ currentY →
      rect.height ≤ currentY + mr * sy →
      (∀ i : Nat, i < mr → currentY + i * sy < rect.height) →
      (∀ i : Nat, i < mr → t0 i ≤ 255 * mc ∧ t1 i ≤ 255 * mc ∧ t2 i ≤ 255 * mc
        ∧ ∀ b : Acc, b.ch0 + 255 * mc < 4294967296 → b.ch1 + 255 * mc < 4294967296 →
          b.ch2 + 255 * mc < 4294967296 → 0 ≤ b.count → b.count + mc < 2147483648 →
          sparseColumns buffer rect inner 0 (baseIndexOfLine (currentY + i * sy) pitch rect) b
            = .ok { ch0 := b.ch0 + t0 i, ch1 := b.ch1 + t1 i, ch2 := b.ch2 + t2 i
                    count := b.count + mc }) →
      a.ch0 + 255 * (mr * mc) < 4294967296 → a.ch1 + 255 * (mr * mc) < 4294967296 →
      a.ch2 + 255 * (mr * mc) < 4294967296 → 0 ≤ a.count →
      a.count + mr * mc < 2147483648 →
      sparseRows buffer pitch rect inner fuel currentY a =
        .ok { ch0 := a.ch0 + ∑ i in Finset.range mr, t0 i
              ch1 := a.ch1 + ∑ i in Finset.range mr, t1 i
              ch2 := a.ch2 + ∑ i in Finset.range mr, t2 i
              count := a.count + mr * mc } := by
  intro mr
  induction mr with
  | zero =>
    intro fuel currentY a t0 t1 t2 hf _ hge _ _ _ _ _ _ _
    obtain ⟨n, rfl⟩ : ∃ n, fuel = n + 1 := ⟨fuel - 1, by omega⟩
    have hnot : ¬ currentY < rect.height := by simp at hge; omega
    simp [sparseRows, hnot]
  | succ mr ih =>
    intro fuel currentY a t0 t1 t2 hf hy hge hlt hrow h0 h1 h2 hc hc2
    obtain ⟨n, rfl⟩ : ∃ n, fuel = n + 1 := ⟨fuel - 1, by omega⟩
    have hcur : currentY < rect.height := by simpa using hlt 0 (by omega)
    obtain ⟨u0, u1, u2, hrun⟩ := hrow 0 (by omega)
    simp only [Nat.cast_zero, zero_mul, add_zero] at hrun
    have hmul : (mr + 1) * mc = mr * mc + mc := by ring
    rw [hmul] at h0 h1 h2
    have hc3 : a.count + (mr * mc : Nat) + mc < 2147483648 := by
      have : ((mr + 1 : Nat) : Int) * mc = (mr * mc : Nat) + mc := by push_cast; ring
      rw [this] at hc2; omega
    have e3 : toInt32 (currentY + sy) = currentY + sy :=
      toInt32_of_range (by omega) (by omega)
    have hfirst := hrun a (by omega) (by omega) (by omega) hc (by omega)
    simp only [sparseRows, if_pos hcur, hsy, e3, hfirst, bind, Except.bind]
    simp only [Nat.cast_add, Nat.cast_one] at hge
    have hstep := ih n (currentY + sy)
      { ch0 := a.ch0 + t0 0, ch1 := a.ch1 + t1 0, ch2 := a.ch2 + t2 0, count := a.count + mc }
      (fun i => t0 (i + 1)) (fun i => t1 (i + 1)) (fun i => t2 (i + 1))
      (by omega) (by omega) (by nlinarith)
      (by
        intro i hi
        have := hlt (i + 1) (by omega)
        simp only [Nat.cast_add, Nat.cast_one] at this
        nlinarith)
      (by
        intro i hi
        have := hrow (i + 1) (by omega)
        simp only [Nat.cast_add, Nat.cast_one] at this
        have e : currentY + (↑i + 1) * sy = currentY + sy + ↑i * sy := by ring
        rw [e] at this
        exact this)
      (by simp only; omega) (by simp only; omega) (by simp only; omega)
      (by simp only; omega) (by simp only; push_cast at hc3 ⊢; omega)
    rw [hstep]
    simp only [Finset.sum_range_succ', Nat.cast_add, Nat.cast_one]
    congr 1
    congr 1
    · omega
    · omega
    · omega
    · ring

theorem sparseSteps_spec (n : Int) (hn : 16 ≤ n) :
    16 ≤ sparseSteps n ∧ sparseSteps n ≤ 31 ∧ n ≤ sparseSteps n * (n / 16)
      ∧ ∀ j : Nat, j < sparseSteps n → j * (n / 16) < n := by
  have hs : 1 ≤ n / 16 := by omega
  have h16 : 16 * (n / 16) ≤ n ∧ n ≤ 16 * (n / 16) + 15 := by omega
  unfold sparseSteps
  generalize n / 16 = s at *
  have hq := Int.emod_add_ediv (n + s - 1) s
  have hr0 := Int.emod_nonneg (n + s - 1) (by omega : s ≠ 0)
  have hr1 := Int.emod_lt_of_pos (n + s - 1) (by omega : 0 < s)
  have hqpos : 0 ≤ (n + s - 1) / s := Int.ediv_nonneg (by omega) (by omega)
  have hcast : ((((n + s - 1) / s).toNat : Nat) : Int) = (n + s - 1) / s :=
    Int.toNat_of_nonneg hqpos
  generalize (n + s - 1) / s = q at *
  generalize (n + s - 1) % s = r at *
  generalize q.toNat = m at *
  have hm16 : (16 : Int) ≤ m := by rw [hcast]; nlinarith
  have hm31 : (m : Int) ≤ 31 := by rw [hcast]; nlinarith
  refine ⟨by exact_mod_cast hm16, by exact_mod_cast hm31, by rw [hcast]; nlinarith, ?_⟩
  intro j hj
  have hj2 : (j : Int) + 1 ≤ q := by rw [← hcast]; exact_mod_cast hj
  nlinarith

theorem row_bounds (pitch : Nat) (rect : QRect) (cy : Int) (hw : 16 ≤ rect.width)
    (hx : 0 ≤ rect.x) (hy : 0 ≤ rect.y) (hrow : 4 * (rect.x + rect.width) ≤ pitch)
    (hint : pitch * (rect.y + rect.height) ≤ 2147483648) (hcy0 : 0 ≤ cy)
    (hcy : cy < rect.height) :
    0 ≤ (pitch : Int) * (rect.y + cy) ∧ (pitch : Int) * (rect.y + cy) + pitch ≤ 2147483648
      ∧ rect.y + cy < 2147483648 := by
  have hprod : (pitch : Int) * (rect.y + cy + 1) ≤ pitch * (rect.y + rect.height) :=
    mul_le_mul_of_nonneg_left (by omega) (by omega)
  have hexp : (pitch : Int) * (rect.y + cy + 1) = pitch * (rect.y + cy) + pitch := by ring
  have hp0 : (0 : Int) ≤ pitch * (rect.y + cy) := mul_nonneg (by omega) (by omega)
  refine ⟨hp0, by omega, ?_⟩
  by_contra hcon
  have : (pitch : Int) * 2147483648 ≤ pitch * (rect.y + cy) :=
    mul_le_mul_of_nonneg_left (by omega) (by omega)
  omega

theorem sparseColumns_uniform_row (buffer : Buffer) (pitch : Nat) (rect : QRect)
    (c0 c1 c2 : Nat) (hw : 16 ≤ rect.width)
    (hx : 0 ≤ rect.x) (hy : 0 ≤ rect.y)
    (hrow : 4 * (rect.x + rect.width) ≤ pitch)
    (hint : pitch * (rect.y + rect.height) ≤ 2147483648)
    (hread : ∀ cx cy : Int, 0 ≤ cx → cx < rect.width → 0 ≤ cy → cy < rect.height →
      buffer.read (pitch * (rect.y + cy) + 4 * (rect.x + cx)) = .ok c0
        ∧ buffer.read (pitch * (rect.y + cy) + 4 * (rect.x + cx) + 1) = .ok c1
        ∧ buffer.read (pitch * (rect.y + cy) + 4 * (rect.x + cx) + 2) = .ok c2)
    (fuel : Nat) (hfuel : 32 ≤ fuel) (cy : Int) (hcy0 : 0 ≤ cy) (hcy : cy < rect.height)
    (b : Acc) (q0 : b.ch0 + 255 * sparseSteps rect.width < 4294967296)
    (q1 : b.ch1 + 255 * sparseSteps rect.width < 4294967296)
    (q2 : b.ch2 + 255 * sparseSteps rect.width < 4294967296) (q3 : 0 ≤ b.count)
    (q4 : b.count + sparseSteps rect.width < 2147483648) :
    sparseColumns buffer rect fuel 0 (baseIndexOfLine cy pitch rect) b
      = .ok { ch0 := b.ch0 + sparseSteps rect.width * c0
              ch1 := b.ch1 + sparseSteps rect.width * c1
              ch2 := b.ch2 + sparseSteps rect.width * c2
              count := b.count + sparseSteps rect.width } := by
  obtain ⟨hp0, hp1, hyh⟩ := row_bounds pitch rect cy hw hx hy hrow hint hcy0 hcy
  have hbase := baseIndexOfLine_eq cy pitch rect (by omega) hx (by omega) hyh
  have hsx : rect.width.tdiv columnsRequired = rect.width / 16 :=
    tdiv_sixteen (le_trans (by decide) hw)
  have t1 : 1 ≤ rect.width / 16 := by clear * - hw; omega
  have t2 : rect.width / 16 < 268435456 := by clear * - hw hx hrow hp0 hp1; omega
  have t3 : rect.width < 1073741824 := by clear * - hw hx hrow hp0 hp1; omega
  obtain ⟨wc16, wc31, wcge, wclt⟩ := sparseSteps_spec rect.width hw
  have t4 : sparseSteps rect.width < fuel := by clear * - wc31 hfuel; omega
  have hrun := sparseColumns_run buffer rect (rect.width / 16) hsx t1 t2 t3
    (sparseSteps rect.width) fuel 0 (baseIndexOfLine cy pitch rect) b
    (fun _ => c0) (fun _ => c1) (fun _ => c2) t4 (le_refl _)
    (by simpa using wcge) (by intro j hj; simpa using wclt j hj)
    (by
      intro j hj
      have hcx := wclt j hj
      have hcx0 : (0 : Int) ≤ j * (rect.width / 16) :=
        mul_nonneg (Int.ofNat_nonneg j) (le_trans (by decide) t1)
      have hrd := hread (j * (rect.width / 16)) cy hcx0 hcx hcy0 hcy
      have e : baseIndexOfLine cy pitch rect + 4 * (rect.width / 16) * j
          = pitch * (rect.y + cy) + 4 * (rect.x + j * (rect.width / 16)) := by
        rw [hbase]; ring
      rw [e]
      refine ⟨?_, ?_, hrd⟩
      · clear * - hp0 hx hcx0
        omega
      · clear * - hp1 hrow hcx
        omega)
    q0 q1 q2 q3 q4
  rw [hrun]
  simp only [Finset.sum_const, Finset.card_range, smul_eq_mul]

theorem accumulateBuffer_sparse_uniform (buffer : Buffer) (pitch : Nat) (rect : QRect)
    (c0 c1 c2 : Nat) (hw : 16 ≤ rect.width) (hh : 16 ≤ rect.height)
    (hx : 0 ≤ rect.x) (hy : 0 ≤ rect.y)
    (hrow : 4 * (rect.x + rect.width) ≤ pitch)
    (hint : pitch * (rect.y + rect.height) ≤ 2147483648)
    (hread : ∀ cx cy : Int, 0 ≤ cx → cx < rect.width → 0 ≤ cy → cy < rect.height →
      buffer.read (pitch * (rect.y + cy) + 4 * (rect.x + cx)) = .ok c0
        ∧ buffer.read (pitch * (rect.y + cy) + 4 * (rect.x + cx) + 1) = .ok c1
        ∧ buffer.read (pitch * (rect.y + cy) + 4 * (rect.x + cx) + 2) = .ok c2)
    (fuel : Nat) (hfuel : 32 ≤ fuel) :
    accumulateBuffer fuel buffer pitch rect true =
      .ok (((sparseSteps rect.height * sparseSteps rect.width : Nat) : Int),
        ((sparseSteps rect.height * sparseSteps rect.width * c0 : Nat) : Int),
        ((sparseSteps rect.height * sparseSteps rect.width * c1 : Nat) : Int),
        ((sparseSteps rect.height * sparseSteps rect.width * c2 : Nat) : Int)) := by
  obtain ⟨wc16, wc31, wcge, wclt⟩ := sparseSteps_spec rect.width hw
  obtain ⟨hc16, hc31, hcge, hclt⟩ := sparseSteps_spec rect.height hh
  have hpitch2 : (64 : Int) ≤ pitch := by omega
  have hyh : rect.height < 1073741824 := by
    by_contra hcon
    have : (pitch : Int) * 1073741824 ≤ pitch * (rect.y + rect.height) :=
      mul_le_mul_of_nonneg_left (by omega) (by omega)
    omega
  obtain ⟨r0, r1, r2⟩ := hread 0 0 (le_refl _) (by omega) (le_refl _) (by omega)
  have b0 := Buffer.read_lt r0
  have b1 := Buffer.read_lt r1
  have b2 := Buffer.read_lt r2
  have hsy : rect.height.tdiv rowsRequired = rect.height / 16 := tdiv_sixteen (by omega)
  have hcnt : sparseSteps rect.height * sparseSteps rect.width ≤ 961 :=
    Nat.mul_le_mul hc31 wc31
  have k0 : sparseSteps rect.width * c0 ≤ 255 * sparseSteps rect.width := by
    rw [Nat.mul_comm]; exact Nat.mul_le_mul_right _ (by omega)
  have k1 : sparseSteps rect.width * c1 ≤ 255 * sparseSteps rect.width := by
    rw [Nat.mul_comm]; exact Nat.mul_le_mul_right _ (by omega)
  have k2 : sparseSteps rect.width * c2 ≤ 255 * sparseSteps rect.width := by
    rw [Nat.mul_comm]; exact Nat.mul_le_mul_right _ (by omega)
  have hrows := sparseRows_run buffer pitch rect fuel (rect.height / 16) hsy (by omega)
    (by omega) hyh (sparseSteps rect.width) (sparseSteps rect.height) fuel 0
    { ch0 := 0, ch1 := 0, ch2 := 0, count := 0 }
    (fun _ => sparseSteps rect.width * c0) (fun _ => sparseSteps rect.width * c1)
    (fun _ => sparseSteps rect.width * c2) (by omega) (le_refl _)
    (by simpa using hcge) (by intro i hi; simpa using hclt i hi)
    (by
      intro i hi
      refine ⟨k0, k1, k2, ?_⟩
      intro b q0 q1 q2 q3 q4
      exact sparseColumns_uniform_row buffer pitch rect c0 c1 c2 hw hx hy hrow hint hread
        fuel hfuel (0 + i * (rect.height / 16))
        (by have : (0 : Int) ≤ i * (rect.height / 16) := mul_nonneg (by omega) (by omega)
            omega)
        (by have := hclt i hi; omega) b q0 q1 q2 q3 q4)
    (by simp only; omega) (by simp only; omega) (by simp only; omega)
    (by simp only; omega)
    (by
      simp only
      have : ((sparseSteps rect.height * sparseSteps rect.width : Nat) : Int) ≤ 961 := by
        exact_mod_cast hcnt
      rw [Nat.cast_mul] at this
      omega)
  have m0 : sparseSteps rect.height * sparseSteps rect.width * c0 ≤ 961 * 255 :=
    Nat.mul_le_mul hcnt (by omega)
  have m1 : sparseSteps rect.height * sparseSteps rect.width * c1 ≤ 961 * 255 :=
    Nat.mul_le_mul hcnt (by omega)
  have m2 : sparseSteps rect.height * sparseSteps rect.width * c2 ≤ 961 * 255 :=
    Nat.mul_le_mul hcnt (by omega)
  unfold accumulateBuffer
  simp only [if_true, hrows, bind, Except.bind, pure, Except.pure, Finset.sum_const,
    Finset.card_range, smul_eq_mul, zero_add, ← Nat.mul_assoc]
  rw [toInt32_of_range (by omega) (by omega), toInt32_of_range (by omega) (by omega),
    toInt32_of_range (by omega) (by omega)]
  simp only [Nat.cast_mul]

theorem averageAndPack_uniform (n r g b : Nat) (hn : 1 ≤ n) (hr : r < 256) (hg : g < 256)
    (hb : b < 256) :
    averageAndPack (n : Int)
      { r := ((n * r : Nat) : Int), g := ((n * g : Nat) : Int), b := ((n * b : Nat) : Int) }
      = qRgb r g b := by
  unfold averageAndPack
  by_cases h1 : (n : Int) > 1
  · have hn0 : (n : Int) ≠ 0 := by omega
    simp only [if_pos h1, Nat.cast_mul, Int.mul_tdiv_cancel_left _ hn0, andInt_255]
    congr 1 <;> omega
  · have : n = 1 := by omega
    subst this
    simp only [if_neg h1, one_mul]

theorem read_of_uniform (buffer : Buffer) (pitch : Nat) (rect : QRect) (k shift : Nat)
    (hk : k + shift < 4) (hin : rectInside buffer pitch rect) (cx cy : Int)
    (hcx0 : 0 ≤ cx) (hcx : cx < rect.width) (hcy0 : 0 ≤ cy) (hcy : cy < rect.height) :
    4 * (rect.x + cx).toNat + 4 ≤ pitch
      ∧ buffer.off + pitch * (rect.y + cy).toNat + 4 * (rect.x + cx).toNat + 4 ≤ buffer.size
      ∧ (buffer.advance shift).read (pitch * (rect.y + cy) + 4 * (rect.x + cx) + k)
        = .ok (buffer.byte (buffer.off + pitch * (rect.y + cy).toNat
            + 4 * (rect.x + cx).toNat + (k + shift))).val := by
  obtain ⟨hx, hy, hrow, hsize⟩ := hin
  have hprod : (pitch : Int) * (rect.y + cy + 1) ≤ pitch * (rect.y + rect.height) :=
    mul_le_mul_of_nonneg_left (by omega) (by omega)
  have hexp : (pitch : Int) * (rect.y + cy + 1) = pitch * (rect.y + cy) + pitch := by ring
  have hp0 : (0 : Int) ≤ pitch * (rect.y + cy) := mul_nonneg (by omega) (by omega)
  have e1 : ((pitch * (rect.y + cy).toNat : Nat) : Int) = pitch * (rect.y + cy) := by
    rw [Nat.cast_mul, Int.toNat_of_nonneg (by omega)]
  have e2 : (((rect.x + cx).toNat : Nat) : Int) = rect.x + cx :=
    Int.toNat_of_nonneg (by omega)
  refine ⟨by omega, by omega, ?_⟩
  unfold Buffer.read Buffer.advance
  simp only
  rw [if_pos (by push_cast; omega)]
  congr 3
  omega

theorem width_assert_ok {w : Int} (h0 : 0 ≤ w) (h4 : w % 4 = 0) : ¬ w.tmod 4 ≠ 0 := by
  rw [Int.tmod_eq_emod h0 (by decide)]; omega

theorem calculateAvgColor_uniform (fuel : Nat) (hfuel : 32 ≤ fuel) (result : Nat)
    (buffer : Buffer) (format : BufferFormat) (hfmt : format ≠ .BufferFormatUnknown)
    (pitch : Nat) (rect : QRect) (r g b : Nat)
    (hw : 16 ≤ rect.width) (hh : 16 ≤ rect.height) (hw4 : rect.width % 4 = 0)
    (hin : rectInside buffer pitch rect)
    (hint : pitch * (rect.y + rect.height) ≤ 2147483648)
    (huni : uniformPixels buffer format pitch r g b) :
    calculateAvgColor fuel result buffer format pitch rect
      = .ok (qRgb r g b, qRgb r g b) := by
  have hassert := width_assert_ok (by omega : 0 ≤ rect.width) hw4
  obtain ⟨wc16, wc31, -, -⟩ := sparseSteps_spec rect.width hw
  obtain ⟨hc16, hc31, -, -⟩ := sparseSteps_spec rect.height hh
  have hn : 1 ≤ sparseSteps rect.height * sparseSteps rect.width := by
    have := Nat.mul_le_mul hc16 wc16; omega
  -- what the three reads of a sample give, for the pointer moved by `shift` bytes
  have hreads : ∀ (shift k0 k1 k2 : Nat) (c0 c1 c2 : Nat), k0 = 0 + shift → k1 = 1 + shift →
      k2 = 2 + shift → shift < 2 →
      (∀ px py : Nat, 4 * px + 4 ≤ pitch →
        buffer.off + pitch * py + 4 * px + 4 ≤ buffer.size →
        (buffer.byte (buffer.off + pitch * py + 4 * px + k0)).val = c0
          ∧ (buffer.byte (buffer.off + pitch * py + 4 * px + k1)).val = c1
          ∧ (buffer.byte (buffer.off + pitch * py + 4 * px + k2)).val = c2) →
      ∀ cx cy : Int, 0 ≤ cx → cx < rect.width → 0 ≤ cy → cy < rect.height →
        (buffer.advance shift).read (pitch * (rect.y + cy) + 4 * (rect.x + cx)) = .ok c0
          ∧ (buffer.advance shift).read (pitch * (rect.y + cy) + 4 * (rect.x + cx) + 1)
            = .ok c1
          ∧ (buffer.advance shift).read (pitch * (rect.y + cy) + 4 * (rect.x + cx) + 2)
            = .ok c2 := by
    intro shift k0 k1 k2 c0 c1 c2 e0 e1 e2 hs hpix cx cy hcx0 hcx hcy0 hcy
    obtain ⟨p1, p2, q0⟩ := read_of_uniform buffer pitch rect 0 shift (by omega) hin cx cy
      hcx0 hcx hcy0 hcy
    obtain ⟨-, -, q1⟩ := read_of_uniform buffer pitch rect 1 shift (by omega) hin cx cy
      hcx0 hcx hcy0 hcy
    obtain ⟨-, -, q2⟩ := read_of_uniform buffer pitch rect 2 shift (by omega) hin cx cy
      hcx0 hcx hcy0 hcy
    obtain ⟨v0, v1, v2⟩ := hpix _ _ p1 p2
    simp only [Nat.cast_zero, Nat.cast_one, Nat.cast_ofNat, add_zero] at q0 q1 q2
    rw [q0, q1, q2, ← e0, ← e1, ← e2, v0, v1, v2]
    exact ⟨rfl, rfl, rfl⟩
  have hadv0 : buffer.advance 0 = buffer := rfl
  have hinside : ∀ shift : Nat, shift < 2 → ∀ c0 c1 c2 : Nat,
      (∀ cx cy : Int, 0 ≤ cx → cx < rect.width → 0 ≤ cy → cy < rect.height →
        (buffer.advance shift).read (pitch * (rect.y + cy) + 4 * (rect.x + cx)) = .ok c0
          ∧ (buffer.advance shift).read (pitch * (rect.y + cy) + 4 * (rect.x + cx) + 1)
            = .ok c1
          ∧ (buffer.advance shift).read (pitch * (rect.y + cy) + 4 * (rect.x + cx) + 2)
            = .ok c2) →
      accumulateBuffer fuel (buffer.advance shift) pitch rect true =
        .ok (((sparseSteps rect.height * sparseSteps rect.width : Nat) : Int),
          ((sparseSteps rect.height * sparseSteps rect.width * c0 : Nat) : Int),
          ((sparseSteps rect.height * sparseSteps rect.width * c1 : Nat) : Int),
          ((sparseSteps rect.height * sparseSteps rect.width * c2 : Nat) : Int)) := by
    intro shift _ c0 c1 c2 hrd
    exact accumulateBuffer_sparse_uniform (buffer.advance shift) pitch rect c0 c1 c2 hw hh
      hin.1 hin.2.1 hin.2.2.1 hint hrd fuel hfuel
  have hlt : r < 256 ∧ g < 256 ∧ b < 256 := by
    obtain ⟨p1, p2, -⟩ := read_of_uniform buffer pitch rect 0 0 (by omega) hin 0 0
      (le_refl _) (by omega) (le_refl _) (by omega)
    obtain ⟨v0, v1, v2⟩ := huni _ _ p1 p2
    rw [← v0, ← v1, ← v2]
    exact ⟨Fin.isLt _, Fin.isLt _, Fin.isLt _⟩
  have hpack := averageAndPack_uniform (sparseSteps rect.height * sparseSteps rect.width)
    r g b hn hlt.1 hlt.2.1 hlt.2.2
  unfold calculateAvgColor
  rw [if_neg hassert]
  cases format with
  | BufferFormatUnknown => exact absurd rfl hfmt
  | BufferFormatArgb =>
    have hacc := hinside 0 (by omega) b g r (hreads 0 0 1 2 b g r rfl rfl rfl (by omega)
      (fun px py h1 h2 => by
        obtain ⟨v0, v1, v2⟩ := huni px py h1 h2
        exact ⟨v2, v1, v0⟩))
    rw [hadv0] at hacc
    simp only [accumulateBufferFormatArgb, hacc, bind, Except.bind, pure, Except.pure, hpack]
  | BufferFormatAbgr =>
    have hacc := hinside 0 (by omega) r g b (hreads 0 0 1 2 r g b rfl rfl rfl (by omega)
      (fun px py h1 h2 => huni px py h1 h2))
    rw [hadv0] at hacc
    simp only [accumulateBufferFormatAbgr, hacc, bind, Except.bind, pure, Except.pure, hpack]
  | BufferFormatRgba =>
    have hacc := hinside 1 (by omega) b g r (hreads 1 1 2 3 b g r rfl rfl rfl (by omega)
      (fun px py h1 h2 => by
        obtain ⟨v0, v1, v2⟩ := huni px py h1 h2
        exact ⟨v2, v1, v0⟩))
    simp only [accumulateBufferFormatRgba, accumulateBufferFormatArgb, hacc, bind,
      Except.bind, pure, Except.pure, hpack]
  | BufferFormatBgra =>
    have hacc := hinside 1 (by omega) r g b (hreads 1 1 2 3 r g b rfl rfl rfl (by omega)
      (fun px py h1 h2 => huni px py h1 h2))
    simp only [accumulateBufferFormatBgra, accumulateBufferFormatAbgr, hacc, bind,
      Except.bind, pure, Except.pure, hpack]

theorem patternBuffer_byte (size : Nat) (b0 b1 b2 b3 : Fin 256) (i : Nat) :
    (i % 4 = 0 → (patternBuffer size b0 b1 b2 b3).byte i = b0)
      ∧ (i % 4 = 1 → (patternBuffer size b0 b1 b2 b3).byte i = b1)
      ∧ (i % 4 = 2 → (patternBuffer size b0 b1 b2 b3).byte i = b2)
      ∧ (i % 4 = 3 → (patternBuffer size b0 b1 b2 b3).byte i = b3) := by
  refine ⟨?_, ?_, ?_, ?_⟩ <;> intro h <;> simp [patternBuffer, h]

theorem patternBuffer_uniform_argb (size pitch : Nat) (hp : pitch % 4 = 0) (r g b a : Fin 256) :
    uniformPixels (patternBuffer size b g r a) .BufferFormatArgb pitch r.val g.val b.val := by
  intro px py _ _
  have hb := patternBuffer_byte size b g r a
  have hm : (pitch * py) % 4 = 0 := by
    rw [Nat.mul_mod, hp]; simp
  refine ⟨?_, ?_, ?_⟩
  · rw [(hb _).2.2.1 (by simp only [patternBuffer, redByte]; omega)]
  · rw [(hb _).2.1 (by simp only [patternBuffer, greenByte]; omega)]
  · rw [(hb _).1 (by simp only [patternBuffer, blueByte]; omega)]

/-- C1 fails as stated: in a buffer of `2^31 + 2^21` bytes with a pitch of `2^17` bytes, all
of whose pixels hold R=10, G=20, B=30 in `ARGB` layout, the 16 by 16 rectangle at `(0, 2^14)`
lies inside the buffer, but its first byte is `2^31` bytes after the buffer pointer, the
`int` index of `baseIndexOfLine` wraps to `-2^31`, and no colour is returned. -/
theorem calculateAvgColor_uniform_fails_beyond_int :
    rectInside (patternBuffer 2149580800 30 20 10 255) 131072 ⟨0, 16384, 16, 16⟩
      ∧ uniformPixels (patternBuffer 2149580800 30 20 10 255) .BufferFormatArgb 131072
          10 20 30
      ∧ ¬ ∃ (fuel result : Nat) (v : Nat × Nat),
          calculateAvgColor fuel result (patternBuffer 2149580800 30 20 10 255)
            .BufferFormatArgb 131072 ⟨0, 16384, 16, 16⟩ = .ok v := by
  refine ⟨?_, ?_, ?_⟩
  · simp only [rectInside, patternBuffer]
    decide
  · exact patternBuffer_uniform_argb 2149580800 131072 (by decide) 10 20 30 255
  · rintro ⟨fuel, result, v, h⟩
    have hbase : baseIndexOfLine 0 131072 ⟨0, 16384, 16, 16⟩ = -2147483648 := by rfl
    cases fuel with
    | zero =>
      simp [calculateAvgColor, accumulateBufferFormatArgb, accumulateBuffer, sparseRows,
        bind, Except.bind] at h
      split at h <;> cases h
    | succ n =>
      simp [calculateAvgColor, accumulateBufferFormatArgb, accumulateBuffer, sparseRows,
        sparseColumns, hbase, Buffer.read, patternBuffer, bind, Except.bind] at h
      split at h <;> cases h

/-- C1, amended: for each of the four formats, every pitch and every rectangle with width and
height at least 16 and width a multiple of 4 that lies inside the buffer and whose scanlines
end at most `2^31` bytes after the buffer pointer, if every pixel of the buffer holds R=10,
G=20, B=30 in the byte layout of the format, then `calculateAvgColor` (its loops allowed at
least 32 iterations) returns the packed colour `qRgb 10 20 30` and stores it in `*result`. -/
theorem calculateAvgColor_uniform_10_20_30 (fuel : Nat) (hfuel : 32 ≤ fuel) (result : Nat)
    (buffer : Buffer) (format : BufferFormat) (hfmt : format ≠ .BufferFormatUnknown)
    (pitch : Nat) (rect : QRect)
    (hw : 16 ≤ rect.width) (hh : 16 ≤ rect.height) (hw4 : rect.width % 4 = 0)
    (hin : rectInside buffer pitch rect)
    (hint : pitch * (rect.y + rect.height) ≤ 2147483648)
    (huni : uniformPixels buffer format pitch 10 20 30) :
    calculateAvgColor fuel result buffer format pitch rect
      = .ok (qRgb 10 20 30, qRgb 10 20 30) :=
  calculateAvgColor_uniform fuel hfuel result buffer format hfmt pitch rect 10 20 30 hw hh hw4
    hin hint huni

theorem calculateAvgColor_uniform_10_20_30_witness :
    calculateAvgColor 32 0 (patternBuffer 1024 30 20 10 77) .BufferFormatArgb 64
      ⟨0, 0, 16, 16⟩ = .ok (qRgb 10 20 30, qRgb 10 20 30) :=
  calculateAvgColor_uniform_10_20_30 32 (by decide) 0 (patternBuffer 1024 30 20 10 77)
    .BufferFormatArgb (by decide) 64 ⟨0, 0, 16, 16⟩ (by decide) (by decide) (by decide)
    (by simp only [rectInside, patternBuffer]; decide) (by decide)
    (patternBuffer_uniform_argb 1024 64 (by decide) 10 20 30 77)

theorem calculateAvgColor_unknown (fuel result : Nat) (buffer : Buffer) (pitch : Nat)
    (rect : QRect) (h4 : rect.width.tmod 4 = 0) :
    calculateAvgColor fuel result buffer .BufferFormatUnknown pitch rect
      = .ok (4294967295, result) := by
  unfold calculateAvgColor
  rw [if_neg (by simp [h4])]
  rfl

theorem patternBuffer_uniform_same (size pitch : Nat) (c : Fin 256) (format : BufferFormat) :
    uniformPixels (patternBuffer size c c c c) format pitch c.val c.val c.val := by
  intro px py _ _
  simp [patternBuffer]

/-- C5 (the code does not do this): for a format tag outside the four recognized ones
`calculateAvgColor` returns `-1` converted to `QRgb`, that is `0xffffffff`, for every buffer
and without writing `*result`; but `0xffffffff` is also `qRgb 255 255 255`, the value that the
recognized format `ARGB` returns on a 16 by 16 rectangle of white pixels, so the returned
value does not differ from every colour. -/
theorem calculateAvgColor_unknown_collides_with_white :
    (∀ (fuel result : Nat) (buffer : Buffer),
        calculateAvgColor fuel result buffer .BufferFormatUnknown 64 ⟨0, 0, 16, 16⟩
          = .ok (4294967295, result))
      ∧ calculateAvgColor 32 0 (patternBuffer 1024 255 255 255 255) .BufferFormatArgb 64
          ⟨0, 0, 16, 16⟩ = .ok (4294967295, 4294967295)
      ∧ qRgb 255 255 255 = 4294967295 := by
  refine ⟨?_, ?_, by rfl⟩
  · intro fuel result buffer
    exact calculateAvgColor_unknown fuel result buffer 64 ⟨0, 0, 16, 16⟩ (by decide)
  · have h := calculateAvgColor_uniform 32 (by decide) 0 (patternBuffer 1024 255 255 255 255)
      .BufferFormatArgb (by decide) 64 ⟨0, 0, 16, 16⟩ 255 255 255 (by decide) (by decide)
      (by decide) (by simp only [rectInside, patternBuffer]; decide) (by decide)
      (patternBuffer_uniform_same 1024 64 255 .BufferFormatArgb)
    rw [h]
    rfl

theorem accumulateBuffer_sparse_small_never_returns_witness :
    accumulateBuffer 1000 (patternBuffer 256 30 20 10 0) 32 ⟨0, 0, 8, 8⟩ true
      ≠ .ok (64, 1920, 1280, 640) :=
  accumulateBuffer_sparse_small_never_returns 1000 (patternBuffer 256 30 20 10 0) 32
    ⟨0, 0, 8, 8⟩ (by decide) (by decide) (by decide) (64, 1920, 1280, 640)

/-- C10: when `calculateAvgColor` on a raw buffer returns, then for a recognized format the
value stored in `*result` is the returned value, whatever `*result` held before the call, and
for an unrecognized format `*result` still holds the value it had before the call (and the
returned value is `-1` converted to `QRgb`). -/
theorem calculateAvgColor_result_frame (fuel result : Nat) (buffer : Buffer)
    (format : BufferFormat) (pitch : Nat) (rect : QRect) (ret stored : Nat)
    (h : calculateAvgColor fuel result buffer format pitch rect = .ok (ret, stored)) :
    (format ≠ .BufferFormatUnknown →
        stored = ret ∧ ∀ before : Nat,
          calculateAvgColor fuel before buffer format pitch rect = .ok (ret, ret))
      ∧ (format = .BufferFormatUnknown → stored = result ∧ ret = 4294967295) := by
  have key : ∀ acc : Except Fault (Int × ColorValue),
      (do
        let (count, color) ← acc
        let stored := averageAndPack count color
        (pure (stored, stored) : Except Fault (Nat × Nat))) = .ok (ret, stored) →
      stored = ret := by
    intro acc hacc
    cases acc with
    | error e => simp [bind, Except.bind] at hacc
    | ok v =>
      simp only [bind, Except.bind, pure, Except.pure, Except.ok.injEq, Prod.mk.injEq] at hacc
      rw [← hacc.1, ← hacc.2]
  unfold calculateAvgColor at h
  split at h
  · cases h
  · cases format with
    | BufferFormatUnknown =>
      refine ⟨fun hne => absurd rfl hne, fun _ => ?_⟩
      simp only [Except.ok.injEq, Prod.mk.injEq] at h
      exact ⟨h.2.symm, h.1.symm⟩
    | BufferFormatArgb =>
      refine ⟨fun _ => ?_, fun he => by cases he⟩
      have hs := key _ h
      subst hs
      refine ⟨rfl, fun before => ?_⟩
      unfold calculateAvgColor
      rw [if_neg (by assumption)]
      exact h
    | BufferFormatAbgr =>
      refine ⟨fun _ => ?_, fun he => by cases he⟩
      have hs := key _ h
      subst hs
      refine ⟨rfl, fun before => ?_⟩
      unfold calculateAvgColor
      rw [if_neg (by assumption)]
      exact h
    | BufferFormatRgba =>
      refine ⟨fun _ => ?_, fun he => by cases he⟩
      have hs := key _ h
      subst hs
      refine ⟨rfl, fun before => ?_⟩
      unfold calculateAvgColor
      rw [if_neg (by assumption)]
      exact h
    | BufferFormatBgra =>
      refine ⟨fun _ => ?_, fun he => by cases he⟩
      have hs := key _ h
      subst hs
      refine ⟨rfl, fun before => ?_⟩
      unfold calculateAvgColor
      rw [if_neg (by assumption)]
      exact h

theorem calculateAvgColor_result_frame_witness :
    ((BufferFormat.BufferFormatArgb ≠ .BufferFormatUnknown →
        qRgb 0 0 0 = qRgb 0 0 0 ∧ ∀ before : Nat,
          calculateAvgColor 1 before (patternBuffer 1024 30 20 10 0) .BufferFormatArgb 64
            ⟨0, 0, 16, 0⟩ = .ok (qRgb 0 0 0, qRgb 0 0 0))
      ∧ (BufferFormat.BufferFormatArgb = .BufferFormatUnknown →
          qRgb 0 0 0 = 7 ∧ qRgb 0 0 0 = 4294967295))
    ∧ ((BufferFormat.BufferFormatUnknown ≠ .BufferFormatUnknown →
        7 = 4294967295 ∧ ∀ before : Nat,
          calculateAvgColor 1 before (patternBuffer 1024 30 20 10 0) .BufferFormatUnknown 64
            ⟨0, 0, 16, 0⟩ = .ok (4294967295, 4294967295))
      ∧ (BufferFormat.BufferFormatUnknown = .BufferFormatUnknown →
          7 = 7 ∧ 4294967295 = 4294967295)) :=
  ⟨calculateAvgColor_result_frame 1 7 (patternBuffer 1024 30 20 10 0) .BufferFormatArgb 64
      ⟨0, 0, 16, 0⟩ (qRgb 0 0 0) (qRgb 0 0 0) (by rfl),
    calculateAvgColor_result_frame 1 7 (patternBuffer 1024 30 20 10 0) .BufferFormatUnknown 64
      ⟨0, 0, 16, 0⟩ 4294967295 7 (by rfl)⟩

/-! ## Empty rectangles -/

theorem toInt32_add_toInt32 (a b : Int) : toInt32 (toInt32 a + b) = toInt32 (a + b) := by
  unfold toInt32; omega

theorem toInt32_of_mod {x : Nat} {t : Nat} (ht : t < 2147483648) (h : x % 4294967296 = t) :
    toInt32 (x : Int) = t := by
  unfold toInt32; omega

/-- The wrapped multiples of the sparse step reach every dimension `n` in `[16, 2^31)`. -/
theorem exists_wrapped_multiple (n : Int) (h16 : 16 ≤ n) (hlt : n < 2147483648) :
    ∃ K : Nat, n ≤ toInt32 (K * (n / 16)) := by
  obtain ⟨N, rfl⟩ : ∃ N : Nat, n = (N : Int) := ⟨n.toNat, by omega⟩
  have hN16 : 16 ≤ N := by omega
  have hNlt : N < 2147483648 := by omega
  have hS0 : N / 16 ≠ 0 := by omega
  obtain ⟨a, m, hodd, hS⟩ := Nat.exists_eq_two_pow_mul_odd hS0
  have hmpos : 1 ≤ m := by
    rcases hodd with ⟨c, hc⟩; omega
  have hpow_le : 2 ^ (a + 4) ≤ 16 * (N / 16) := by
    rw [hS, pow_add]
    have : 2 ^ a * 1 ≤ 2 ^ a * m := Nat.mul_le_mul_left _ hmpos
    omega
  have ha : a + 4 < 31 := by
    have h1 : 2 ^ (a + 4) < 2 ^ 31 := by omega
    exact (Nat.pow_lt_pow_iff_right (by decide)).1 h1
  have hdvd1 : 2 ^ (a + 4) ∣ 2 ^ 31 := pow_dvd_pow 2 (by omega)
  have hdvd2 : 2 ^ (a + 4) ∣ 16 * (N / 16) := by
    rw [hS, pow_add]
    exact ⟨m, by ring⟩
  have hdvd3 : 2 ^ (a + 4) ∣ 2 ^ 31 - 16 * (N / 16) := Nat.dvd_sub' hdvd1 hdvd2
  have hgap : 2 ^ (a + 4) ≤ 2 ^ 31 - 16 * (N / 16) :=
    Nat.le_of_dvd (by omega) hdvd3
  have hpa : 1 ≤ 2 ^ a := Nat.one_le_two_pow
  have hpa4 : 2 ^ (a + 4) = 16 * 2 ^ a := by rw [pow_add]; ring
  have hpa31 : 2 ^ a ≤ 2 ^ 31 := Nat.pow_le_pow_right (by decide) (by omega)
  -- the target value `2^31 - 2^a`
  have htN : N ≤ 2 ^ 31 - 2 ^ a := by omega
  have htdvd : 2 ^ a ∣ 2 ^ 31 - 2 ^ a :=
    Nat.dvd_sub' (pow_dvd_pow 2 (by omega)) (dvd_refl _)
  have hcop : Nat.Coprime m (2 ^ 32) := Nat.Coprime.pow_right 32 hodd.coprime_two_right
  obtain ⟨inv, hinv⟩ := Nat.exists_mul_emod_eq_one_of_coprime hcop (by decide)
  refine ⟨inv * ((2 ^ 31 - 2 ^ a) / 2 ^ a), ?_⟩
  have hprod : inv * ((2 ^ 31 - 2 ^ a) / 2 ^ a) * (N / 16) = m * inv * (2 ^ 31 - 2 ^ a) := by
    have hc := Nat.div_mul_cancel htdvd
    calc inv * ((2 ^ 31 - 2 ^ a) / 2 ^ a) * (N / 16)
        = inv * ((2 ^ 31 - 2 ^ a) / 2 ^ a) * (2 ^ a * m) := by rw [hS]
      _ = m * inv * ((2 ^ 31 - 2 ^ a) / 2 ^ a * 2 ^ a) := by ring
      _ = m * inv * (2 ^ 31 - 2 ^ a) := by rw [hc]
  have hmod : (inv * ((2 ^ 31 - 2 ^ a) / 2 ^ a) * (N / 16)) % 4294967296
      = 2 ^ 31 - 2 ^ a := by
    rw [hprod, Nat.mul_mod]
    have h32 : (2 : Nat) ^ 32 = 4294967296 := by norm_num
    rw [h32] at hinv
    rw [hinv, one_mul, Nat.mod_mod]
    exact Nat.mod_eq_of_lt (by omega)
  have hcast : ((inv * ((2 ^ 31 - 2 ^ a) / 2 ^ a) : Nat) : Int) * ((N : Int) / 16)
      = ((inv * ((2 ^ 31 - 2 ^ a) / 2 ^ a) * (N / 16) : Nat) : Int) := by
    push_cast; ring
  rw [hcast, toInt32_of_mod (by omega) hmod]
  exact_mod_cast htN

theorem width_assert_of_emod {w : Int} (h4 : w % 4 = 0) : ¬ w.tmod 4 ≠ 0 := by
  have hd : (4 : Int) ∣ w := Int.dvd_of_emod_eq_zero h4
  simp [Int.tmod_eq_zero_of_dvd hd]

theorem sparseColumns_empty (buffer : Buffer) (rect : QRect) (hw : rect.width ≤ 0) (n : Nat)
    (index : Int) (a : Acc) : sparseColumns buffer rect (n + 1) 0 index a = .ok a := by
  simp [sparseColumns, not_lt.2 hw]

theorem sparseRows_empty_width (buffer : Buffer) (pitch : Nat) (rect : QRect) (inner : Nat)
    (hw : rect.width ≤ 0) (hinner : 1 ≤ inner) (s : Int)
    (hs : rect.height.tdiv rowsRequired = s) (K : Nat)
    (hK : rect.height ≤ toInt32 (K * s))
    (hmin : ∀ j : Nat, j < K → toInt32 (j * s) < rect.height) :
    ∀ (d k fuel : Nat) (a : Acc), k + d = K → d < fuel →
      sparseRows buffer pitch rect inner fuel (toInt32 (k * s)) a = .ok a := by
  obtain ⟨i, rfl⟩ : ∃ i, inner = i + 1 := ⟨inner - 1, by omega⟩
  intro d
  induction d with
  | zero =>
    intro k fuel a hk hf
    obtain ⟨n, rfl⟩ : ∃ n, fuel = n + 1 := ⟨fuel - 1, by omega⟩
    have hkK : k = K := by omega
    subst hkK
    simp [sparseRows, not_lt.2 hK]
  | succ d ih =>
    intro k fuel a hk hf
    obtain ⟨n, rfl⟩ : ∃ n, fuel = n + 1 := ⟨fuel - 1, by omega⟩
    have hlt := hmin k (by omega)
    have hnext : toInt32 (toInt32 (k * s) + s) = toInt32 (((k + 1 : Nat) : Int) * s) := by
      rw [toInt32_add_toInt32]; congr 1; push_cast; ring
    simp only [sparseRows, if_pos hlt, sparseColumns_empty buffer rect hw, hs, hnext, bind,
      Except.bind]
    exact ih (k + 1) n a (by omega) (by omega)

theorem accumulateBuffer_empty (buffer : Buffer) (pitch : Nat) (rect : QRect)
    (hint : rect.height < 2147483648)
    (hempty : rect.height = 0 ∨ (16 ≤ rect.height ∧ rect.width = 0)) :
    ∃ n : Nat, ∀ fuel : Nat, n ≤ fuel →
      accumulateBuffer fuel buffer pitch rect true = .ok (0, 0, 0, 0) := by
  rcases hempty with h0 | ⟨h16, hw0⟩
  · refine ⟨1, fun fuel hf => ?_⟩
    obtain ⟨n, rfl⟩ : ∃ n, fuel = n + 1 := ⟨fuel - 1, by omega⟩
    simp [accumulateBuffer, sparseRows, h0, bind, Except.bind, pure, Except.pure]
    rfl
  · have hex := exists_wrapped_multiple rect.height h16 hint
    classical
    refine ⟨Nat.find hex + 1, fun fuel hf => ?_⟩
    have hs : rect.height.tdiv rowsRequired = rect.height / 16 :=
      tdiv_sixteen (le_trans (by decide) h16)
    have hrun := sparseRows_empty_width buffer pitch rect fuel (le_of_eq hw0) (by omega)
      (rect.height / 16) hs (Nat.find hex) (Nat.find_spec hex)
      (fun j hj => lt_of_not_le (Nat.find_min hex hj)) (Nat.find hex) 0 fuel
      { ch0 := 0, ch1 := 0, ch2 := 0, count := 0 } (by omega) (by omega)
    have h0 : toInt32 (((0 : Nat) : Int) * (rect.height / 16)) = 0 := by
      simp only [Nat.cast_zero, zero_mul]; rfl
    rw [h0] at hrun
    simp only [accumulateBuffer, if_true, hrun, bind, Except.bind, pure, Except.pure]
    rfl

/-- The build with the assertion checked stops at the assertion or goes on as the build
without it. -/
theorem calculateAvgColor_eq_noDebug (fuel result : Nat) (buffer : Buffer)
    (format : BufferFormat) (pitch : Nat) (rect : QRect) :
    calculateAvgColor fuel result buffer format pitch rect =
      if rect.width.tmod 4 ≠ 0 then .error .assertFailed
      else calculateAvgColorNoDebug fuel result buffer format pitch rect := rfl

/-- C7: for every recognized format, every buffer and pitch, and every empty rectangle of
height 0, or of height at least 16 and width 0, the accumulation returns the sample count 0
and `calculateAvgColor` (given enough loop iterations) takes the branch without division,
the test `count > 1` being false, and returns the default black, the packed colour
`qRgb 0 0 0 = 0xff000000`, which it also stores in `*result`. This holds of the build in
which `Q_ASSERT_X` expands to nothing (`calculateAvgColorNoDebug`) for every width, and of
the build in which the assertion is checked (`calculateAvgColor`) for every width that
passes the assertion. -/
theorem calculateAvgColor_empty_black (result : Nat) (buffer : Buffer)
    (format : BufferFormat) (hfmt : format ≠ .BufferFormatUnknown) (pitch : Nat)
    (rect : QRect) (hint : rect.height < 2147483648)
    (hempty : rect.height = 0 ∨ (16 ≤ rect.height ∧ rect.width = 0)) :
    ∃ n : Nat, ∀ fuel : Nat, n ≤ fuel →
      accumulateBuffer fuel buffer pitch rect true = .ok (0, 0, 0, 0)
        ∧ accumulateBuffer fuel (buffer.advance 1) pitch rect true = .ok (0, 0, 0, 0)
        ∧ ¬ ((0 : Int) > 1)
        ∧ calculateAvgColorNoDebug fuel result buffer format pitch rect
          = .ok (qRgb 0 0 0, qRgb 0 0 0)
        ∧ (rect.width % 4 = 0 →
            calculateAvgColor fuel result buffer format pitch rect
              = .ok (qRgb 0 0 0, qRgb 0 0 0))
        ∧ qRgb 0 0 0 = 4278190080 := by
  obtain ⟨n1, h1⟩ := accumulateBuffer_empty buffer pitch rect hint hempty
  obtain ⟨n2, h2⟩ := accumulateBuffer_empty (buffer.advance 1) pitch rect hint hempty
  refine ⟨max n1 n2, fun fuel hf => ?_⟩
  have a1 := h1 fuel (le_trans (le_max_left _ _) hf)
  have a2 := h2 fuel (le_trans (le_max_right _ _) hf)
  have hblack : calculateAvgColorNoDebug fuel result buffer format pitch rect
      = .ok (qRgb 0 0 0, qRgb 0 0 0) := by
    unfold calculateAvgColorNoDebug
    cases format with
    | BufferFormatUnknown => exact absurd rfl hfmt
    | BufferFormatArgb =>
      simp only [accumulateBufferFormatArgb, a1, bind, Except.bind, pure, Except.pure]
      rfl
    | BufferFormatAbgr =>
      simp only [accumulateBufferFormatAbgr, a1, bind, Except.bind, pure, Except.pure]
      rfl
    | BufferFormatRgba =>
      simp only [accumulateBufferFormatRgba, accumulateBufferFormatArgb, a2, bind,
        Except.bind, pure, Except.pure]
      rfl
    | BufferFormatBgra =>
      simp only [accumulateBufferFormatBgra, accumulateBufferFormatAbgr, a2, bind,
        Except.bind, pure, Except.pure]
      rfl
  refine ⟨a1, a2, by decide, hblack, fun hw4 => ?_, by rfl⟩
  rw [calculateAvgColor_eq_noDebug, if_neg (width_assert_of_emod hw4)]
  exact hblack

theorem calculateAvgColor_empty_black_witness :
    (∃ n : Nat, ∀ fuel : Nat, n ≤ fuel →
      accumulateBuffer fuel (patternBuffer 1024 30 20 10 0) 64 ⟨0, 0, 5, 0⟩ true
          = .ok (0, 0, 0, 0)
        ∧ accumulateBuffer fuel ((patternBuffer 1024 30 20 10 0).advance 1) 64 ⟨0, 0, 5, 0⟩
          true = .ok (0, 0, 0, 0)
        ∧ ¬ ((0 : Int) > 1)
        ∧ calculateAvgColorNoDebug fuel 7 (patternBuffer 1024 30 20 10 0) .BufferFormatRgba 64
          ⟨0, 0, 5, 0⟩ = .ok (qRgb 0 0 0, qRgb 0 0 0)
        ∧ ((5 : Int) % 4 = 0 →
            calculateAvgColor fuel 7 (patternBuffer 1024 30 20 10 0) .BufferFormatRgba 64
              ⟨0, 0, 5, 0⟩ = .ok (qRgb 0 0 0, qRgb 0 0 0))
        ∧ qRgb 0 0 0 = 4278190080)
      ∧ ∃ n : Nat, ∀ fuel : Nat, n ≤ fuel →
        accumulateBuffer fuel (patternBuffer 1024 30 20 10 0) 64 ⟨0, 0, 0, 16⟩ true
            = .ok (0, 0, 0, 0)
          ∧ accumulateBuffer fuel ((patternBuffer 1024 30 20 10 0).advance 1) 64
            ⟨0, 0, 0, 16⟩ true = .ok (0, 0, 0, 0)
          ∧ ¬ ((0 : Int) > 1)
          ∧ calculateAvgColorNoDebug fuel 7 (patternBuffer 1024 30 20 10 0) .BufferFormatArgb
            64 ⟨0, 0, 0, 16⟩ = .ok (qRgb 0 0 0, qRgb 0 0 0)
          ∧ ((0 : Int) % 4 = 0 →
              calculateAvgColor fuel 7 (patternBuffer 1024 30 20 10 0) .BufferFormatArgb 64
                ⟨0, 0, 0, 16⟩ = .ok (qRgb 0 0 0, qRgb 0 0 0))
          ∧ qRgb 0 0 0 = 4278190080 :=
  ⟨calculateAvgColor_empty_black 7 (patternBuffer 1024 30 20 10 0) .BufferFormatRgba
      (by decide) 64 ⟨0, 0, 5, 0⟩ (by decide) (by decide),
    calculateAvgColor_empty_black 7 (patternBuffer 1024 30 20 10 0) .BufferFormatArgb
      (by decide) 64 ⟨0, 0, 0, 16⟩ (by decide) (by decide)⟩

/-! ## The sparse walk in general -/

theorem Buffer.read_get (buffer : Buffer) (index : Int) (h0 : 0 ≤ (buffer.off : Int) + index)
    (h1 : (buffer.off : Int) + index < buffer.size) :
    buffer.read index = .ok (buffer.get index) := by
  unfold Buffer.read Buffer.get
  rw [if_pos ⟨h0, h1⟩]

theorem Buffer.get_le (buffer : Buffer) (index : Int) : buffer.get index ≤ 255 := by
  unfold Buffer.get
  have := Fin.isLt (buffer.byte ((buffer.off : Int) + index).toNat)
  omega

theorem sum_le_of_le (f : Nat → Nat) (c n : Nat) (h : ∀ j, f j ≤ c) :
    ∑ j in Finset.range n, f j ≤ c * n := by
  induction n with
  | zero => simp
  | succ n ih =>
    rw [Finset.sum_range_succ]
    have := h n
    rw [Nat.mul_succ]
    omega

/-- One scanline of the sparse walk on a rectangle of at least 16 by 16 whose bytes lie
inside the buffer and at most `2^31` bytes after the buffer pointer. -/
theorem sparseColumns_row_eq (buffer : Buffer) (pitch : Nat) (rect : QRect)
    (hw : 16 ≤ rect.width) (hx : 0 ≤ rect.x) (hy : 0 ≤ rect.y)
    (hrow : 4 * (rect.x + rect.width) ≤ pitch)
    (hsize : (buffer.off : Int) + pitch * (rect.y + rect.height) ≤ buffer.size + 1)
    (hint : pitch * (rect.y + rect.height) ≤ 2147483648)
    (fuel : Nat) (hfuel : 32 ≤ fuel) (cy : Int) (hcy0 : 0 ≤ cy) (hcy : cy < rect.height)
    (b : Acc) (q0 : b.ch0 + 255 * sparseSteps rect.width < 4294967296)
    (q1 : b.ch1 + 255 * sparseSteps rect.width < 4294967296)
    (q2 : b.ch2 + 255 * sparseSteps rect.width < 4294967296) (q3 : 0 ≤ b.count)
    (q4 : b.count + sparseSteps rect.width < 2147483648) :
    sparseColumns buffer rect fuel 0 (baseIndexOfLine cy pitch rect) b
      = .ok { ch0 := b.ch0 + ∑ j in Finset.range (sparseSteps rect.width),
                buffer.get (pitch * (rect.y + cy) + 4 * (rect.x + j * (rect.width / 16)))
              ch1 := b.ch1 + ∑ j in Finset.range (sparseSteps rect.width),
                buffer.get (pitch * (rect.y + cy) + 4 * (rect.x + j * (rect.width / 16)) + 1)
              ch2 := b.ch2 + ∑ j in Finset.range (sparseSteps rect.width),
                buffer.get (pitch * (rect.y + cy) + 4 * (rect.x + j * (rect.width / 16)) + 2)
              count := b.count + sparseSteps rect.width } := by
  obtain ⟨hp0, hp1, hyh⟩ := row_bounds pitch rect cy hw hx hy hrow hint hcy0 hcy
  have hbase := baseIndexOfLine_eq cy pitch rect (by omega) hx (by omega) hyh
  have hsx : rect.width.tdiv columnsRequired = rect.width / 16 :=
    tdiv_sixteen (le_trans (by decide) hw)
  have t1 : 1 ≤ rect.width / 16 := by clear * - hw; omega
  have t2 : rect.width / 16 < 268435456 := by clear * - hw hx hrow hp0 hp1; omega
  have t3 : rect.width < 1073741824 := by clear * - hw hx hrow hp0 hp1; omega
  have hend : (pitch : Int) * (rect.y + cy) + pitch ≤ pitch * (rect.y + rect.height) := by
    have : (pitch : Int) * (rect.y + cy + 1) ≤ pitch * (rect.y + rect.height) :=
      mul_le_mul_of_nonneg_left (by omega) (by omega)
    have e : (pitch : Int) * (rect.y + cy + 1) = pitch * (rect.y + cy) + pitch := by ring
    rw [e] at this; exact this
  obtain ⟨wc16, wc31, wcge, wclt⟩ := sparseSteps_spec rect.width hw
  have t4 : sparseSteps rect.width < fuel := by clear * - wc31 hfuel; omega
  exact sparseColumns_run buffer rect (rect.width / 16) hsx t1 t2 t3
    (sparseSteps rect.width) fuel 0 (baseIndexOfLine cy pitch rect) b
    (fun j => buffer.get (pitch * (rect.y + cy) + 4 * (rect.x + j * (rect.width / 16))))
    (fun j => buffer.get (pitch * (rect.y + cy) + 4 * (rect.x + j * (rect.width / 16)) + 1))
    (fun j => buffer.get (pitch * (rect.y + cy) + 4 * (rect.x + j * (rect.width / 16)) + 2))
    t4 (le_refl _)
    (by simpa using wcge) (by intro j hj; simpa using wclt j hj)
    (by
      intro j hj
      have hcx := wclt j hj
      have hcx0 : (0 : Int) ≤ j * (rect.width / 16) :=
        mul_nonneg (Int.ofNat_nonneg j) (le_trans (by decide) t1)
      have e : baseIndexOfLine cy pitch rect + 4 * (rect.width / 16) * j
          = pitch * (rect.y + cy) + 4 * (rect.x + j * (rect.width / 16)) := by
        rw [hbase]; ring
      rw [e]
      have hoff : (0 : Int) ≤ buffer.off := Int.ofNat_nonneg _
      refine ⟨?_, ?_, ?_, ?_, ?_⟩
      · clear * - hp0 hx hcx0
        omega
      · clear * - hp1 hrow hcx
        omega
      · exact Buffer.read_get _ _ (by clear * - hp0 hx hcx0 hoff; omega)
          (by clear * - hend hsize hrow hcx; omega)
      · exact Buffer.read_get _ _ (by clear * - hp0 hx hcx0 hoff; omega)
          (by clear * - hend hsize hrow hcx; omega)
      · exact Buffer.read_get _ _ (by clear * - hp0 hx hcx0 hoff; omega)
          (by clear * - hend hsize hrow hcx; omega))
    q0 q1 q2 q3 q4

theorem sparseGridSum_le (buffer : Buffer) (pitch : Nat) (rect : QRect) (k : Int) :
    sparseGridSum buffer pitch rect k
      ≤ 255 * (sparseSteps rect.width * sparseSteps rect.height) := by
  unfold sparseGridSum
  have h1 := sum_le_of_le (fun i => ∑ j in Finset.range (sparseSteps rect.width),
      buffer.get (pitch * (rect.y + i * (rect.height / 16))
        + 4 * (rect.x + j * (rect.width / 16)) + k))
    (255 * sparseSteps rect.width) (sparseSteps rect.height)
    (fun i => sum_le_of_le _ 255 _ (fun j => Buffer.get_le _ _))
  rw [← Nat.mul_assoc]
  exact h1

theorem accumulateBuffer_sparse_eq (buffer : Buffer) (pitch : Nat) (rect : QRect)
    (hw : 16 ≤ rect.width) (hh : 16 ≤ rect.height) (hx : 0 ≤ rect.x) (hy : 0 ≤ rect.y)
    (hrow : 4 * (rect.x + rect.width) ≤ pitch)
    (hsize : (buffer.off : Int) + pitch * (rect.y + rect.height) ≤ buffer.size + 1)
    (hint : pitch * (rect.y + rect.height) ≤ 2147483648)
    (fuel : Nat) (hfuel : 32 ≤ fuel) :
    accumulateBuffer fuel buffer pitch rect true =
      .ok (((sparseSteps rect.height * sparseSteps rect.width : Nat) : Int),
        ((sparseGridSum buffer pitch rect 0 : Nat) : Int),
        ((sparseGridSum buffer pitch rect 1 : Nat) : Int),
        ((sparseGridSum buffer pitch rect 2 : Nat) : Int)) := by
  obtain ⟨wc16, wc31, -, -⟩ := sparseSteps_spec rect.width hw
  obtain ⟨hc16, hc31, hcge, hclt⟩ := sparseSteps_spec rect.height hh
  have hpitch2 : (64 : Int) ≤ pitch := by clear * - hw hx hrow; omega
  have hyh : rect.height < 1073741824 := by
    by_contra hcon
    have : (pitch : Int) * 1073741824 ≤ pitch * (rect.y + rect.height) :=
      mul_le_mul_of_nonneg_left (by clear * - hcon hy; omega) (by omega)
    clear * - this hint hpitch2
    omega
  have hsy : rect.height.tdiv rowsRequired = rect.height / 16 :=
    tdiv_sixteen (le_trans (by decide) hh)
  have t1 : 1 ≤ rect.height / 16 := by clear * - hh; omega
  have t2 : rect.height / 16 < 268435456 := by clear * - hh hyh; omega
  have hcnt : sparseSteps rect.height * sparseSteps rect.width ≤ 961 :=
    Nat.mul_le_mul hc31 wc31
  have hcnt2 : sparseSteps rect.width * sparseSteps rect.height ≤ 961 :=
    Nat.mul_le_mul wc31 hc31
  have hrows := sparseRows_run buffer pitch rect fuel (rect.height / 16) hsy t1 t2 hyh
    (sparseSteps rect.width) (sparseSteps rect.height) fuel 0
    { ch0 := 0, ch1 := 0, ch2 := 0, count := 0 }
    (fun i => ∑ j in Finset.range (sparseSteps rect.width),
      buffer.get (pitch * (rect.y + (0 + i * (rect.height / 16)))
        + 4 * (rect.x + j * (rect.width / 16))))
    (fun i => ∑ j in Finset.range (sparseSteps rect.width),
      buffer.get (pitch * (rect.y + (0 + i * (rect.height / 16)))
        + 4 * (rect.x + j * (rect.width / 16)) + 1))
    (fun i => ∑ j in Finset.range (sparseSteps rect.width),
      buffer.get (pitch * (rect.y + (0 + i * (rect.height / 16)))
        + 4 * (rect.x + j * (rect.width / 16)) + 2))
    (by clear * - hc31 hfuel; omega) (le_refl _)
    (by simpa using hcge) (by intro i hi; simpa using hclt i hi)
    (by
      intro i hi
      refine ⟨sum_le_of_le _ 255 _ (fun j => Buffer.get_le _ _),
        sum_le_of_le _ 255 _ (fun j => Buffer.get_le _ _),
        sum_le_of_le _ 255 _ (fun j => Buffer.get_le _ _), ?_⟩
      intro b q0 q1 q2 q3 q4
      have hi0 : (0 : Int) ≤ i * (rect.height / 16) :=
        mul_nonneg (Int.ofNat_nonneg i) (le_trans (by decide) t1)
      have hi1 := hclt i hi
      exact sparseColumns_row_eq buffer pitch rect hw hx hy hrow hsize hint fuel hfuel
        (0 + i * (rect.height / 16)) (by clear * - hi0; omega) (by clear * - hi1; omega)
        b q0 q1 q2 q3 q4)
    (by simp only; clear * - hcnt; omega) (by simp only; clear * - hcnt; omega)
    (by simp only; clear * - hcnt; omega) (by simp only; omega)
    (by
      simp only
      have : ((sparseSteps rect.height * sparseSteps rect.width : Nat) : Int) ≤ 961 := by
        exact_mod_cast hcnt
      rw [Nat.cast_mul] at this
      clear * - this
      omega)
  have g0 := sparseGridSum_le buffer pitch rect 0
  have g1 := sparseGridSum_le buffer pitch rect 1
  have g2 := sparseGridSum_le buffer pitch rect 2
  unfold accumulateBuffer
  simp only [if_true, hrows, bind, Except.bind, pure, Except.pure, zero_add]
  have e0 : (∑ i in Finset.range (sparseSteps rect.height),
      ∑ j in Finset.range (sparseSteps rect.width),
        buffer.get (pitch * (rect.y + i * (rect.height / 16))
          + 4 * (rect.x + j * (rect.width / 16)))) = sparseGridSum buffer pitch rect 0 := by
    simp only [sparseGridSum, add_zero]
  rw [e0]
  change Except.ok (_, toInt32 (sparseGridSum buffer pitch rect 0 : Nat),
    toInt32 (sparseGridSum buffer pitch rect 1 : Nat),
    toInt32 (sparseGridSum buffer pitch rect 2 : Nat)) = _
  rw [toInt32_of_range (by omega) (by clear * - g0 hcnt2; omega),
    toInt32_of_range (by omega) (by clear * - g1 hcnt2; omega),
    toInt32_of_range (by omega) (by clear * - g2 hcnt2; omega)]
  simp only [Nat.cast_mul]

/-! ## The exhaustive walk -/

theorem sum_range_four (f : Nat → Nat) (m : Nat) :
    ∑ p in Finset.range (4 * (m + 1)), f p
      = f 0 + f 1 + f 2 + f 3 + ∑ p in Finset.range (4 * m), f (p + 4) := by
  have e : 4 * (m + 1) = 4 * m + 1 + 1 + 1 + 1 := by ring
  rw [e, Finset.sum_range_succ', Finset.sum_range_succ', Finset.sum_range_succ',
    Finset.sum_range_succ']
  simp only [Nat.add_assoc, Nat.reduceAdd, zero_add]
  omega

theorem denseColumns_run (buffer : Buffer) (rect : QRect) (hw : rect.width < 1073741824) :
    ∀ (m fuel : Nat) (currentX index : Int) (a : Acc) (s0 s1 s2 : Nat → Nat),
      m < fuel → 0 ≤ currentX →
      rect.width ≤ currentX + 4 * m →
      (∀ j : Nat, j < m → currentX + 4 * j < rect.width) →
      (∀ p : Nat, p < 4 * m → 0 ≤ index + 4 * p ∧ index + 4 * p + 2 < 2147483648
        ∧ buffer.read (index + 4 * p) = .ok (s0 p)
        ∧ buffer.read (index + 4 * p + 1) = .ok (s1 p)
        ∧ buffer.read (index + 4 * p + 2) = .ok (s2 p)) →
      a.ch0 < 4294967296 → a.ch1 < 4294967296 → a.ch2 < 4294967296 →
      0 ≤ a.count → a.count + 4 * m < 2147483648 →
      denseColumns buffer rect fuel currentX index a =
        .ok { ch0 := (a.ch0 + ∑ p in Finset.range (4 * m), s0 p) % 4294967296
              ch1 := (a.ch1 + ∑ p in Finset.range (4 * m), s1 p) % 4294967296
              ch2 := (a.ch2 + ∑ p in Finset.range (4 * m), s2 p) % 4294967296
              count := a.count + 4 * m } := by
  intro m
  induction m with
  | zero =>
    intro fuel currentX index a s0 s1 s2 hf _ hge _ _ h0 h1 h2 _ _
    obtain ⟨n, rfl⟩ : ∃ n, fuel = n + 1 := ⟨fuel - 1, by omega⟩
    have hnot : ¬ currentX < rect.width := by simp at hge; omega
    simp [denseColumns, hnot, Nat.mod_eq_of_lt h0, Nat.mod_eq_of_lt h1, Nat.mod_eq_of_lt h2]
  | succ m ih =>
    intro fuel currentX index a s0 s1 s2 hf hx hge hlt hrd h0 h1 h2 hc hc2
    obtain ⟨n, rfl⟩ : ∃ n, fuel = n + 1 := ⟨fuel - 1, by omega⟩
    have hcur : currentX < rect.width := by simpa using hlt 0 (by omega)
    have p0 := hrd 0 (by omega)
    have p1 := hrd 1 (by omega)
    have p2 := hrd 2 (by omega)
    have p3 := hrd 3 (by omega)
    simp only [Nat.cast_zero, mul_zero, add_zero] at p0
    simp only [Nat.cast_one, mul_one] at p1
    have e2 : index + 4 * ((2 : Nat) : Int) = index + 8 := by norm_num
    have e3 : index + 4 * ((3 : Nat) : Int) = index + 12 := by norm_num
    rw [e2] at p2
    rw [e3] at p3
    obtain ⟨i0, i0', r00, r01, r02⟩ := p0
    obtain ⟨i1, i1', r10, r11, r12⟩ := p1
    obtain ⟨i2, i2', r20, r21, r22⟩ := p2
    obtain ⟨i3, i3', r30, r31, r32⟩ := p3
    have t : ∀ d : Int, 0 ≤ d → d ≤ 14 → toInt32 (index + d) = index + d := by
      intro d hd0 hd1
      exact toInt32_of_range (by omega) (by omega)
    have a41 : index + 4 + 1 = index + 5 := by ring
    have a42 : index + 4 + 2 = index + 6 := by ring
    have a81 : index + 8 + 1 = index + 9 := by ring
    have a82 : index + 8 + 2 = index + 10 := by ring
    have a121 : index + 12 + 1 = index + 13 := by ring
    have a122 : index + 12 + 2 = index + 14 := by ring
    rw [a41] at r11
    rw [a42] at r12
    rw [a81] at r21
    rw [a82] at r22
    rw [a121] at r31
    rw [a122] at r32
    have e4 : toInt32 (currentX + 4) = currentX + 4 :=
      toInt32_of_range (by omega) (by omega)
    have e5 : toInt32 (bytesPerPixel * 4) = 16 := by rfl
    simp only [denseColumns, if_pos hcur, t 1 (by decide) (by decide),
      t 2 (by decide) (by decide), t 4 (by decide) (by decide), t 5 (by decide) (by decide),
      t 6 (by decide) (by decide), t 8 (by decide) (by decide), t 9 (by decide) (by decide),
      t 10 (by decide) (by decide), t 12 (by decide) (by decide),
      t 13 (by decide) (by decide), t 14 (by decide) (by decide), e4, e5,
      r00, r01, r02, r10, r11, r12, r20, r21, r22, r30, r31, r32, bind, Except.bind]
    simp only [Nat.cast_add, Nat.cast_one] at hge hc2
    have hstep := ih n (currentX + 4) (toInt32 (index + 16))
      { ch0 := (a.ch0 + (s0 0 + s0 1 + s0 2 + s0 3)) % 4294967296
        ch1 := (a.ch1 + (s1 0 + s1 1 + s1 2 + s1 3)) % 4294967296
        ch2 := (a.ch2 + (s2 0 + s2 1 + s2 2 + s2 3)) % 4294967296
        count := toInt32 (a.count + 4) }
      (fun p => s0 (p + 4)) (fun p => s1 (p + 4)) (fun p => s2 (p + 4))
      (by omega) (by omega) (by omega)
      (by
        intro j hj
        have := hlt (j + 1) (by omega)
        simp only [Nat.cast_add, Nat.cast_one] at this
        omega)
      (by
        intro p hp
        have hnext := hrd 4 (by omega)
        have e16 : index + 4 * ((4 : Nat) : Int) = index + 16 := by norm_num
        rw [e16] at hnext
        rw [toInt32_of_range (by omega) (by omega)]
        have := hrd (p + 4) (by omega)
        simp only [Nat.cast_add, Nat.cast_ofNat] at this
        have e : index + 4 * ((p : Int) + 4) = index + 16 + 4 * p := by ring
        rw [e] at this
        exact this)
      (by simp only; omega) (by simp only; omega) (by simp only; omega)
      (by simp only; rw [toInt32_of_range (by omega) (by omega)]; omega)
      (by simp only; rw [toInt32_of_range (by omega) (by omega)]; omega)
    rw [hstep]
    simp only [sum_range_four, Nat.cast_add, Nat.cast_one]
    rw [toInt32_of_range (by omega) (by omega)]
    congr 1
    congr 1
    · omega
    · omega
    · omega
    · ring

theorem denseRows_run (buffer : Buffer) (pitch : Nat) (rect : QRect) (inner : Nat)
    (hh : rect.height < 1073741824) (c : Nat) :
    ∀ (mr fuel : Nat) (currentY : Int) (a : Acc) (t0 t1 t2 : Nat → Nat),
      mr < fuel → 0 ≤ currentY → currentY + mr = rect.height →
      (∀ i : Nat, i < mr →
        ∀ b : Acc, b.ch0 < 4294967296 → b.ch1 < 4294967296 → b.ch2 < 4294967296 →
          0 ≤ b.count → b.count + c < 2147483648 →
          denseColumns buffer rect inner 0 (baseIndexOfLine (currentY + i) pitch rect) b
            = .ok { ch0 := (b.ch0 + t0 i) % 4294967296
                    ch1 := (b.ch1 + t1 i) % 4294967296
                    ch2 := (b.ch2 + t2 i) % 4294967296
                    count := b.count + c }) →
      a.ch0 < 4294967296 → a.ch1 < 4294967296 → a.ch2 < 4294967296 → 0 ≤ a.count →
      a.count + mr * c < 2147483648 →
      denseRows buffer pitch rect inner fuel currentY a =
        .ok { ch0 := (a.ch0 + ∑ i in Finset.range mr, t0 i) % 4294967296
              ch1 := (a.ch1 + ∑ i in Finset.range mr, t1 i) % 4294967296
              ch2 := (a.ch2 + ∑ i in Finset.range mr, t2 i) % 4294967296
              count := a.count + mr * c } := by
  intro mr
  induction mr with
  | zero =>
    intro fuel currentY a t0 t1 t2 hf _ hge _ h0 h1 h2 _ _
    obtain ⟨n, rfl⟩ : ∃ n, fuel = n + 1 := ⟨fuel - 1, by omega⟩
    have hnot : ¬ currentY < rect.height := by simp at hge; omega
    simp [denseRows, hnot, Nat.mod_eq_of_lt h0, Nat.mod_eq_of_lt h1, Nat.mod_eq_of_lt h2]
  | succ mr ih =>
    intro fuel currentY a t0 t1 t2 hf hy hge hrow h0 h1 h2 hc hc2
    obtain ⟨n, rfl⟩ : ∃ n, fuel = n + 1 := ⟨fuel - 1, by omega⟩
    simp only [Nat.cast_add, Nat.cast_one] at hge
    have hcur : currentY < rect.height := by omega
    have hrun := hrow 0 (by omega)
    simp only [Nat.cast_zero, add_zero] at hrun
    have hc3 : a.count + (mr * c : Nat) + c < 2147483648 := by
      have : ((mr + 1 : Nat) : Int) * c = (mr * c : Nat) + c := by push_cast; ring
      rw [this] at hc2; omega
    have hmc : (0 : Int) ≤ (mr * c : Nat) := Int.ofNat_nonneg _
    have e3 : toInt32 (currentY + 1) = currentY + 1 :=
      toInt32_of_range (by omega) (by omega)
    have hfirst := hrun a h0 h1 h2 hc (by omega)
    simp only [denseRows, if_pos hcur, e3, hfirst, bind, Except.bind]
    have hstep := ih n (currentY + 1)
      { ch0 := (a.ch0 + t0 0) % 4294967296, ch1 := (a.ch1 + t1 0) % 4294967296
        ch2 := (a.ch2 + t2 0) % 4294967296, count := a.count + c }
      (fun i => t0 (i + 1)) (fun i => t1 (i + 1)) (fun i => t2 (i + 1))
      (by omega) (by omega) (by omega)
      (by
        intro i hi
        have := hrow (i + 1) (by omega)
        simp only [Nat.cast_add, Nat.cast_one] at this
        have e : currentY + ((i : Int) + 1) = currentY + 1 + i := by ring
        rw [e] at this
        exact this)
      (by simp only; omega) (by simp only; omega) (by simp only; omega)
      (by simp only; omega) (by simp only; push_cast at hc3 ⊢; omega)
    rw [hstep]
    simp only [Finset.sum_range_succ', Nat.cast_add, Nat.cast_one]
    congr 1
    congr 1
    · omega
    · omega
    · omega
    · ring

theorem row_bounds_pos (pitch : Nat) (rect : QRect) (cy : Int) (hp : 1 ≤ pitch)
    (hy : 0 ≤ rect.y) (hint : pitch * (rect.y + rect.height) ≤ 2147483648) (hcy0 : 0 ≤ cy)
    (hcy : cy < rect.height) :
    0 ≤ (pitch : Int) * (rect.y + cy)
      ∧ (pitch : Int) * (rect.y + cy) + pitch ≤ pitch * (rect.y + rect.height)
      ∧ rect.y + cy < 2147483648 := by
  have hprod : (pitch : Int) * (rect.y + cy + 1) ≤ pitch * (rect.y + rect.height) :=
    mul_le_mul_of_nonneg_left (by omega) (by omega)
  have hexp : (pitch : Int) * (rect.y + cy + 1) = pitch * (rect.y + cy) + pitch := by ring
  have hp0 : (0 : Int) ≤ pitch * (rect.y + cy) := mul_nonneg (by omega) (by omega)
  refine ⟨hp0, by omega, ?_⟩
  by_contra hcon
  have : (pitch : Int) * 2147483648 ≤ pitch * (rect.y + cy) :=
    mul_le_mul_of_nonneg_left (by omega) (by omega)
  omega

/-- One scanline of the exhaustive walk: `groups` steps of four pixels, all inside the
scanline, the buffer and the first `2^31` bytes after the buffer pointer. -/
theorem denseColumns_row_eq (buffer : Buffer) (pitch : Nat) (rect : QRect) (groups : Nat)
    (hw1 : 1 ≤ rect.width) (hg : rect.width ≤ 4 * groups)
    (hgmin : ∀ j : Nat, j < groups → 4 * (j : Int) < rect.width)
    (hx : 0 ≤ rect.x) (hy : 0 ≤ rect.y)
    (hrow : 4 * (rect.x + 4 * groups) ≤ pitch)
    (hsize : (buffer.off : Int) + pitch * (rect.y + rect.height) ≤ buffer.size + 1)
    (hint : pitch * (rect.y + rect.height) ≤ 2147483648)
    (fuel : Nat) (hfuel : groups < fuel) (cy : Int) (hcy0 : 0 ≤ cy) (hcy : cy < rect.height)
    (b : Acc) (q0 : b.ch0 < 4294967296) (q1 : b.ch1 < 4294967296) (q2 : b.ch2 < 4294967296)
    (q3 : 0 ≤ b.count) (q4 : b.count + (4 * groups : Nat) < 2147483648) :
    denseColumns buffer rect fuel 0 (baseIndexOfLine cy pitch rect) b
      = .ok { ch0 := (b.ch0 + ∑ p in Finset.range (4 * groups),
                buffer.get (pitch * (rect.y + cy) + 4 * (rect.x + p))) % 4294967296
              ch1 := (b.ch1 + ∑ p in Finset.range (4 * groups),
                buffer.get (pitch * (rect.y + cy) + 4 * (rect.x + p) + 1)) % 4294967296
              ch2 := (b.ch2 + ∑ p in Finset.range (4 * groups),
                buffer.get (pitch * (rect.y + cy) + 4 * (rect.x + p) + 2)) % 4294967296
              count := b.count + (4 * groups : Nat) } := by
  have hg1 : 1 ≤ groups := by clear * - hw1 hg; omega
  have hpitch : 1 ≤ pitch := by clear * - hg1 hx hrow; omega
  obtain ⟨hp0, hend, hyh⟩ := row_bounds_pos pitch rect cy hpitch hy hint hcy0 hcy
  have hbase := baseIndexOfLine_eq cy pitch rect (by clear * - hy hcy0; omega) hx
    (by clear * - hend hint hrow hg1; omega) hyh
  have t3 : rect.width < 1073741824 := by clear * - hg hx hrow hp0 hend hint; omega
  have hoff : (0 : Int) ≤ buffer.off := Int.ofNat_nonneg _
  have hrun := denseColumns_run buffer rect t3 groups fuel 0 (baseIndexOfLine cy pitch rect) b
    (fun p => buffer.get (pitch * (rect.y + cy) + 4 * (rect.x + p)))
    (fun p => buffer.get (pitch * (rect.y + cy) + 4 * (rect.x + p) + 1))
    (fun p => buffer.get (pitch * (rect.y + cy) + 4 * (rect.x + p) + 2))
    hfuel (le_refl _) (by simpa using hg) (by intro j hj; simpa using hgmin j hj)
    (by
      intro p hp
      have e : baseIndexOfLine cy pitch rect + 4 * (p : Int)
          = pitch * (rect.y + cy) + 4 * (rect.x + p) := by
        rw [hbase]; ring
      rw [e]
      have hp' : (p : Int) < 4 * groups := by exact_mod_cast hp
      have hp0' : (0 : Int) ≤ p := Int.ofNat_nonneg _
      refine ⟨?_, ?_, ?_, ?_, ?_⟩
      · clear * - hp0 hx hp0'
        omega
      · clear * - hend hint hrow hp'
        omega
      · exact Buffer.read_get _ _ (by clear * - hp0 hx hp0' hoff; omega)
          (by clear * - hend hsize hrow hp'; omega)
      · exact Buffer.read_get _ _ (by clear * - hp0 hx hp0' hoff; omega)
          (by clear * - hend hsize hrow hp'; omega)
      · exact Buffer.read_get _ _ (by clear * - hp0 hx hp0' hoff; omega)
          (by clear * - hend hsize hrow hp'; omega))
    q0 q1 q2 q3 (by push_cast at q4; exact q4)
  rw [hrun]
  simp only [Nat.cast_mul, Nat.cast_ofNat]

theorem accumulateBuffer_dense_eq (buffer : Buffer) (pitch : Nat) (rect : QRect)
    (groups : Nat) (hw1 : 1 ≤ rect.width) (hg : rect.width ≤ 4 * groups)
    (hgmin : ∀ j : Nat, j < groups → 4 * (j : Int) < rect.width)
    (hh : 0 ≤ rect.height) (hx : 0 ≤ rect.x) (hy : 0 ≤ rect.y)
    (hrow : 4 * (rect.x + 4 * groups) ≤ pitch)
    (hsize : (buffer.off : Int) + pitch * (rect.y + rect.height) ≤ buffer.size + 1)
    (hint : pitch * (rect.y + rect.height) ≤ 2147483648)
    (fuel : Nat) (hfuel : groups < fuel) (hfuel2 : rect.height < fuel) :
    accumulateBuffer fuel buffer pitch rect false =
      .ok (((rect.height.toNat * (4 * groups) : Nat) : Int),
        toInt32 ((denseSum buffer pitch rect (4 * groups) 0 % 4294967296 : Nat) : Int),
        toInt32 ((denseSum buffer pitch rect (4 * groups) 1 % 4294967296 : Nat) : Int),
        toInt32 ((denseSum buffer pitch rect (4 * groups) 2 % 4294967296 : Nat) : Int)) := by
  have hg1 : 1 ≤ groups := by clear * - hw1 hg; omega
  have hpitch : (16 : Int) * groups ≤ pitch := by clear * - hx hrow; omega
  have hH : ((rect.height.toNat : Nat) : Int) = rect.height := Int.toNat_of_nonneg hh
  have hmul1 : (16 : Int) * groups * rect.height ≤ pitch * rect.height :=
    mul_le_mul_of_nonneg_right hpitch hh
  have hmul2 : (pitch : Int) * rect.height ≤ pitch * (rect.y + rect.height) :=
    mul_le_mul_of_nonneg_left (by clear * - hy; omega) (Int.ofNat_nonneg _)
  have hcnt : ((rect.height.toNat : Nat) : Int) * ((4 * groups : Nat) : Int) ≤ 536870912 := by
    rw [hH]
    have e : (16 : Int) * groups * rect.height = 4 * (rect.height * ((4 * groups : Nat) : Int)) := by
      push_cast; ring
    rw [e] at hmul1
    clear * - hmul1 hmul2 hint
    omega
  have hyh : rect.height < 1073741824 := by
    have h1 : rect.height * 1 ≤ rect.height * ((4 * groups : Nat) : Int) :=
      mul_le_mul_of_nonneg_left (by exact_mod_cast (by omega : 1 ≤ 4 * groups)) hh
    rw [← hH] at h1
    clear * - h1 hcnt hH
    omega
  have hrows := denseRows_run buffer pitch rect fuel hyh (4 * groups) rect.height.toNat fuel 0
    { ch0 := 0, ch1 := 0, ch2 := 0, count := 0 }
    (fun i => ∑ p in Finset.range (4 * groups),
      buffer.get (pitch * (rect.y + (0 + i)) + 4 * (rect.x + p)))
    (fun i => ∑ p in Finset.range (4 * groups),
      buffer.get (pitch * (rect.y + (0 + i)) + 4 * (rect.x + p) + 1))
    (fun i => ∑ p in Finset.range (4 * groups),
      buffer.get (pitch * (rect.y + (0 + i)) + 4 * (rect.x + p) + 2))
    (by clear * - hfuel2 hH; omega) (le_refl _) (by clear * - hH; omega)
    (by
      intro i hi b q0 q1 q2 q3 q4
      have hi' : (i : Int) < rect.height := by rw [← hH]; exact_mod_cast hi
      exact denseColumns_row_eq buffer pitch rect groups hw1 hg hgmin hx hy hrow hsize hint
        fuel hfuel (0 + i) (by clear * - hi'; omega) (by clear * - hi'; omega) b q0 q1 q2 q3 q4)
    (by decide) (by decide) (by decide) (le_refl _)
    (by simp only; clear * - hcnt; omega)
  unfold accumulateBuffer
  simp only [Bool.false_eq_true, if_false, hrows, bind, Except.bind, pure, Except.pure,
    zero_add]
  simp only [denseSum, add_zero, Nat.cast_mul]

/-! ## The sparse grid -/

theorem sparseSteps_iff (n : Int) (hn : 16 ≤ n) (i : Nat) :
    i < sparseSteps n ↔ (i : Int) * (n / 16) < n := by
  obtain ⟨-, -, hge, hlt⟩ := sparseSteps_spec n hn
  constructor
  · exact hlt i
  · intro h
    by_contra hcon
    have hle : ((sparseSteps n : Nat) : Int) ≤ i := by exact_mod_cast Nat.le_of_not_lt hcon
    have hs : (0 : Int) ≤ n / 16 := by omega
    have := mul_le_mul_of_nonneg_right hle hs
    omega

/-- On the rectangle at `(0, 2^14)` of the buffer of `2^31 + 2^21` bytes with a pitch of
`2^17` bytes the first read of either walk is at the wrapped index `-2^31`. -/
theorem accumulateBuffer_beyond_int (fuel : Nat) (optimized : Bool) (b0 b1 b2 b3 : Fin 256)
    (v : Int × Int × Int × Int) :
    accumulateBuffer fuel (patternBuffer 2149580800 b0 b1 b2 b3) 131072
      ⟨0, 16384, 16, 16⟩ optimized ≠ .ok v := by
  intro h
  have hbase : baseIndexOfLine 0 131072 ⟨0, 16384, 16, 16⟩ = -2147483648 := by rfl
  cases fuel with
  | zero =>
    cases optimized <;>
      simp [accumulateBuffer, sparseRows, denseRows, bind, Except.bind] at h
  | succ n =>
    cases optimized <;>
      simp [accumulateBuffer, sparseRows, sparseColumns, denseRows, denseColumns, hbase,
        Buffer.read, patternBuffer, bind, Except.bind] at h

/-- C11 fails as stated: the 16 by 16 rectangle at `(0, 2^14)` lies inside the buffer of
`2^31 + 2^21` bytes with a pitch of `2^17` bytes, but the sparse accumulation returns no
count and no sums there, because the `int` index of its first read has wrapped to `-2^31`. -/
theorem accumulateBuffer_sparse_grid_fails_beyond_int :
    rectInside (patternBuffer 2149580800 30 20 10 255) 131072 ⟨0, 16384, 16, 16⟩
      ∧ ¬ ∃ (fuel : Nat) (v : Int × Int × Int × Int),
          accumulateBuffer fuel (patternBuffer 2149580800 30 20 10 255) 131072
            ⟨0, 16384, 16, 16⟩ true = .ok v := by
  refine ⟨by simp only [rectInside, patternBuffer]; decide, ?_⟩
  rintro ⟨fuel, v, h⟩
  exact accumulateBuffer_beyond_int fuel true 30 20 10 255 v h

/-- C11, amended: for every buffer, pitch and rectangle with width and height at least 16
that lies inside the buffer with its scanlines ending at most `2^31` bytes after the buffer
pointer, the sparse accumulation (loops allowed at least 32 iterations) uses the steps
`sx = width / 16` and `sy = height / 16`, returns as count the number of grid points
`(i * sx, j * sy)` with `i * sx < width` and `j * sy < height` (these are the
`i < sparseSteps width`, `j < sparseSteps height`), and as channel sum `k` the sum over
exactly those grid points of the byte at index
`pitch * (rect.y + j * sy) + 4 * (rect.x + i * sx) + k`, which is the running index
`base + currentX * 4` plus `k`. -/
theorem accumulateBuffer_sparse_grid (fuel : Nat) (hfuel : 32 ≤ fuel) (buffer : Buffer)
    (pitch : Nat) (rect : QRect) (hw : 16 ≤ rect.width) (hh : 16 ≤ rect.height)
    (hin : rectInside buffer pitch rect)
    (hint : pitch * (rect.y + rect.height) ≤ 2147483648) :
    rect.width.tdiv columnsRequired = rect.width / 16
      ∧ rect.height.tdiv rowsRequired = rect.height / 16
      ∧ (∀ i : Nat, i < sparseSteps rect.width ↔ (i : Int) * (rect.width / 16) < rect.width)
      ∧ (∀ j : Nat,
          j < sparseSteps rect.height ↔ (j : Int) * (rect.height / 16) < rect.height)
      ∧ (∀ cy : Int, 0 ≤ cy → cy < rect.height →
          baseIndexOfLine cy pitch rect = pitch * (rect.y + cy) + 4 * rect.x)
      ∧ accumulateBuffer fuel buffer pitch rect true =
        .ok (((sparseSteps rect.height * sparseSteps rect.width : Nat) : Int),
          ((sparseGridSum buffer pitch rect 0 : Nat) : Int),
          ((sparseGridSum buffer pitch rect 1 : Nat) : Int),
          ((sparseGridSum buffer pitch rect 2 : Nat) : Int)) := by
  obtain ⟨hx, hy, hrow, hsize⟩ := hin
  refine ⟨tdiv_sixteen (le_trans (by decide) hw), tdiv_sixteen (le_trans (by decide) hh),
    sparseSteps_iff _ hw, sparseSteps_iff _ hh, ?_, ?_⟩
  · intro cy hcy0 hcy
    obtain ⟨hp0, hp1, hyh⟩ := row_bounds pitch rect cy hw hx hy hrow hint hcy0 hcy
    exact baseIndexOfLine_eq cy pitch rect (by omega) hx (by omega) hyh
  · exact accumulateBuffer_sparse_eq buffer pitch rect hw hh hx hy hrow
      (by clear * - hsize; omega) hint fuel hfuel

theorem accumulateBuffer_sparse_grid_witness :
    accumulateBuffer 32 (patternBuffer 1024 30 20 10 77) 64 ⟨0, 0, 16, 16⟩ true =
      .ok (((sparseSteps 16 * sparseSteps 16 : Nat) : Int),
        ((sparseGridSum (patternBuffer 1024 30 20 10 77) 64 ⟨0, 0, 16, 16⟩ 0 : Nat) : Int),
        ((sparseGridSum (patternBuffer 1024 30 20 10 77) 64 ⟨0, 0, 16, 16⟩ 1 : Nat) : Int),
        ((sparseGridSum (patternBuffer 1024 30 20 10 77) 64 ⟨0, 0, 16, 16⟩ 2 : Nat) : Int)) :=
  (accumulateBuffer_sparse_grid 32 (by decide) (patternBuffer 1024 30 20 10 77) 64
    ⟨0, 0, 16, 16⟩ (by decide) (by decide)
    (by simp only [rectInside, patternBuffer]; decide) (by decide)).2.2.2.2.2

theorem sparseSteps_eq_sixteen (n : Int) (hn : 16 ≤ n) : sparseSteps n = 16 ↔ n % 16 = 0 := by
  obtain ⟨h16, -, -, -⟩ := sparseSteps_spec n hn
  have h := sparseSteps_iff n hn 16
  simp only [Nat.cast_ofNat] at h
  constructor
  · intro he
    have : ¬ (16 : Int) * (n / 16) < n := by
      intro hlt
      have := h.2 hlt
      omega
    omega
  · intro hm
    have : ¬ 16 < sparseSteps n := by
      intro hlt
      have := h.1 hlt
      omega
    omega

/-- C14 fails as stated: on the rectangle of width 32 and height 17 the sparse walk has the
row step `17 / 16 = 1`, visits 17 rows of 16 columns each and returns the sample count 272,
not 256. -/
theorem accumulateBuffer_sparse_count_not_256 :
    accumulateBuffer 32 (patternBuffer 2176 30 20 10 0) 128 ⟨0, 0, 32, 17⟩ true =
        .ok (272,
          ((sparseGridSum (patternBuffer 2176 30 20 10 0) 128 ⟨0, 0, 32, 17⟩ 0 : Nat) : Int),
          ((sparseGridSum (patternBuffer 2176 30 20 10 0) 128 ⟨0, 0, 32, 17⟩ 1 : Nat) : Int),
          ((sparseGridSum (patternBuffer 2176 30 20 10 0) 128 ⟨0, 0, 32, 17⟩ 2 : Nat) : Int))
      ∧ (272 : Int) ≠ 256 := by
  refine ⟨?_, by decide⟩
  have h := accumulateBuffer_sparse_eq (patternBuffer 2176 30 20 10 0) 128 ⟨0, 0, 32, 17⟩
    (by decide) (by decide) (by decide) (by decide) (by decide)
    (by simp only [patternBuffer]; decide) (by decide) 32 (by decide)
  rw [h]
  rfl

/-- C14, amended: for every rectangle with width and height at least 16 that lies inside the
buffer with its scanlines ending at most `2^31` bytes after the buffer pointer, the sparse
walk (loops allowed at least 32 iterations) visits `sparseSteps height` rows and
`sparseSteps width` columns, the multiples of `height / 16` below the height and of
`width / 16` below the width; each number is between 16 and 31 and is 16 exactly when the
dimension is a multiple of 16; the returned sample count is their product, which is 256
exactly when both width and height are multiples of 16. -/
theorem accumulateBuffer_sparse_count (fuel : Nat) (hfuel : 32 ≤ fuel) (buffer : Buffer)
    (pitch : Nat) (rect : QRect) (hw : 16 ≤ rect.width) (hh : 16 ≤ rect.height)
    (hin : rectInside buffer pitch rect)
    (hint : pitch * (rect.y + rect.height) ≤ 2147483648) :
    accumulateBuffer fuel buffer pitch rect true =
        .ok (((sparseSteps rect.height * sparseSteps rect.width : Nat) : Int),
          ((sparseGridSum buffer pitch rect 0 : Nat) : Int),
          ((sparseGridSum buffer pitch rect 1 : Nat) : Int),
          ((sparseGridSum buffer pitch rect 2 : Nat) : Int))
      ∧ (∀ i : Nat, i < sparseSteps rect.width ↔ (i : Int) * (rect.width / 16) < rect.width)
      ∧ (∀ j : Nat,
          j < sparseSteps rect.height ↔ (j : Int) * (rect.height / 16) < rect.height)
      ∧ (16 ≤ sparseSteps rect.width ∧ sparseSteps rect.width ≤ 31)
      ∧ (16 ≤ sparseSteps rect.height ∧ sparseSteps rect.height ≤ 31)
      ∧ (sparseSteps rect.width = 16 ↔ rect.width % 16 = 0)
      ∧ (sparseSteps rect.height = 16 ↔ rect.height % 16 = 0)
      ∧ (sparseSteps rect.height * sparseSteps rect.width = 256
          ↔ rect.width % 16 = 0 ∧ rect.height % 16 = 0) := by
  obtain ⟨hx, hy, hrow, hsize⟩ := hin
  obtain ⟨wc16, wc31, -, -⟩ := sparseSteps_spec rect.width hw
  obtain ⟨hc16, hc31, -, -⟩ := sparseSteps_spec rect.height hh
  have ew := sparseSteps_eq_sixteen rect.width hw
  have eh := sparseSteps_eq_sixteen rect.height hh
  refine ⟨accumulateBuffer_sparse_eq buffer pitch rect hw hh hx hy hrow
      (by clear * - hsize; omega) hint fuel hfuel,
    sparseSteps_iff _ hw, sparseSteps_iff _ hh, ⟨wc16, wc31⟩, ⟨hc16, hc31⟩, ew, eh, ?_⟩
  rw [← ew, ← eh]
  constructor
  · intro hprod
    have h1 : 16 * sparseSteps rect.width ≤ sparseSteps rect.height * sparseSteps rect.width :=
      Nat.mul_le_mul_right _ hc16
    have h2 : sparseSteps rect.height * 16 ≤ sparseSteps rect.height * sparseSteps rect.width :=
      Nat.mul_le_mul_left _ wc16
    constructor <;> omega
  · rintro ⟨h1, h2⟩
    rw [h1, h2]

theorem accumulateBuffer_sparse_count_witness :
    accumulateBuffer 32 (patternBuffer 2048 30 20 10 0) 128 ⟨0, 0, 32, 16⟩ true =
      .ok (((sparseSteps 16 * sparseSteps 32 : Nat) : Int),
        ((sparseGridSum (patternBuffer 2048 30 20 10 0) 128 ⟨0, 0, 32, 16⟩ 0 : Nat) : Int),
        ((sparseGridSum (patternBuffer 2048 30 20 10 0) 128 ⟨0, 0, 32, 16⟩ 1 : Nat) : Int),
        ((sparseGridSum (patternBuffer 2048 30 20 10 0) 128 ⟨0, 0, 32, 16⟩ 2 : Nat) : Int)) :=
  (accumulateBuffer_sparse_count 32 (by decide) (patternBuffer 2048 30 20 10 0) 128
    ⟨0, 0, 32, 16⟩ (by decide) (by decide)
    (by simp only [rectInside, patternBuffer]; decide) (by decide)).1

/-- C19 fails as stated: on the 16 by 16 rectangle at `(0, 2^14)` of the buffer of
`2^31 + 2^21` bytes with a pitch of `2^17` bytes the sparse accumulation ends in an
out-of-bounds read at the wrapped index `-2^31` and returns no sample count at all. -/
theorem accumulateBuffer_sparse_bounds_fails_beyond_int :
    rectInside (patternBuffer 2149580800 30 20 10 255) 131072 ⟨0, 16384, 16, 16⟩
      ∧ ¬ ∃ (fuel : Nat) (count s0 s1 s2 : Int),
          accumulateBuffer fuel (patternBuffer 2149580800 30 20 10 255) 131072
            ⟨0, 16384, 16, 16⟩ true = .ok (count, s0, s1, s2)
          ∧ 256 ≤ count ∧ count ≤ 961 := by
  refine ⟨by simp only [rectInside, patternBuffer]; decide, ?_⟩
  rintro ⟨fuel, count, s0, s1, s2, h, -, -⟩
  exact accumulateBuffer_beyond_int fuel true 30 20 10 255 _ h

/-- C19, amended: for every rectangle with width and height at least 16 that lies inside the
buffer with its scanlines ending at most `2^31` bytes after the buffer pointer, the sparse
accumulation terminates within 32 iterations of each loop with a sample count between 256
and 961 (between 16 and 31 samples per axis); each channel sum is at most `961 * 255`, so
the 32 bit accumulators never wrap; and the count is never 1, so that `count > 1` holds
exactly when `count ≠ 0`. -/
theorem accumulateBuffer_sparse_bounds (fuel : Nat) (hfuel : 32 ≤ fuel) (buffer : Buffer)
    (pitch : Nat) (rect : QRect) (hw : 16 ≤ rect.width) (hh : 16 ≤ rect.height)
    (hin : rectInside buffer pitch rect)
    (hint : pitch * (rect.y + rect.height) ≤ 2147483648) :
    ∃ count s0 s1 s2 : Int,
      accumulateBuffer fuel buffer pitch rect true = .ok (count, s0, s1, s2)
        ∧ count = ((sparseSteps rect.height * sparseSteps rect.width : Nat) : Int)
        ∧ (16 ≤ sparseSteps rect.width ∧ sparseSteps rect.width ≤ 31)
        ∧ (16 ≤ sparseSteps rect.height ∧ sparseSteps rect.height ≤ 31)
        ∧ 256 ≤ count ∧ count ≤ 961
        ∧ s0 = ((sparseGridSum buffer pitch rect 0 : Nat) : Int)
        ∧ s1 = ((sparseGridSum buffer pitch rect 1 : Nat) : Int)
        ∧ s2 = ((sparseGridSum buffer pitch rect 2 : Nat) : Int)
        ∧ (0 ≤ s0 ∧ s0 ≤ 961 * 255) ∧ (0 ≤ s1 ∧ s1 ≤ 961 * 255) ∧ (0 ≤ s2 ∧ s2 ≤ 961 * 255)
        ∧ count ≠ 1 ∧ (count > 1 ↔ count ≠ 0) := by
  obtain ⟨hx, hy, hrow, hsize⟩ := hin
  obtain ⟨wc16, wc31, -, -⟩ := sparseSteps_spec rect.width hw
  obtain ⟨hc16, hc31, -, -⟩ := sparseSteps_spec rect.height hh
  have hlo : 256 ≤ sparseSteps rect.height * sparseSteps rect.width :=
    Nat.mul_le_mul hc16 wc16
  have hhi : sparseSteps rect.height * sparseSteps rect.width ≤ 961 :=
    Nat.mul_le_mul hc31 wc31
  have hhi2 : sparseSteps rect.width * sparseSteps rect.height ≤ 961 :=
    Nat.mul_le_mul wc31 hc31
  have g0 := sparseGridSum_le buffer pitch rect 0
  have g1 := sparseGridSum_le buffer pitch rect 1
  have g2 := sparseGridSum_le buffer pitch rect 2
  have hloI : (256 : Int) ≤ ((sparseSteps rect.height * sparseSteps rect.width : Nat) : Int) := by
    exact_mod_cast hlo
  have hhiI : ((sparseSteps rect.height * sparseSteps rect.width : Nat) : Int) ≤ 961 := by
    exact_mod_cast hhi
  refine ⟨_, _, _, _, accumulateBuffer_sparse_eq buffer pitch rect hw hh hx hy hrow
      (by clear * - hsize; omega) hint fuel hfuel, rfl, ⟨wc16, wc31⟩, ⟨hc16, hc31⟩,
    hloI, hhiI, rfl, rfl, rfl, ⟨Int.ofNat_nonneg _, ?_⟩, ⟨Int.ofNat_nonneg _, ?_⟩,
    ⟨Int.ofNat_nonneg _, ?_⟩, ?_, ?_⟩
  · clear * - g0 hhi2; omega
  · clear * - g1 hhi2; omega
  · clear * - g2 hhi2; omega
  · clear * - hloI; omega
  · clear * - hloI; omega

theorem accumulateBuffer_sparse_bounds_witness :
    ∃ count s0 s1 s2 : Int,
        accumulateBuffer 32 (patternBuffer 2176 30 20 10 0) 128 ⟨0, 0, 32, 17⟩ true
          = .ok (count, s0, s1, s2)
        ∧ count = ((sparseSteps 17 * sparseSteps 32 : Nat) : Int)
        ∧ (16 ≤ sparseSteps 32 ∧ sparseSteps 32 ≤ 31)
        ∧ (16 ≤ sparseSteps 17 ∧ sparseSteps 17 ≤ 31)
        ∧ 256 ≤ count ∧ count ≤ 961
        ∧ s0 = ((sparseGridSum (patternBuffer 2176 30 20 10 0) 128 ⟨0, 0, 32, 17⟩ 0 : Nat)
            : Int)
        ∧ s1 = ((sparseGridSum (patternBuffer 2176 30 20 10 0) 128 ⟨0, 0, 32, 17⟩ 1 : Nat)
            : Int)
        ∧ s2 = ((sparseGridSum (patternBuffer 2176 30 20 10 0) 128 ⟨0, 0, 32, 17⟩ 2 : Nat)
            : Int)
        ∧ (0 ≤ s0 ∧ s0 ≤ 961 * 255) ∧ (0 ≤ s1 ∧ s1 ≤ 961 * 255) ∧ (0 ≤ s2 ∧ s2 ≤ 961 * 255)
        ∧ count ≠ 1 ∧ (count > 1 ↔ count ≠ 0) :=
  accumulateBuffer_sparse_bounds 32 (by decide) (patternBuffer 2176 30 20 10 0) 128
    ⟨0, 0, 32, 17⟩ (by decide) (by decide)
    (by simp only [rectInside, patternBuffer]; decide) (by decide)

/-! ## The exhaustive walk over a rectangle -/

theorem toUInt32_toInt32_of_lt (n : Nat) (h : n < 4294967296) :
    toUInt32 (toInt32 (n : Int)) = n := by
  unfold toUInt32 toInt32; omega

/-- C12 fails as stated: the 16 by 16 rectangle at `(0, 2^14)` lies inside the buffer of
`2^31 + 2^21` bytes with a pitch of `2^17` bytes and its width is a positive multiple of 4,
but the exhaustive accumulation returns no count there, because the `int` index of its first
read has wrapped to `-2^31`. -/
theorem accumulateBuffer_dense_fails_beyond_int :
    rectInside (patternBuffer 2149580800 30 20 10 255) 131072 ⟨0, 16384, 16, 16⟩
      ∧ ¬ ∃ (fuel : Nat) (v : Int × Int × Int × Int),
          accumulateBuffer fuel (patternBuffer 2149580800 30 20 10 255) 131072
            ⟨0, 16384, 16, 16⟩ false = .ok v := by
  refine ⟨by simp only [rectInside, patternBuffer]; decide, ?_⟩
  rintro ⟨fuel, v, h⟩
  exact accumulateBuffer_beyond_int fuel false 30 20 10 255 v h

/-- C12, amended: for every buffer, pitch and rectangle with width a positive multiple of 4
and height at least 0 that lies inside the buffer with its scanlines ending at most `2^31`
bytes after the buffer pointer, the exhaustive accumulation (given more loop iterations than
`width / 4` and than `height`) visits every pixel of the rectangle exactly once: the returned
count is `width * height`, and channel sum `k` is, modulo `2^32`, the sum over all
`0 ≤ y < height`, `0 ≤ x < width` of the byte at index
`pitch * (rect.y + y) + 4 * (rect.x + x) + k`. -/
theorem accumulateBuffer_dense_all_pixels (fuel : Nat) (buffer : Buffer) (pitch : Nat)
    (rect : QRect) (hw1 : 1 ≤ rect.width) (hw4 : rect.width % 4 = 0) (hh : 0 ≤ rect.height)
    (hin : rectInside buffer pitch rect)
    (hint : pitch * (rect.y + rect.height) ≤ 2147483648)
    (hfuel : rect.width / 4 < fuel) (hfuel2 : rect.height < fuel) :
    ∃ d0 d1 d2 : Int,
      accumulateBuffer fuel buffer pitch rect false
          = .ok (rect.width * rect.height, d0, d1, d2)
        ∧ toUInt32 d0 = denseSum buffer pitch rect rect.width.toNat 0 % 4294967296
        ∧ toUInt32 d1 = denseSum buffer pitch rect rect.width.toNat 1 % 4294967296
        ∧ toUInt32 d2 = denseSum buffer pitch rect rect.width.toNat 2 % 4294967296 := by
  obtain ⟨hx, hy, hrow, hsize⟩ := hin
  have hG : ((4 * (rect.width / 4).toNat : Nat) : Int) = rect.width := by
    push_cast
    rw [Int.toNat_of_nonneg (by omega)]
    omega
  have hG2 : 4 * (rect.width / 4).toNat = rect.width.toNat := by
    have : ((4 * (rect.width / 4).toNat : Nat) : Int) = (rect.width.toNat : Int) := by
      rw [hG, Int.toNat_of_nonneg (by omega)]
    exact_mod_cast this
  have hGc : (((rect.width / 4).toNat : Nat) : Int) = rect.width / 4 :=
    Int.toNat_of_nonneg (by omega)
  have h := accumulateBuffer_dense_eq buffer pitch rect (rect.width / 4).toNat hw1
    (by rw [hGc]; omega)
    (by intro j hj; have : (j : Int) < rect.width / 4 := by rw [← hGc]; exact_mod_cast hj
        omega)
    hh hx hy (by rw [hGc]; omega) (by clear * - hsize; omega) hint fuel
    (by have : ((rect.width / 4).toNat : Int) < fuel := by rw [hGc]; exact hfuel
        exact_mod_cast this)
    hfuel2
  rw [hG2] at h
  refine ⟨_, _, _, ?_, toUInt32_toInt32_of_lt _ (Nat.mod_lt _ (by decide)),
    toUInt32_toInt32_of_lt _ (Nat.mod_lt _ (by decide)),
    toUInt32_toInt32_of_lt _ (Nat.mod_lt _ (by decide))⟩
  rw [h]
  congr 2
  rw [Nat.cast_mul, Int.toNat_of_nonneg hh, Int.toNat_of_nonneg (by omega)]
  ring

theorem accumulateBuffer_dense_all_pixels_witness :
    ∃ d0 d1 d2 : Int,
      accumulateBuffer 17 (patternBuffer 1024 30 20 10 77) 64 ⟨0, 0, 16, 16⟩ false
          = .ok (16 * 16, d0, d1, d2)
        ∧ toUInt32 d0
          = denseSum (patternBuffer 1024 30 20 10 77) 64 ⟨0, 0, 16, 16⟩ (16 : Int).toNat 0
            % 4294967296
        ∧ toUInt32 d1
          = denseSum (patternBuffer 1024 30 20 10 77) 64 ⟨0, 0, 16, 16⟩ (16 : Int).toNat 1
            % 4294967296
        ∧ toUInt32 d2
          = denseSum (patternBuffer 1024 30 20 10 77) 64 ⟨0, 0, 16, 16⟩ (16 : Int).toNat 2
            % 4294967296 :=
  accumulateBuffer_dense_all_pixels 17 (patternBuffer 1024 30 20 10 77) 64 ⟨0, 0, 16, 16⟩
    (by decide) (by decide) (by decide) (by simp only [rectInside, patternBuffer]; decide)
    (by decide) (by decide) (by decide)

/-- C17 fails as stated: the rectangle of width 5 and height 1 fills a buffer of 20 bytes
(pitch 20), but the exhaustive walk handles the pixels in groups of four and reads pixel 5,
which starts at byte 20, outside the buffer: it ends in an out-of-bounds read and returns no
count. -/
theorem accumulateBuffer_dense_unaligned_reads_outside :
    rectInside (patternBuffer 20 30 20 10 0) 20 ⟨0, 0, 5, 1⟩
      ∧ ¬ ∃ (fuel : Nat) (v : Int × Int × Int × Int),
          accumulateBuffer fuel (patternBuffer 20 30 20 10 0) 20 ⟨0, 0, 5, 1⟩ false = .ok v := by
  refine ⟨by simp only [rectInside, patternBuffer]; decide, ?_⟩
  rintro ⟨fuel, v, h⟩
  rcases fuel with _ | _ | n
  · have e : accumulateBuffer 0 (patternBuffer 20 30 20 10 0) 20 ⟨0, 0, 5, 1⟩ false
        = .error .outOfFuel := by rfl
    rw [e] at h
    cases h
  · have e : accumulateBuffer 1 (patternBuffer 20 30 20 10 0) 20 ⟨0, 0, 5, 1⟩ false
        = .error .outOfFuel := by rfl
    rw [e] at h
    cases h
  · have e : accumulateBuffer (n + 2) (patternBuffer 20 30 20 10 0) 20 ⟨0, 0, 5, 1⟩ false
        = .error .outOfBounds := by rfl
    rw [e] at h
    cases h

/-- C17, amended: for every rectangle with height and width at least 1 and width not a
multiple of 4, such that the rectangle widened to the next multiple of 4 still lies inside
the buffer with its scanlines ending at most `2^31` bytes after the buffer pointer, the
exhaustive accumulation terminates without error and returns a count different from
`width * height`: it is the height times the width rounded up to the next multiple of 4, and
the channel sums are those of the widened rectangle, so pixels past the right edge of the
rectangle are summed. -/
theorem accumulateBuffer_dense_unaligned (fuel : Nat) (buffer : Buffer) (pitch : Nat)
    (rect : QRect) (hw1 : 1 ≤ rect.width) (hw4 : rect.width % 4 ≠ 0) (hh : 1 ≤ rect.height)
    (hin : rectInside buffer pitch { rect with width := 4 * ((rect.width + 3) / 4) })
    (hint : pitch * (rect.y + rect.height) ≤ 2147483648)
    (hfuel : (rect.width + 3) / 4 < fuel) (hfuel2 : rect.height < fuel) :
    ∃ d0 d1 d2 : Int,
      accumulateBuffer fuel buffer pitch rect false
          = .ok (rect.height * (4 * ((rect.width + 3) / 4)), d0, d1, d2)
        ∧ rect.width < 4 * ((rect.width + 3) / 4)
        ∧ rect.height * (4 * ((rect.width + 3) / 4)) ≠ rect.width * rect.height
        ∧ toUInt32 d0
          = denseSum buffer pitch rect (4 * ((rect.width + 3) / 4)).toNat 0 % 4294967296
        ∧ toUInt32 d1
          = denseSum buffer pitch rect (4 * ((rect.width + 3) / 4)).toNat 1 % 4294967296
        ∧ toUInt32 d2
          = denseSum buffer pitch rect (4 * ((rect.width + 3) / 4)).toNat 2 % 4294967296 := by
  obtain ⟨hx, hy, hrow, hsize⟩ := hin
  simp only at hx hy hrow hsize
  have hGc : ((((rect.width + 3) / 4).toNat : Nat) : Int) = (rect.width + 3) / 4 :=
    Int.toNat_of_nonneg (by omega)
  have hG2 : 4 * ((rect.width + 3) / 4).toNat = (4 * ((rect.width + 3) / 4)).toNat := by
    have : ((4 * ((rect.width + 3) / 4).toNat : Nat) : Int)
        = ((4 * ((rect.width + 3) / 4)).toNat : Int) := by
      rw [Int.toNat_of_nonneg (by omega)]; push_cast; rw [hGc]
    exact_mod_cast this
  have h := accumulateBuffer_dense_eq buffer pitch rect ((rect.width + 3) / 4).toNat hw1
    (by rw [hGc]; omega)
    (by intro j hj
        have : (j : Int) < (rect.width + 3) / 4 := by rw [← hGc]; exact_mod_cast hj
        omega)
    (by omega) hx hy (by rw [hGc]; exact hrow) (by clear * - hsize; omega) hint fuel
    (by have : (((rect.width + 3) / 4).toNat : Int) < fuel := by rw [hGc]; exact hfuel
        exact_mod_cast this)
    hfuel2
  rw [hG2] at h
  have hlt : rect.width < 4 * ((rect.width + 3) / 4) := by omega
  refine ⟨_, _, _, ?_, hlt, ?_, toUInt32_toInt32_of_lt _ (Nat.mod_lt _ (by decide)),
    toUInt32_toInt32_of_lt _ (Nat.mod_lt _ (by decide)),
    toUInt32_toInt32_of_lt _ (Nat.mod_lt _ (by decide))⟩
  · rw [h]
    congr 2
    rw [Nat.cast_mul, Int.toNat_of_nonneg (by omega), Int.toNat_of_nonneg (by omega)]
  · intro he
    have : rect.height * (4 * ((rect.width + 3) / 4) - rect.width) = 0 := by
      rw [mul_sub, he]; ring
    rcases mul_eq_zero.1 this with h0 | h0 <;> omega

theorem accumulateBuffer_dense_unaligned_witness :
    ∃ d0 d1 d2 : Int,
      accumulateBuffer 3 (patternBuffer 32 30 20 10 0) 32 ⟨0, 0, 5, 1⟩ false
          = .ok (1 * (4 * (((5 : Int) + 3) / 4)), d0, d1, d2)
        ∧ (5 : Int) < 4 * ((5 + 3) / 4)
        ∧ (1 : Int) * (4 * ((5 + 3) / 4)) ≠ 5 * 1
        ∧ toUInt32 d0
          = denseSum (patternBuffer 32 30 20 10 0) 32 ⟨0, 0, 5, 1⟩
            (4 * (((5 : Int) + 3) / 4)).toNat 0 % 4294967296
        ∧ toUInt32 d1
          = denseSum (patternBuffer 32 30 20 10 0) 32 ⟨0, 0, 5, 1⟩
            (4 * (((5 : Int) + 3) / 4)).toNat 1 % 4294967296
        ∧ toUInt32 d2
          = denseSum (patternBuffer 32 30 20 10 0) 32 ⟨0, 0, 5, 1⟩
            (4 * (((5 : Int) + 3) / 4)).toNat 2 % 4294967296 :=
  accumulateBuffer_dense_unaligned 3 (patternBuffer 32 30 20 10 0) 32 ⟨0, 0, 5, 1⟩
    (by decide) (by decide) (by decide) (by simp only [rectInside, patternBuffer]; decide)
    (by decide) (by decide) (by decide)

/-! ## Uniform buffers in both modes -/

theorem read_of_uniformBytes (buffer : Buffer) (pitch : Nat) (rect : QRect) (c0 c1 c2 : Nat)
    (hin : rectInside buffer pitch rect) (huni : uniformBytes buffer pitch c0 c1 c2)
    (cx cy : Int) (hcx0 : 0 ≤ cx) (hcx : cx < rect.width) (hcy0 : 0 ≤ cy)
    (hcy : cy < rect.height) :
    buffer.read (pitch * (rect.y + cy) + 4 * (rect.x + cx)) = .ok c0
      ∧ buffer.read (pitch * (rect.y + cy) + 4 * (rect.x + cx) + 1) = .ok c1
      ∧ buffer.read (pitch * (rect.y + cy) + 4 * (rect.x + cx) + 2) = .ok c2 := by
  have hadv : buffer.advance 0 = buffer := rfl
  obtain ⟨p1, p2, q0⟩ := read_of_uniform buffer pitch rect 0 0 (by omega) hin cx cy
    hcx0 hcx hcy0 hcy
  obtain ⟨-, -, q1⟩ := read_of_uniform buffer pitch rect 1 0 (by omega) hin cx cy
    hcx0 hcx hcy0 hcy
  obtain ⟨-, -, q2⟩ := read_of_uniform buffer pitch rect 2 0 (by omega) hin cx cy
    hcx0 hcx hcy0 hcy
  obtain ⟨v0, v1, v2⟩ := huni _ _ p1 p2
  simp only [Nat.cast_zero, Nat.cast_one, Nat.cast_ofNat, add_zero, hadv] at q0 q1 q2
  rw [q0, q1, q2, v0, v1, v2]
  exact ⟨rfl, rfl, rfl⟩

theorem get_of_read {buffer : Buffer} {index : Int} {v : Nat}
    (h : buffer.read index = .ok v) : buffer.get index = v := by
  unfold Buffer.read at h
  unfold Buffer.get
  split at h
  · injection h
  · cases h

theorem denseSum_uniform (buffer : Buffer) (pitch : Nat) (rect : QRect) (c0 c1 c2 : Nat)
    (hw : 0 ≤ rect.width) (hin : rectInside buffer pitch rect)
    (huni : uniformBytes buffer pitch c0 c1 c2) :
    denseSum buffer pitch rect rect.width.toNat 0 = rect.height.toNat * (rect.width.toNat * c0)
      ∧ denseSum buffer pitch rect rect.width.toNat 1
        = rect.height.toNat * (rect.width.toNat * c1)
      ∧ denseSum buffer pitch rect rect.width.toNat 2
        = rect.height.toNat * (rect.width.toNat * c2) := by
  have key : ∀ i ∈ Finset.range rect.height.toNat, ∀ p ∈ Finset.range rect.width.toNat,
      buffer.get (pitch * (rect.y + i) + 4 * (rect.x + p) + 0) = c0
        ∧ buffer.get (pitch * (rect.y + i) + 4 * (rect.x + p) + 1) = c1
        ∧ buffer.get (pitch * (rect.y + i) + 4 * (rect.x + p) + 2) = c2 := by
    intro i hi p hp
    have hi' : (i : Int) < rect.height := by
      have := Finset.mem_range.1 hi; omega
    have hp' : (p : Int) < rect.width := by
      have := Finset.mem_range.1 hp; omega
    obtain ⟨r0, r1, r2⟩ := read_of_uniformBytes buffer pitch rect c0 c1 c2 hin huni p i
      (Int.ofNat_nonneg _) hp' (Int.ofNat_nonneg _) hi'
    rw [add_zero]
    exact ⟨get_of_read r0, get_of_read r1, get_of_read r2⟩
  unfold denseSum
  refine ⟨?_, ?_, ?_⟩
  · rw [Finset.sum_congr rfl (fun i hi => Finset.sum_congr rfl (fun p hp => (key i hi p hp).1))]
    simp only [Finset.sum_const, Finset.card_range, smul_eq_mul]
  · rw [Finset.sum_congr rfl
      (fun i hi => Finset.sum_congr rfl (fun p hp => (key i hi p hp).2.1))]
    simp only [Finset.sum_const, Finset.card_range, smul_eq_mul]
  · rw [Finset.sum_congr rfl
      (fun i hi => Finset.sum_congr rfl (fun p hp => (key i hi p hp).2.2))]
    simp only [Finset.sum_const, Finset.card_range, smul_eq_mul]

theorem accumulateBuffer_dense_aligned_eq (fuel : Nat) (buffer : Buffer) (pitch : Nat)
    (rect : QRect) (hw1 : 1 ≤ rect.width) (hw4 : rect.width % 4 = 0) (hh : 0 ≤ rect.height)
    (hin : rectInside buffer pitch rect)
    (hint : pitch * (rect.y + rect.height) ≤ 2147483648)
    (hfuel : rect.width / 4 < fuel) (hfuel2 : rect.height < fuel) :
    accumulateBuffer fuel buffer pitch rect false
      = .ok (rect.width * rect.height,
        toInt32 ((denseSum buffer pitch rect rect.width.toNat 0 % 4294967296 : Nat) : Int),
        toInt32 ((denseSum buffer pitch rect rect.width.toNat 1 % 4294967296 : Nat) : Int),
        toInt32 ((denseSum buffer pitch rect rect.width.toNat 2 % 4294967296 : Nat) : Int)) := by
  obtain ⟨hx, hy, hrow, hsize⟩ := hin
  have hGc : (((rect.width / 4).toNat : Nat) : Int) = rect.width / 4 :=
    Int.toNat_of_nonneg (by omega)
  have hG2 : 4 * (rect.width / 4).toNat = rect.width.toNat := by
    have : ((4 * (rect.width / 4).toNat : Nat) : Int) = (rect.width.toNat : Int) := by
      rw [Int.toNat_of_nonneg (by omega)]; push_cast; rw [hGc]; omega
    exact_mod_cast this
  have h := accumulateBuffer_dense_eq buffer pitch rect (rect.width / 4).toNat hw1
    (by rw [hGc]; omega)
    (by intro j hj; have : (j : Int) < rect.width / 4 := by rw [← hGc]; exact_mod_cast hj
        omega)
    hh hx hy (by rw [hGc]; omega) (by clear * - hsize; omega) hint fuel
    (by have : ((rect.width / 4).toNat : Int) < fuel := by rw [hGc]; exact hfuel
        exact_mod_cast this)
    hfuel2
  rw [hG2] at h
  rw [h]
  congr 2
  rw [Nat.cast_mul, Int.toNat_of_nonneg hh, Int.toNat_of_nonneg (by omega)]
  ring

theorem patternBuffer_uniformBytes (size pitch : Nat) (hp : pitch % 4 = 0)
    (b0 b1 b2 b3 : Fin 256) :
    uniformBytes (patternBuffer size b0 b1 b2 b3) pitch b0.val b1.val b2.val := by
  intro px py _ _
  have hb := patternBuffer_byte size b0 b1 b2 b3
  have hm : (pitch * py) % 4 = 0 := by
    rw [Nat.mul_mod, hp]; simp
  refine ⟨?_, ?_, ?_⟩
  · rw [(hb _).1 (by simp only [patternBuffer]; omega)]
  · rw [(hb _).2.1 (by simp only [patternBuffer]; omega)]
  · rw [(hb _).2.2.1 (by simp only [patternBuffer]; omega)]

/-- C13 fails as stated: in the buffer of `2^31 + 2^21` bytes with a pitch of `2^17` bytes,
all of whose pixels hold the bytes 30, 20, 10, the 16 by 16 rectangle at `(0, 2^14)` lies
inside the buffer and has `width * height * 255 < 2^31`, but neither mode returns sums or a
count from which an average could be taken: the `int` index of the first read has wrapped
to `-2^31`. -/
theorem accumulateBuffer_modes_fail_beyond_int :
    rectInside (patternBuffer 2149580800 30 20 10 255) 131072 ⟨0, 16384, 16, 16⟩
      ∧ uniformBytes (patternBuffer 2149580800 30 20 10 255) 131072 30 20 10
      ∧ (16 : Int) * 16 * 255 < 2147483648
      ∧ ¬ ∃ (fuel : Nat) (optimized : Bool) (v : Int × Int × Int × Int),
          accumulateBuffer fuel (patternBuffer 2149580800 30 20 10 255) 131072
            ⟨0, 16384, 16, 16⟩ optimized = .ok v := by
  refine ⟨by simp only [rectInside, patternBuffer]; decide, ?_, by decide, ?_⟩
  · exact patternBuffer_uniformBytes 2149580800 131072 (by decide) 30 20 10 255
  · rintro ⟨fuel, optimized, v, h⟩
    exact accumulateBuffer_beyond_int fuel optimized 30 20 10 255 v h

/-- C13, amended: for every buffer in which all pixels hold the same three channel bytes, and
every rectangle inside it with width and height at least 16, width a multiple of 4,
`width * height * 255 < 2^31` and scanlines ending at most `2^31` bytes after the buffer
pointer, the sparse and the exhaustive accumulation (given enough loop iterations) return
counts `n1`, `n2` and sums `n1 * c`, `n2 * c`, so that the per-channel averages `sum / count`
of the two modes are identical and equal to the uniform channel bytes. -/
theorem accumulateBuffer_modes_agree_uniform (fuel : Nat) (buffer : Buffer) (pitch : Nat)
    (rect : QRect) (c0 c1 c2 : Nat) (hw : 16 ≤ rect.width) (hh : 16 ≤ rect.height)
    (hw4 : rect.width % 4 = 0) (hin : rectInside buffer pitch rect)
    (hint : pitch * (rect.y + rect.height) ≤ 2147483648)
    (harea : rect.width * rect.height * 255 < 2147483648)
    (huni : uniformBytes buffer pitch c0 c1 c2)
    (hfuel : 32 ≤ fuel) (hfuel1 : rect.width / 4 < fuel) (hfuel2 : rect.height < fuel) :
    ∃ n1 n2 : Int,
      accumulateBuffer fuel buffer pitch rect true = .ok (n1, n1 * c0, n1 * c1, n1 * c2)
        ∧ accumulateBuffer fuel buffer pitch rect false = .ok (n2, n2 * c0, n2 * c1, n2 * c2)
        ∧ n1 = ((sparseSteps rect.height * sparseSteps rect.width : Nat) : Int)
        ∧ n2 = rect.width * rect.height
        ∧ (n1 * c0).tdiv n1 = c0 ∧ (n2 * c0).tdiv n2 = c0
        ∧ (n1 * c1).tdiv n1 = c1 ∧ (n2 * c1).tdiv n2 = c1
        ∧ (n1 * c2).tdiv n1 = c2 ∧ (n2 * c2).tdiv n2 = c2 := by
  obtain ⟨wc16, -, -, -⟩ := sparseSteps_spec rect.width hw
  obtain ⟨hc16, -, -, -⟩ := sparseSteps_spec rect.height hh
  have hn1 : 1 ≤ sparseSteps rect.height * sparseSteps rect.width := by
    have := Nat.mul_le_mul hc16 wc16; omega
  have hn1' : ((sparseSteps rect.height * sparseSteps rect.width : Nat) : Int) ≠ 0 := by
    exact_mod_cast (by omega : sparseSteps rect.height * sparseSteps rect.width ≠ 0)
  have hwh : (0 : Int) < rect.width * rect.height := mul_pos (by omega) (by omega)
  have hn2' : rect.width * rect.height ≠ 0 := ne_of_gt hwh
  have hs := accumulateBuffer_sparse_uniform buffer pitch rect c0 c1 c2 hw hh hin.1 hin.2.1
    hin.2.2.1 hint (fun cx cy h1 h2 h3 h4 =>
      read_of_uniformBytes buffer pitch rect c0 c1 c2 hin huni cx cy h1 h2 h3 h4) fuel hfuel
  have hd := accumulateBuffer_dense_aligned_eq fuel buffer pitch rect (by omega) hw4 (by omega)
    hin hint hfuel1 hfuel2
  obtain ⟨r0, r1, r2⟩ := read_of_uniformBytes buffer pitch rect c0 c1 c2 hin huni 0 0
    (le_refl _) (by omega) (le_refl _) (by omega)
  have b0 := Buffer.read_lt r0
  have b1 := Buffer.read_lt r1
  have b2 := Buffer.read_lt r2
  obtain ⟨s0, s1, s2⟩ := denseSum_uniform buffer pitch rect c0 c1 c2 (by omega) hin huni
  have hW : ((rect.width.toNat : Nat) : Int) = rect.width := Int.toNat_of_nonneg (by omega)
  have hH : ((rect.height.toNat : Nat) : Int) = rect.height := Int.toNat_of_nonneg (by omega)
  have conv : ∀ c : Nat, c < 256 →
      toInt32 (((rect.height.toNat * (rect.width.toNat * c)) % 4294967296 : Nat) : Int)
        = rect.width * rect.height * c := by
    intro c hc
    have e : ((rect.height.toNat * (rect.width.toNat * c) : Nat) : Int)
        = rect.width * rect.height * c := by
      push_cast; rw [hW, hH]; ring
    have hle : rect.width * rect.height * (c : Int) ≤ rect.width * rect.height * 255 :=
      mul_le_mul_of_nonneg_left (by omega) (le_of_lt hwh)
    have hnn : (0 : Int) ≤ rect.width * rect.height * (c : Int) :=
      mul_nonneg (le_of_lt hwh) (Int.ofNat_nonneg _)
    have hlt : rect.height.toNat * (rect.width.toNat * c) < 4294967296 := by
      have : ((rect.height.toNat * (rect.width.toNat * c) : Nat) : Int) < 4294967296 := by
        rw [e]; omega
      exact_mod_cast this
    rw [Nat.mod_eq_of_lt hlt, e]
    exact toInt32_of_range (by omega) (by omega)
  rw [s0, s1, s2, conv c0 b0, conv c1 b1, conv c2 b2] at hd
  refine ⟨_, _, ?_, hd, rfl, rfl, Int.mul_tdiv_cancel_left _ hn1',
    Int.mul_tdiv_cancel_left _ hn2', Int.mul_tdiv_cancel_left _ hn1',
    Int.mul_tdiv_cancel_left _ hn2', Int.mul_tdiv_cancel_left _ hn1',
    Int.mul_tdiv_cancel_left _ hn2'⟩
  rw [hs]
  simp only [Nat.cast_mul]

theorem accumulateBuffer_modes_agree_uniform_witness :
    ∃ n1 n2 : Int,
      accumulateBuffer 32 (patternBuffer 1024 30 20 10 77) 64 ⟨0, 0, 16, 16⟩ true
          = .ok (n1, n1 * (30 : Nat), n1 * (20 : Nat), n1 * (10 : Nat))
        ∧ accumulateBuffer 32 (patternBuffer 1024 30 20 10 77) 64 ⟨0, 0, 16, 16⟩ false
          = .ok (n2, n2 * (30 : Nat), n2 * (20 : Nat), n2 * (10 : Nat))
        ∧ n1 = ((sparseSteps 16 * sparseSteps 16 : Nat) : Int)
        ∧ n2 = 16 * 16
        ∧ (n1 * (30 : Nat)).tdiv n1 = (30 : Nat) ∧ (n2 * (30 : Nat)).tdiv n2 = (30 : Nat)
        ∧ (n1 * (20 : Nat)).tdiv n1 = (20 : Nat) ∧ (n2 * (20 : Nat)).tdiv n2 = (20 : Nat)
        ∧ (n1 * (10 : Nat)).tdiv n1 = (10 : Nat) ∧ (n2 * (10 : Nat)).tdiv n2 = (10 : Nat) :=
  accumulateBuffer_modes_agree_uniform 32 (patternBuffer 1024 30 20 10 77) 64 ⟨0, 0, 16, 16⟩
    30 20 10 (by decide) (by decide) (by decide)
    (by simp only [rectInside, patternBuffer]; decide) (by decide) (by decide)
    (patternBuffer_uniformBytes 1024 64 (by decide) 30 20 10 77)
    (by decide) (by decide) (by decide)

/-! ## The averaging step on accumulated sums -/

theorem calculateAvgColor_eq_switch (fuel result : Nat) (buffer : Buffer)
    (format : BufferFormat) (pitch : Nat) (rect : QRect) :
    calculateAvgColor fuel result buffer format pitch rect =
      (if rect.width.tmod 4 ≠ 0 then .error .assertFailed
      else
        match accumulateBufferByFormat fuel buffer format pitch rect with
        | none => .ok (toUInt32 (-1), result)
        | some acc => (do
          let (count, color) ← acc
          pure (averageAndPack count color, averageAndPack count color))) := by
  unfold calculateAvgColor accumulateBufferByFormat
  cases format <;> rfl

theorem sum_cast_bounds (f : Nat → Nat) (n : Nat) (lo hi : Int)
    (h : ∀ i : Nat, i < n → lo ≤ f i ∧ (f i : Int) ≤ hi) :
    lo * n ≤ ((∑ i in Finset.range n, f i : Nat) : Int)
      ∧ ((∑ i in Finset.range n, f i : Nat) : Int) ≤ hi * n := by
  induction n with
  | zero => simp
  | succ n ih =>
    have hn := h n (by omega)
    have hrest := ih (fun i hi => h i (by omega))
    rw [Finset.sum_range_succ]
    push_cast at hrest ⊢
    constructor <;> nlinarith [hn.1, hn.2, hrest.1, hrest.2]

theorem sparseGridSum_bounds (buffer : Buffer) (pitch : Nat) (rect : QRect) (k : Int)
    (lo hi : Int)
    (h : ∀ i j : Nat, i < sparseSteps rect.height → j < sparseSteps rect.width →
      lo ≤ buffer.get (pitch * (rect.y + i * (rect.height / 16))
          + 4 * (rect.x + j * (rect.width / 16)) + k)
        ∧ (buffer.get (pitch * (rect.y + i * (rect.height / 16))
          + 4 * (rect.x + j * (rect.width / 16)) + k) : Int) ≤ hi) :
    lo * ((sparseSteps rect.height * sparseSteps rect.width : Nat) : Int)
        ≤ (sparseGridSum buffer pitch rect k : Int)
      ∧ (sparseGridSum buffer pitch rect k : Int)
        ≤ hi * ((sparseSteps rect.height * sparseSteps rect.width : Nat) : Int) := by
  have inner : ∀ i : Nat, i < sparseSteps rect.height →
      lo * sparseSteps rect.width
          ≤ ((∑ j in Finset.range (sparseSteps rect.width),
              buffer.get (pitch * (rect.y + i * (rect.height / 16))
                + 4 * (rect.x + j * (rect.width / 16)) + k) : Nat) : Int)
        ∧ ((∑ j in Finset.range (sparseSteps rect.width),
              buffer.get (pitch * (rect.y + i * (rect.height / 16))
                + 4 * (rect.x + j * (rect.width / 16)) + k) : Nat) : Int)
          ≤ hi * sparseSteps rect.width :=
    fun i hi' => sum_cast_bounds _ _ lo hi (fun j hj => h i j hi' hj)
  have outer := sum_cast_bounds (fun i => ∑ j in Finset.range (sparseSteps rect.width),
      buffer.get (pitch * (rect.y + i * (rect.height / 16))
        + 4 * (rect.x + j * (rect.width / 16)) + k)) (sparseSteps rect.height)
    (lo * sparseSteps rect.width) (hi * sparseSteps rect.width) inner
  unfold sparseGridSum
  have e1 : lo * ((sparseSteps rect.height * sparseSteps rect.width : Nat) : Int)
      = lo * sparseSteps rect.width * sparseSteps rect.height := by push_cast; ring
  have e2 : hi * ((sparseSteps rect.height * sparseSteps rect.width : Nat) : Int)
      = hi * sparseSteps rect.width * sparseSteps rect.height := by push_cast; ring
  rw [e1, e2]
  exact outer

/-- The quotient of a grid sum by the number of grid points: it is a byte, the mask `& 0xff`
leaves it alone, and it lies between any two bounds of the sampled bytes. -/
theorem sparseGridSum_mean (buffer : Buffer) (pitch : Nat) (rect : QRect) (k : Int)
    (hw : 16 ≤ rect.width) (hh : 16 ≤ rect.height) :
    (0 ≤ (sparseGridSum buffer pitch rect k : Int).tdiv
          ((sparseSteps rect.height * sparseSteps rect.width : Nat) : Int)
      ∧ (sparseGridSum buffer pitch rect k : Int).tdiv
          ((sparseSteps rect.height * sparseSteps rect.width : Nat) : Int) ≤ 255
      ∧ andInt ((sparseGridSum buffer pitch rect k : Int).tdiv
          ((sparseSteps rect.height * sparseSteps rect.width : Nat) : Int)) 0xff
        = (sparseGridSum buffer pitch rect k : Int).tdiv
          ((sparseSteps rect.height * sparseSteps rect.width : Nat) : Int))
      ∧ ∀ lo hi : Int,
        (∀ i j : Nat, i < sparseSteps rect.height → j < sparseSteps rect.width →
          lo ≤ buffer.get (pitch * (rect.y + i * (rect.height / 16))
              + 4 * (rect.x + j * (rect.width / 16)) + k)
            ∧ (buffer.get (pitch * (rect.y + i * (rect.height / 16))
              + 4 * (rect.x + j * (rect.width / 16)) + k) : Int) ≤ hi) →
        lo ≤ (sparseGridSum buffer pitch rect k : Int).tdiv
              ((sparseSteps rect.height * sparseSteps rect.width : Nat) : Int)
          ∧ (sparseGridSum buffer pitch rect k : Int).tdiv
              ((sparseSteps rect.height * sparseSteps rect.width : Nat) : Int) ≤ hi := by
  obtain ⟨wc16, -, -, -⟩ := sparseSteps_spec rect.width hw
  obtain ⟨hc16, -, -, -⟩ := sparseSteps_spec rect.height hh
  have hn : (0 : Int) < ((sparseSteps rect.height * sparseSteps rect.width : Nat) : Int) := by
    have := Nat.mul_le_mul hc16 wc16
    exact_mod_cast (by omega : 0 < sparseSteps rect.height * sparseSteps rect.width)
  have hS : (0 : Int) ≤ (sparseGridSum buffer pitch rect k : Int) := Int.ofNat_nonneg _
  have hdiv := Int.tdiv_eq_ediv hS (le_of_lt hn)
  have bounds : ∀ lo hi : Int,
      (∀ i j : Nat, i < sparseSteps rect.height → j < sparseSteps rect.width →
        lo ≤ buffer.get (pitch * (rect.y + i * (rect.height / 16))
            + 4 * (rect.x + j * (rect.width / 16)) + k)
          ∧ (buffer.get (pitch * (rect.y + i * (rect.height / 16))
            + 4 * (rect.x + j * (rect.width / 16)) + k) : Int) ≤ hi) →
      lo ≤ (sparseGridSum buffer pitch rect k : Int).tdiv
            ((sparseSteps rect.height * sparseSteps rect.width : Nat) : Int)
        ∧ (sparseGridSum buffer pitch rect k : Int).tdiv
            ((sparseSteps rect.height * sparseSteps rect.width : Nat) : Int) ≤ hi := by
    intro lo hi h
    obtain ⟨b1, b2⟩ := sparseGridSum_bounds buffer pitch rect k lo hi h
    rw [hdiv]
    exact ⟨Int.le_ediv_of_mul_le hn b1, Int.ediv_le_of_le_mul hn b2⟩
  have h0 := bounds 0 255 (fun i j _ _ =>
    ⟨Int.ofNat_nonneg _, by exact_mod_cast Buffer.get_le buffer _⟩)
  refine ⟨⟨h0.1, h0.2, ?_⟩, bounds⟩
  rw [andInt_255]
  omega

theorem Buffer.get_advance_one (buffer : Buffer) (index : Int) :
    (buffer.advance 1).get index = buffer.get (index + 1) := by
  unfold Buffer.get Buffer.advance
  simp only
  congr 3
  push_cast
  ring

theorem sparseGridSum_advance_one (buffer : Buffer) (pitch : Nat) (rect : QRect) (k : Int) :
    sparseGridSum (buffer.advance 1) pitch rect k = sparseGridSum buffer pitch rect (k + 1) := by
  unfold sparseGridSum
  refine Finset.sum_congr rfl (fun i _ => Finset.sum_congr rfl (fun j _ => ?_))
  rw [Buffer.get_advance_one]
  congr 1
  ring

theorem accumulateBufferByFormat_sparse (fuel : Nat) (hfuel : 32 ≤ fuel) (buffer : Buffer)
    (format : BufferFormat) (hfmt : format ≠ .BufferFormatUnknown) (pitch : Nat)
    (rect : QRect) (hw : 16 ≤ rect.width) (hh : 16 ≤ rect.height)
    (hin : rectInside buffer pitch rect)
    (hint : pitch * (rect.y + rect.height) ≤ 2147483648) :
    accumulateBufferByFormat fuel buffer format pitch rect =
      some (.ok (((sparseSteps rect.height * sparseSteps rect.width : Nat) : Int),
        { r := ((sparseGridSum buffer pitch rect (redByte format : Nat) : Nat) : Int)
          g := ((sparseGridSum buffer pitch rect (greenByte format : Nat) : Nat) : Int)
          b := ((sparseGridSum buffer pitch rect (blueByte format : Nat) : Nat) : Int) })) := by
  obtain ⟨hx, hy, hrow, hsize⟩ := hin
  have h0 := accumulateBuffer_sparse_eq buffer pitch rect hw hh hx hy hrow
    (by clear * - hsize; omega) hint fuel hfuel
  have h1 := accumulateBuffer_sparse_eq (buffer.advance 1) pitch rect hw hh hx hy hrow
    (by simp only [Buffer.advance]; push_cast; clear * - hsize; omega) hint fuel hfuel
  rw [sparseGridSum_advance_one, sparseGridSum_advance_one, sparseGridSum_advance_one] at h1
  norm_num at h1
  cases format with
  | BufferFormatUnknown => exact absurd rfl hfmt
  | BufferFormatArgb =>
    simp only [accumulateBufferByFormat, accumulateBufferFormatArgb, h0, bind, Except.bind,
      pure, Except.pure, redByte, greenByte, blueByte, Nat.cast_ofNat, Nat.cast_one,
      Nat.cast_zero]
  | BufferFormatAbgr =>
    simp only [accumulateBufferByFormat, accumulateBufferFormatAbgr, h0, bind, Except.bind,
      pure, Except.pure, redByte, greenByte, blueByte, Nat.cast_ofNat, Nat.cast_one,
      Nat.cast_zero]
  | BufferFormatRgba =>
    simp only [accumulateBufferByFormat, accumulateBufferFormatRgba,
      accumulateBufferFormatArgb, h1, bind, Except.bind, pure, Except.pure, redByte,
      greenByte, blueByte, Nat.cast_ofNat, Nat.cast_one, Nat.cast_zero, Nat.cast_mul]
  | BufferFormatBgra =>
    simp only [accumulateBufferByFormat, accumulateBufferFormatBgra,
      accumulateBufferFormatAbgr, h1, bind, Except.bind, pure, Except.pure, redByte,
      greenByte, blueByte, Nat.cast_ofNat, Nat.cast_one, Nat.cast_zero, Nat.cast_mul]

theorem accumulateBufferByFormat_beyond_int (fuel : Nat) (format : BufferFormat)
    (b0 b1 b2 b3 : Fin 256) (v : Int × ColorValue) :
    accumulateBufferByFormat fuel (patternBuffer 2149580800 b0 b1 b2 b3) format 131072
      ⟨0, 16384, 16, 16⟩ ≠ some (.ok v) := by
  have key : ∀ (buffer : Buffer) (f : Int × Int × Int × Int → Except Fault (Int × ColorValue)),
      (∀ w, accumulateBuffer fuel buffer 131072 ⟨0, 16384, 16, 16⟩ true ≠ .ok w) →
      (accumulateBuffer fuel buffer 131072 ⟨0, 16384, 16, 16⟩ true >>= f) ≠ .ok v := by
    intro buffer f hne h
    cases hacc : accumulateBuffer fuel buffer 131072 ⟨0, 16384, 16, 16⟩ true with
    | error e => rw [hacc] at h; cases h
    | ok w => exact hne w hacc
  have h0 := accumulateBuffer_beyond_int fuel true b0 b1 b2 b3
  have h1 : ∀ w, accumulateBuffer fuel ((patternBuffer 2149580800 b0 b1 b2 b3).advance 1)
      131072 ⟨0, 16384, 16, 16⟩ true ≠ .ok w := by
    intro w h
    have hbase : baseIndexOfLine 0 131072 ⟨0, 16384, 16, 16⟩ = -2147483648 := by rfl
    cases fuel with
    | zero => simp [accumulateBuffer, sparseRows, bind, Except.bind] at h
    | succ n =>
      simp [accumulateBuffer, sparseRows, sparseColumns, hbase, Buffer.read, Buffer.advance,
        patternBuffer, bind, Except.bind] at h
  intro h
  cases format with
  | BufferFormatUnknown => cases h
  | BufferFormatArgb => exact key _ _ h0 (Option.some.inj h)
  | BufferFormatAbgr => exact key _ _ h0 (Option.some.inj h)
  | BufferFormatRgba => exact key _ _ h1 (Option.some.inj h)
  | BufferFormatBgra => exact key _ _ h1 (Option.some.inj h)

/-- C18 fails as stated: the 16 by 16 rectangle at `(0, 2^14)` lies inside the buffer of
`2^31 + 2^21` bytes with a pitch of `2^17` bytes, but for no recognized format does the
accumulation return a count and channel sums there (the `int` index of its first read has
wrapped to `-2^31`), so there is no quotient `sum / count` to be masked. -/
theorem calculateAvgColor_mask_no_sums_beyond_int :
    rectInside (patternBuffer 2149580800 30 20 10 255) 131072 ⟨0, 16384, 16, 16⟩
      ∧ ∀ format : BufferFormat, ¬ ∃ (fuel : Nat) (count : Int) (color : ColorValue),
          accumulateBufferByFormat fuel (patternBuffer 2149580800 30 20 10 255) format 131072
            ⟨0, 16384, 16, 16⟩ = some (.ok (count, color)) := by
  refine ⟨by simp only [rectInside, patternBuffer]; decide, ?_⟩
  rintro format ⟨fuel, count, color, h⟩
  exact accumulateBufferByFormat_beyond_int fuel format 30 20 10 255 (count, color) h

/-- C18, amended: for every recognized format, buffer, pitch and rectangle with width and
height at least 16 that lies inside the buffer with its scanlines ending at most `2^31`
bytes after the buffer pointer, the accumulation that the `switch` of `calculateAvgColor`
selects (loops allowed at least 32 iterations) returns a count above 1 and channel sums
such that each quotient `sum / count` is in `[0, 255]` and is left unchanged by `& 0xff`,
so that the packed colour is `qRgb` of the three quotients; and each quotient lies between
any lower and upper bound of the sampled bytes of its channel, in particular between the
smallest and the largest of them. The sampled bytes of a channel are those at byte
`redByte`, `greenByte` or `blueByte` of the pixels on the sparse grid. -/
theorem calculateAvgColor_mask_noop (fuel : Nat) (hfuel : 32 ≤ fuel) (buffer : Buffer)
    (format : BufferFormat) (hfmt : format ≠ .BufferFormatUnknown) (pitch : Nat)
    (rect : QRect) (hw : 16 ≤ rect.width) (hh : 16 ≤ rect.height)
    (hin : rectInside buffer pitch rect)
    (hint : pitch * (rect.y + rect.height) ≤ 2147483648) :
    ∃ (count : Int) (color : ColorValue),
      accumulateBufferByFormat fuel buffer format pitch rect = some (.ok (count, color))
        ∧ 1 < count
        ∧ (0 ≤ color.r.tdiv count ∧ color.r.tdiv count ≤ 255
            ∧ andInt (color.r.tdiv count) 0xff = color.r.tdiv count)
        ∧ (0 ≤ color.g.tdiv count ∧ color.g.tdiv count ≤ 255
            ∧ andInt (color.g.tdiv count) 0xff = color.g.tdiv count)
        ∧ (0 ≤ color.b.tdiv count ∧ color.b.tdiv count ≤ 255
            ∧ andInt (color.b.tdiv count) 0xff = color.b.tdiv count)
        ∧ averageAndPack count color
            = qRgb (color.r.tdiv count) (color.g.tdiv count) (color.b.tdiv count)
        ∧ (∀ lo hi : Int,
            (∀ i j : Nat, i < sparseSteps rect.height → j < sparseSteps rect.width →
              lo ≤ buffer.get (pitch * (rect.y + i * (rect.height / 16))
                  + 4 * (rect.x + j * (rect.width / 16)) + (redByte format : Nat))
                ∧ (buffer.get (pitch * (rect.y + i * (rect.height / 16))
                  + 4 * (rect.x + j * (rect.width / 16)) + (redByte format : Nat)) : Int)
                  ≤ hi) →
            lo ≤ color.r.tdiv count ∧ color.r.tdiv count ≤ hi)
        ∧ (∀ lo hi : Int,
            (∀ i j : Nat, i < sparseSteps rect.height → j < sparseSteps rect.width →
              lo ≤ buffer.get (pitch * (rect.y + i * (rect.height / 16))
                  + 4 * (rect.x + j * (rect.width / 16)) + (greenByte format : Nat))
                ∧ (buffer.get (pitch * (rect.y + i * (rect.height / 16))
                  + 4 * (rect.x + j * (rect.width / 16)) + (greenByte format : Nat)) : Int)
                  ≤ hi) →
            lo ≤ color.g.tdiv count ∧ color.g.tdiv count ≤ hi)
        ∧ (∀ lo hi : Int,
            (∀ i j : Nat, i < sparseSteps rect.height → j < sparseSteps rect.width →
              lo ≤ buffer.get (pitch * (rect.y + i * (rect.height / 16))
                  + 4 * (rect.x + j * (rect.width / 16)) + (blueByte format : Nat))
                ∧ (buffer.get (pitch * (rect.y + i * (rect.height / 16))
                  + 4 * (rect.x + j * (rect.width / 16)) + (blueByte format : Nat)) : Int)
                  ≤ hi) →
            lo ≤ color.b.tdiv count ∧ color.b.tdiv count ≤ hi) := by
  have hacc := accumulateBufferByFormat_sparse fuel hfuel buffer format hfmt pitch rect hw hh
    hin hint
  have mr := sparseGridSum_mean buffer pitch rect (redByte format : Nat) hw hh
  have mg := sparseGridSum_mean buffer pitch rect (greenByte format : Nat) hw hh
  have mb := sparseGridSum_mean buffer pitch rect (blueByte format : Nat) hw hh
  obtain ⟨wc16, -, -, -⟩ := sparseSteps_spec rect.width hw
  obtain ⟨hc16, -, -, -⟩ := sparseSteps_spec rect.height hh
  have hn : (1 : Int) < ((sparseSteps rect.height * sparseSteps rect.width : Nat) : Int) := by
    have := Nat.mul_le_mul hc16 wc16
    exact_mod_cast (by omega : 1 < sparseSteps rect.height * sparseSteps rect.width)
  refine ⟨_, _, hacc, hn, mr.1, mg.1, mb.1, ?_, mr.2, mg.2, mb.2⟩
  unfold averageAndPack
  simp only [gt_iff_lt, hn, if_true]
  rw [mr.1.2.2, mg.1.2.2, mb.1.2.2]

theorem calculateAvgColor_mask_noop_witness :
    ∃ (count : Int) (color : ColorValue),
      accumulateBufferByFormat 32 (patternBuffer 1024 30 20 10 77) .BufferFormatArgb 64
          ⟨0, 0, 16, 16⟩ = some (.ok (count, color))
        ∧ 1 < count
        ∧ (0 ≤ color.r.tdiv count ∧ color.r.tdiv count ≤ 255
            ∧ andInt (color.r.tdiv count) 0xff = color.r.tdiv count) := by
  obtain ⟨count, color, h1, h2, h3, -⟩ := calculateAvgColor_mask_noop 32 (by decide)
    (patternBuffer 1024 30 20 10 77) .BufferFormatArgb (by decide) 64 ⟨0, 0, 16, 16⟩
    (by decide) (by decide) (by simp only [rectInside, patternBuffer]; decide) (by decide)
  exact ⟨count, color, h1, h2, h3⟩

/-! ## The reads of the accumulator -/

theorem Logged.value_bind {α β : Type} (x : Logged α) (f : α → Logged β) :
    (x >>= f).value = x.value >>= fun a => (f a).value := by
  show (Logged.andThen x f).value = _
  unfold Logged.andThen
  cases h : x.value <;> rfl

theorem Logged.value_pure {α : Type} (a : α) : (pure a : Logged α).value = .ok a := rfl

theorem Logged.reads_pure {α : Type} (a : α) : (pure a : Logged α).reads = [] := rfl

theorem Logged.reads_bind {α β : Type} (P : Int × Int → Prop) (x : Logged α)
    (f : α → Logged β) (hx : ∀ e ∈ x.reads, P e) (hf : ∀ a, ∀ e ∈ (f a).reads, P e) :
    ∀ e ∈ (x >>= f).reads, P e := by
  show ∀ e ∈ (Logged.andThen x f).reads, P e
  unfold Logged.andThen
  cases h : x.value with
  | error err => exact hx
  | ok a =>
    intro e he
    rcases List.mem_append.1 he with h1 | h1
    · exact hx e h1
    · exact hf a e h1

theorem sparseColumnsLog_value (buffer : Buffer) (rect : QRect) (currentY : Int) :
    ∀ (fuel : Nat) (currentX index : Int) (a : Acc),
      (sparseColumnsLog buffer rect currentY fuel currentX index a).value
        = sparseColumns buffer rect fuel currentX index a := by
  intro fuel
  induction fuel with
  | zero => intro currentX index a; rfl
  | succ n ih =>
    intro currentX index a
    unfold sparseColumnsLog sparseColumns
    split
    · simp only [Logged.value_bind, Buffer.readLog, ih]
    · rfl

theorem sparseRowsLog_value (buffer : Buffer) (pitch : Nat) (rect : QRect) (inner : Nat) :
    ∀ (fuel : Nat) (currentY : Int) (a : Acc),
      (sparseRowsLog buffer pitch rect inner fuel currentY a).value
        = sparseRows buffer pitch rect inner fuel currentY a := by
  intro fuel
  induction fuel with
  | zero => intro currentY a; rfl
  | succ n ih =>
    intro currentY a
    unfold sparseRowsLog sparseRows
    split
    · simp only [Logged.value_bind, sparseColumnsLog_value, ih]
    · rfl

theorem denseColumnsLog_value (buffer : Buffer) (rect : QRect) (currentY : Int) :
    ∀ (fuel : Nat) (currentX index : Int) (a : Acc),
      (denseColumnsLog buffer rect currentY fuel currentX index a).value
        = denseColumns buffer rect fuel currentX index a := by
  intro fuel
  induction fuel with
  | zero => intro currentX index a; rfl
  | succ n ih =>
    intro currentX index a
    unfold denseColumnsLog denseColumns
    split
    · simp only [Logged.value_bind, Buffer.readLog, ih]
    · rfl

theorem denseRowsLog_value (buffer : Buffer) (pitch : Nat) (rect : QRect) (inner : Nat) :
    ∀ (fuel : Nat) (currentY : Int) (a : Acc),
      (denseRowsLog buffer pitch rect inner fuel currentY a).value
        = denseRows buffer pitch rect inner fuel currentY a := by
  intro fuel
  induction fuel with
  | zero => intro currentY a; rfl
  | succ n ih =>
    intro currentY a
    unfold denseRowsLog denseRows
    split
    · simp only [Logged.value_bind, denseColumnsLog_value, ih]
    · rfl

theorem accumulateBufferLog_value (fuel : Nat) (buffer : Buffer) (pitch : Nat) (rect : QRect)
    (optimized : Bool) :
    (accumulateBufferLog fuel buffer pitch rect optimized).value
      = accumulateBuffer fuel buffer pitch rect optimized := by
  unfold accumulateBufferLog accumulateBuffer
  cases optimized
  · simp only [Logged.value_bind, Logged.value_pure, denseRowsLog_value, Bool.false_eq_true,
      if_false]
    rfl
  · simp only [Logged.value_bind, Logged.value_pure, sparseRowsLog_value, if_true]
    rfl

theorem channelRead_offset (base index : Int) (k : Int) (hk : k = 0 ∨ k = 1 ∨ k = 2)
    (hm : (index - base) % 4 = 0) (m : Int) :
    channelRead base (toInt32 (index + (4 * m + k))) := by
  unfold channelRead toInt32
  omega

theorem channelRead_self (base index : Int)
    (hr : -2147483648 ≤ index ∧ index < 2147483648) (hm : (index - base) % 4 = 0) :
    channelRead base index := ⟨hr, Or.inl hm⟩

theorem channelRead_form (base index : Int) (h : channelRead base index) :
    ∃ p k : Nat, k ≤ 2 ∧ index = toInt32 (base + 4 * p + k)
      ∧ (index - base) % 4 = k := by
  obtain ⟨hr, hm⟩ := h
  rcases hm with hm | hm | hm
  · refine ⟨(((index - base - 0) / 4) % 1073741824).toNat, 0, by omega, ?_, by simpa using hm⟩
    unfold toInt32; omega
  · refine ⟨(((index - base - 1) / 4) % 1073741824).toNat, 1, by omega, ?_, by simpa using hm⟩
    unfold toInt32; omega
  · refine ⟨(((index - base - 2) / 4) % 1073741824).toNat, 2, by omega, ?_, by simpa using hm⟩
    unfold toInt32; omega

theorem step_aligned (base index d : Int) (hm : (index - base) % 4 = 0) :
    (-2147483648 ≤ toInt32 (index + toInt32 (d * 4))
        ∧ toInt32 (index + toInt32 (d * 4)) < 2147483648)
      ∧ (toInt32 (index + toInt32 (d * 4)) - base) % 4 = 0 := by
  unfold toInt32
  omega

theorem sparseColumnsLog_reads (buffer : Buffer) (rect : QRect) (currentY base : Int) :
    ∀ (fuel : Nat) (currentX index : Int) (a : Acc),
      (-2147483648 ≤ index ∧ index < 2147483648) → (index - base) % 4 = 0 →
      ∀ e ∈ (sparseColumnsLog buffer rect currentY fuel currentX index a).reads,
        e.1 = currentY ∧ channelRead base e.2 := by
  intro fuel
  induction fuel with
  | zero => intro currentX index a _ _ e he; cases he
  | succ n ih =>
    intro currentX index a hr hm
    unfold sparseColumnsLog
    split
    · have r0 : ∀ e ∈ (buffer.readLog currentY index).reads,
          e.1 = currentY ∧ channelRead base e.2 := by
        intro e he
        simp only [Buffer.readLog, List.mem_singleton] at he
        subst he
        exact ⟨rfl, channelRead_self base index hr hm⟩
      have rk : ∀ k : Int, (k = 0 ∨ k = 1 ∨ k = 2) →
          ∀ e ∈ (buffer.readLog currentY (toInt32 (index + k))).reads,
            e.1 = currentY ∧ channelRead base e.2 := by
        intro k hk e he
        simp only [Buffer.readLog, List.mem_singleton] at he
        subst he
        have := channelRead_offset base index k hk hm 0
        simpa using this
      have hs := step_aligned base index (rect.width.tdiv columnsRequired) hm
      refine Logged.reads_bind _ _ _ r0 (fun b0 => ?_)
      refine Logged.reads_bind _ _ _ (rk 1 (by omega)) (fun b1 => ?_)
      refine Logged.reads_bind _ _ _ (rk 2 (by omega)) (fun b2 => ?_)
      exact ih _ _ _ hs.1 hs.2
    · intro e he; cases he

theorem denseColumnsLog_reads (buffer : Buffer) (rect : QRect) (currentY base : Int) :
    ∀ (fuel : Nat) (currentX index : Int) (a : Acc),
      (-2147483648 ≤ index ∧ index < 2147483648) → (index - base) % 4 = 0 →
      ∀ e ∈ (denseColumnsLog buffer rect currentY fuel currentX index a).reads,
        e.1 = currentY ∧ channelRead base e.2 := by
  intro fuel
  induction fuel with
  | zero => intro currentX index a _ _ e he; cases he
  | succ n ih =>
    intro currentX index a hr hm
    unfold denseColumnsLog
    split
    · have r0 : ∀ e ∈ (buffer.readLog currentY index).reads,
          e.1 = currentY ∧ channelRead base e.2 := by
        intro e he
        simp only [Buffer.readLog, List.mem_singleton] at he
        subst he
        exact ⟨rfl, channelRead_self base index hr hm⟩
      have rk : ∀ m k : Int, (k = 0 ∨ k = 1 ∨ k = 2) → ∀ c : Int, c = 4 * m + k →
          ∀ e ∈ (buffer.readLog currentY (toInt32 (index + c))).reads,
            e.1 = currentY ∧ channelRead base e.2 := by
        intro m k hk c hc e he
        simp only [Buffer.readLog, List.mem_singleton] at he
        subst he
        subst hc
        exact ⟨rfl, channelRead_offset base index k hk hm m⟩
      have hs := step_aligned base index bytesPerPixel hm
      refine Logged.reads_bind _ _ _ r0 (fun p0 => ?_)
      refine Logged.reads_bind _ _ _ (rk 1 0 (by omega) 4 (by norm_num)) (fun p4 => ?_)
      refine Logged.reads_bind _ _ _ (rk 2 0 (by omega) 8 (by norm_num)) (fun p8 => ?_)
      refine Logged.reads_bind _ _ _ (rk 3 0 (by omega) 12 (by norm_num)) (fun p12 => ?_)
      refine Logged.reads_bind _ _ _ (rk 0 1 (by omega) 1 (by norm_num)) (fun p1 => ?_)
      refine Logged.reads_bind _ _ _ (rk 1 1 (by omega) 5 (by norm_num)) (fun p5 => ?_)
      refine Logged.reads_bind _ _ _ (rk 2 1 (by omega) 9 (by norm_num)) (fun p9 => ?_)
      refine Logged.reads_bind _ _ _ (rk 3 1 (by omega) 13 (by norm_num)) (fun p13 => ?_)
      refine Logged.reads_bind _ _ _ (rk 0 2 (by omega) 2 (by norm_num)) (fun p2 => ?_)
      refine Logged.reads_bind _ _ _ (rk 1 2 (by omega) 6 (by norm_num)) (fun p6 => ?_)
      refine Logged.reads_bind _ _ _ (rk 2 2 (by omega) 10 (by norm_num)) (fun p10 => ?_)
      refine Logged.reads_bind _ _ _ (rk 3 2 (by omega) 14 (by norm_num)) (fun p14 => ?_)
      exact ih _ _ _ hs.1 hs.2
    · intro e he; cases he

theorem baseIndexOfLine_range (currentY : Int) (pitch : Nat) (rect : QRect) :
    -2147483648 ≤ baseIndexOfLine currentY pitch rect
      ∧ baseIndexOfLine currentY pitch rect < 2147483648 :=
  toInt32_range _

theorem sparseRowsLog_reads (buffer : Buffer) (pitch : Nat) (rect : QRect) (inner : Nat) :
    ∀ (fuel : Nat) (currentY : Int) (a : Acc),
      ∀ e ∈ (sparseRowsLog buffer pitch rect inner fuel currentY a).reads,
        channelRead (baseIndexOfLine e.1 pitch rect) e.2 := by
  intro fuel
  induction fuel with
  | zero => intro currentY a e he; cases he
  | succ n ih =>
    intro currentY a
    unfold sparseRowsLog
    split
    · refine Logged.reads_bind _ _ _ (fun e he => ?_) (fun a1 => ih _ _)
      have h := sparseColumnsLog_reads buffer rect currentY
        (baseIndexOfLine currentY pitch rect) inner 0 _ a
        (baseIndexOfLine_range currentY pitch rect) (by simp) e he
      rw [h.1]
      exact h.2
    · intro e he; cases he

theorem denseRowsLog_reads (buffer : Buffer) (pitch : Nat) (rect : QRect) (inner : Nat) :
    ∀ (fuel : Nat) (currentY : Int) (a : Acc),
      ∀ e ∈ (denseRowsLog buffer pitch rect inner fuel currentY a).reads,
        channelRead (baseIndexOfLine e.1 pitch rect) e.2 := by
  intro fuel
  induction fuel with
  | zero => intro currentY a e he; cases he
  | succ n ih =>
    intro currentY a
    unfold denseRowsLog
    split
    · refine Logged.reads_bind _ _ _ (fun e he => ?_) (fun a1 => ih _ _)
      have h := denseColumnsLog_reads buffer rect currentY
        (baseIndexOfLine currentY pitch rect) inner 0 _ a
        (baseIndexOfLine_range currentY pitch rect) (by simp) e he
      rw [h.1]
      exact h.2
    · intro e he; cases he

theorem accumulateBufferLog_reads (fuel : Nat) (buffer : Buffer) (pitch : Nat) (rect : QRect)
    (optimized : Bool) :
    ∀ e ∈ (accumulateBufferLog fuel buffer pitch rect optimized).reads,
      channelRead (baseIndexOfLine e.1 pitch rect) e.2 := by
  unfold accumulateBufferLog
  cases optimized
  · simp only [Bool.false_eq_true, if_false]
    refine Logged.reads_bind _ _ _ (denseRowsLog_reads buffer pitch rect fuel fuel 0 _) ?_
    intro a e he
    exact absurd he (List.not_mem_nil e)
  · simp only [if_true]
    refine Logged.reads_bind _ _ _ (sparseRowsLog_reads buffer pitch rect fuel fuel 0 _) ?_
    intro a e he
    exact absurd he (List.not_mem_nil e)

/-- The reads of the exhaustive walk over one row of four pixels, in program order. -/
theorem accumulateBufferLog_dense_example :
    (accumulateBufferLog 2 (patternBuffer 32 30 20 10 77) 16 ⟨0, 1, 4, 1⟩ false).reads
      = [(0, 16), (0, 20), (0, 24), (0, 28), (0, 17), (0, 21), (0, 25), (0, 29),
          (0, 18), (0, 22), (0, 26), (0, 30)] := by
  rfl

/-- C15: the walk of `accumulateBuffer`, sparse or exhaustive, with every read recorded,
delivers what `accumulateBuffer` delivers, and every read `buffer[index]` it performs while
processing the row `currentY` (whether or not the walk terminates) has an index of the form
`base + 4 * p + k` in `int` arithmetic, with `base = baseIndexOfLine currentY pitch rect`,
`p ≥ 0` and `k` in `{0, 1, 2}`; the distance of the index from `base` is `k` modulo 4,
never 3. -/
theorem accumulateBuffer_never_reads_fourth_byte (fuel : Nat) (buffer : Buffer) (pitch : Nat)
    (rect : QRect) (optimized : Bool) :
    (accumulateBufferLog fuel buffer pitch rect optimized).value
        = accumulateBuffer fuel buffer pitch rect optimized
      ∧ ∀ currentY index : Int,
          (currentY, index) ∈ (accumulateBufferLog fuel buffer pitch rect optimized).reads →
          (∃ p k : Nat, k ≤ 2
              ∧ index = toInt32 (baseIndexOfLine currentY pitch rect + 4 * p + k)
              ∧ (index - baseIndexOfLine currentY pitch rect) % 4 = k)
            ∧ (index - baseIndexOfLine currentY pitch rect) % 4 ≠ 3 := by
  refine ⟨accumulateBufferLog_value fuel buffer pitch rect optimized, ?_⟩
  intro currentY index he
  have h := accumulateBufferLog_reads fuel buffer pitch rect optimized (currentY, index) he
  refine ⟨channelRead_form _ _ h, ?_⟩
  obtain ⟨-, hm⟩ := h
  simp only at hm
  omega

/-! ## RGBA and BGRA as shifted ARGB and ABGR -/

theorem Buffer.read_advance_one (b : Buffer) (index : Int) :
    (b.advance 1).read index = b.read (index + 1) := by
  have h : ((b.off + 1 : Nat) : Int) + index = (b.off : Int) + (index + 1) := by
    push_cast
    ring
  simp only [Buffer.read, Buffer.advance, h]

theorem Logged.mem_reads_bind_left {α β : Type} (x : Logged α) (f : α → Logged β)
    (e : Int × Int) (he : e ∈ x.reads) : e ∈ (x >>= f).reads := by
  show e ∈ (Logged.andThen x f).reads
  unfold Logged.andThen
  cases h : x.value with
  | error err => exact he
  | ok a => exact List.mem_append_left _ he

theorem Logged.mem_reads_bind_right {α β : Type} (x : Logged α) (f : α → Logged β) (a : α)
    (e : Int × Int) (hv : x.value = .ok a) (he : e ∈ (f a).reads) :
    e ∈ (x >>= f).reads := by
  show e ∈ (Logged.andThen x f).reads
  unfold Logged.andThen
  simp only [hv]
  exact List.mem_append_right _ he

/-- A step of a run gives what the recorded run gives, if both halves do so wherever the
property `P` holds of the reads recorded. -/
theorem bind_eq_value_bind {α β : Type} (P : Int × Int → Prop) (x1 : Except Fault α)
    (xl : Logged α) (f1 : α → Except Fault β) (fl : α → Logged β)
    (H : ∀ e ∈ (xl >>= fl).reads, P e)
    (hx : (∀ e ∈ xl.reads, P e) → x1 = xl.value)
    (hf : ∀ a, (∀ e ∈ (fl a).reads, P e) → f1 a = (fl a).value) :
    (x1 >>= f1) = (xl >>= fl).value := by
  rw [Logged.value_bind, hx (fun e he => H e (Logged.mem_reads_bind_left xl fl e he))]
  cases hv : xl.value with
  | error err => rfl
  | ok a =>
    show f1 a = (fl a).value
    exact hf a (fun e he => H e (Logged.mem_reads_bind_right xl fl a e hv he))

theorem sparseColumns_eq_of_reads (b1 b2 : Buffer) (rect : QRect) (currentY : Int) :
    ∀ (fuel : Nat) (currentX index : Int) (a : Acc),
      (∀ e ∈ (sparseColumnsLog b2 rect currentY fuel currentX index a).reads,
        b1.read e.2 = b2.read e.2) →
      sparseColumns b1 rect fuel currentX index a
        = (sparseColumnsLog b2 rect currentY fuel currentX index a).value := by
  intro fuel
  induction fuel with
  | zero => intro currentX index a _; rfl
  | succ n ih =>
    intro currentX index a H
    unfold sparseColumnsLog at H ⊢
    unfold sparseColumns
    by_cases hc : currentX < rect.width
    · simp only [if_pos hc] at H ⊢
      have rd : ∀ i : Int,
          (∀ e ∈ (b2.readLog currentY i).reads, b1.read e.2 = b2.read e.2) →
          b1.read i = (b2.readLog currentY i).value :=
        fun i h => h (currentY, i) (List.mem_singleton.2 rfl)
      refine bind_eq_value_bind (fun e => b1.read e.2 = b2.read e.2) _ _ _ _ H (rd _)
        (fun v0 H0 => ?_)
      refine bind_eq_value_bind (fun e => b1.read e.2 = b2.read e.2) _ _ _ _ H0 (rd _)
        (fun v1 H1 => ?_)
      refine bind_eq_value_bind (fun e => b1.read e.2 = b2.read e.2) _ _ _ _ H1 (rd _)
        (fun v2 H2 => ?_)
      exact ih _ _ _ H2
    · simp only [if_neg hc]
      rfl

theorem sparseRows_eq_of_reads (b1 b2 : Buffer) (pitch : Nat) (rect : QRect) (inner : Nat) :
    ∀ (fuel : Nat) (currentY : Int) (a : Acc),
      (∀ e ∈ (sparseRowsLog b2 pitch rect inner fuel currentY a).reads,
        b1.read e.2 = b2.read e.2) →
      sparseRows b1 pitch rect inner fuel currentY a
        = (sparseRowsLog b2 pitch rect inner fuel currentY a).value := by
  intro fuel
  induction fuel with
  | zero => intro currentY a _; rfl
  | succ n ih =>
    intro currentY a H
    unfold sparseRowsLog at H ⊢
    unfold sparseRows
    by_cases hc : currentY < rect.height
    · simp only [if_pos hc] at H ⊢
      exact bind_eq_value_bind (fun e => b1.read e.2 = b2.read e.2) _ _ _ _ H
        (fun h => sparseColumns_eq_of_reads b1 b2 rect currentY inner 0 _ a h)
        (fun a1 H1 => ih _ _ H1)
    · simp only [if_neg hc]
      rfl

/-- The sparse accumulation gives the same outcome on two buffers that agree on every read
the accumulation performs on the second one. -/
theorem accumulateBuffer_sparse_eq_of_reads (b1 b2 : Buffer) (fuel : Nat) (pitch : Nat)
    (rect : QRect)
    (H : ∀ e ∈ (accumulateBufferLog fuel b2 pitch rect true).reads,
      b1.read e.2 = b2.read e.2) :
    accumulateBuffer fuel b1 pitch rect true = accumulateBuffer fuel b2 pitch rect true := by
  rw [← accumulateBufferLog_value fuel b2 pitch rect true]
  unfold accumulateBufferLog at H ⊢
  unfold accumulateBuffer
  simp only [if_true] at H ⊢
  exact bind_eq_value_bind (fun e => b1.read e.2 = b2.read e.2) _ _ _ _ H
    (fun h => sparseRows_eq_of_reads b1 b2 pitch rect fuel fuel 0 _ h)
    (fun a1 _ => rfl)

theorem calculateAvgColor_congr (fuel result : Nat) (b1 b2 : Buffer)
    (f1 f2 : BufferFormat) (pitch : Nat) (rect : QRect)
    (h : accumulateBufferByFormat fuel b1 f1 pitch rect
      = accumulateBufferByFormat fuel b2 f2 pitch rect) :
    calculateAvgColor fuel result b1 f1 pitch rect
      = calculateAvgColor fuel result b2 f2 pitch rect := by
  rw [calculateAvgColor_eq_switch, calculateAvgColor_eq_switch, h]

/-- C16: a buffer `shifted` is the buffer `b` with its first byte dropped, as far as the
accumulation goes, if every read `shifted[index]` that the sparse accumulation performs on
`shifted` gives what `b[index + 1]` gives (the same byte, or a fault outside the block).
The buffer `b.advance 1` of the source's `buffer += 1` reads so at every index. For every
such `shifted`, and every pitch, rectangle and iteration bound,
`accumulateBufferFormatRgba` on `b` has the same outcome, count and `(r, g, b)` sums, as
`accumulateBufferFormatArgb` on `shifted`, `accumulateBufferFormatBgra` on `b` the same as
`accumulateBufferFormatAbgr` on `shifted`, and `calculateAvgColor` with `RGBA` (resp.
`BGRA`) on `b` the same as `calculateAvgColor` with `ARGB` (resp. `ABGR`) on `shifted`. -/
theorem accumulateBufferFormat_shifted (fuel result : Nat) (b : Buffer) (pitch : Nat)
    (rect : QRect) :
    (∀ index : Int, (b.advance 1).read index = b.read (index + 1))
      ∧ ∀ shifted : Buffer,
        (∀ currentY index : Int,
          (currentY, index) ∈ (accumulateBufferLog fuel shifted pitch rect true).reads →
          shifted.read index = b.read (index + 1)) →
        accumulateBufferFormatRgba fuel b pitch rect
            = accumulateBufferFormatArgb fuel shifted pitch rect
          ∧ accumulateBufferFormatBgra fuel b pitch rect
            = accumulateBufferFormatAbgr fuel shifted pitch rect
          ∧ calculateAvgColor fuel result b .BufferFormatRgba pitch rect
            = calculateAvgColor fuel result shifted .BufferFormatArgb pitch rect
          ∧ calculateAvgColor fuel result b .BufferFormatBgra pitch rect
            = calculateAvgColor fuel result shifted .BufferFormatAbgr pitch rect := by
  refine ⟨Buffer.read_advance_one b, fun shifted hshift => ?_⟩
  have hacc := accumulateBuffer_sparse_eq_of_reads (b.advance 1) shifted fuel pitch rect
    (fun e he => by rw [Buffer.read_advance_one, hshift e.1 e.2 he])
  have e1 : accumulateBufferFormatRgba fuel b pitch rect
      = accumulateBufferFormatArgb fuel shifted pitch rect := by
    unfold accumulateBufferFormatRgba accumulateBufferFormatArgb
    rw [hacc]
  have e2 : accumulateBufferFormatBgra fuel b pitch rect
      = accumulateBufferFormatAbgr fuel shifted pitch rect := by
    unfold accumulateBufferFormatBgra accumulateBufferFormatAbgr
    rw [hacc]
  refine ⟨e1, e2, ?_, ?_⟩
  · exact calculateAvgColor_congr fuel result _ _ _ _ pitch rect
      (by simp only [accumulateBufferByFormat, e1])
  · exact calculateAvgColor_congr fuel result _ _ _ _ pitch rect
      (by simp only [accumulateBufferByFormat, e2])

theorem toInt32_emod_four (n : Int) : toInt32 n % 4 = n % 4 := by
  unfold toInt32
  omega

theorem toUInt32_toInt32_mul_four (n : Int) : toUInt32 (toInt32 (n * 4)) % 4 = 0 := by
  unfold toUInt32 toInt32
  omega

theorem baseIndexOfLine_aligned (currentY : Int) (pitch : Nat) (rect : QRect)
    (hp : pitch % 4 = 0) : baseIndexOfLine currentY pitch rect % 4 = 0 := by
  unfold baseIndexOfLine bytesPerPixel
  rw [toInt32_emod_four]
  have hv := toUInt32_toInt32_mul_four rect.x
  generalize toUInt32 (toInt32 (rect.x * 4)) = v at hv
  have hA : (pitch * toUInt32 (toInt32 (rect.y + currentY))) % 4 = 0 := by
    rw [Nat.mul_mod, hp]
    simp
  generalize pitch * toUInt32 (toInt32 (rect.y + currentY)) = A at hA
  have hN : (A % 4294967296 + v) % 4294967296 % 4 = 0 := by
    clear hp
    omega
  exact_mod_cast hN

/-- The bytes of `patternBuffer 1028 77 30 20 10` from its second byte on form the buffer
`patternBuffer 1027 30 20 10 77`; the two read alike, one position apart, at every index
that is not the last byte of a group of four. -/
theorem patternBuffer_dropped_read (index : Int) (h : index % 4 ≠ 3) :
    (patternBuffer 1027 30 20 10 77).read index
      = (patternBuffer 1028 77 30 20 10).read (index + 1) := by
  unfold Buffer.read patternBuffer
  simp only
  by_cases h0 : 0 ≤ index ∧ index < 1027
  · have c1 : 0 ≤ ((0 : Nat) : Int) + index ∧ ((0 : Nat) : Int) + index < ((1027 : Nat) : Int) := by
      push_cast; omega
    have c2 : 0 ≤ ((0 : Nat) : Int) + (index + 1)
        ∧ ((0 : Nat) : Int) + (index + 1) < ((1028 : Nat) : Int) := by
      push_cast; omega
    rw [if_pos c1, if_pos c2]
    obtain ⟨n, rfl⟩ : ∃ n : Nat, index = n := ⟨index.toNat, by omega⟩
    have t1 : (((0 : Nat) : Int) + (n : Int)).toNat = n := by omega
    have t2 : (((0 : Nat) : Int) + ((n : Int) + 1)).toNat = n + 1 := by omega
    rw [t1, t2]
    have hn : n % 4 = 0 ∨ n % 4 = 1 ∨ n % 4 = 2 := by omega
    rcases hn with hn | hn | hn
    · have hn1 : (n + 1) % 4 = 1 := by omega
      simp [hn, hn1]
    · have hn1 : (n + 1) % 4 = 2 := by omega
      simp [hn, hn1]
    · have hn1 : (n + 1) % 4 = 3 := by omega
      simp [hn, hn1]
  · have c1 : ¬ (0 ≤ ((0 : Nat) : Int) + index
        ∧ ((0 : Nat) : Int) + index < ((1027 : Nat) : Int)) := by
      push_cast; omega
    have c2 : ¬ (0 ≤ ((0 : Nat) : Int) + (index + 1)
        ∧ ((0 : Nat) : Int) + (index + 1) < ((1028 : Nat) : Int)) := by
      push_cast; omega
    rw [if_neg c1, if_neg c2]

theorem accumulateBufferFormat_shifted_witness :
    accumulateBufferFormatRgba 32 (patternBuffer 1028 77 30 20 10) 64 ⟨0, 0, 16, 16⟩
        = accumulateBufferFormatArgb 32 (patternBuffer 1027 30 20 10 77) 64 ⟨0, 0, 16, 16⟩
      ∧ accumulateBufferFormatBgra 32 (patternBuffer 1028 77 30 20 10) 64 ⟨0, 0, 16, 16⟩
        = accumulateBufferFormatAbgr 32 (patternBuffer 1027 30 20 10 77) 64 ⟨0, 0, 16, 16⟩
      ∧ calculateAvgColor 32 0 (patternBuffer 1028 77 30 20 10) .BufferFormatRgba 64
          ⟨0, 0, 16, 16⟩
        = calculateAvgColor 32 0 (patternBuffer 1027 30 20 10 77) .BufferFormatArgb 64
          ⟨0, 0, 16, 16⟩
      ∧ calculateAvgColor 32 0 (patternBuffer 1028 77 30 20 10) .BufferFormatBgra 64
          ⟨0, 0, 16, 16⟩
        = calculateAvgColor 32 0 (patternBuffer 1027 30 20 10 77) .BufferFormatAbgr 64
          ⟨0, 0, 16, 16⟩ :=
  (accumulateBufferFormat_shifted 32 0 (patternBuffer 1028 77 30 20 10) 64
    ⟨0, 0, 16, 16⟩).2 (patternBuffer 1027 30 20 10 77)
    (fun currentY index he => by
      have h := accumulateBufferLog_reads 32 (patternBuffer 1027 30 20 10 77) 64
        ⟨0, 0, 16, 16⟩ true (currentY, index) he
      have hb := baseIndexOfLine_aligned currentY 64 ⟨0, 0, 16, 16⟩ (by decide)
      obtain ⟨-, hm⟩ := h
      simp only at hm
      exact patternBuffer_dropped_read index (by omega))

end Grab
